import Mathlib

/-!
# Got Rhythm: scorer, cycle-phase mapping, swing, phase entry and scheduler

A shallow embedding of `src/script.js`.

Conventions of the embedding:
* JavaScript numbers that hold times (seconds, milliseconds, beats) are exact
  rationals `ℚ`; numbers that hold counts and beat indices are `Nat` / `Int`.
  Where the rounding of doubles bears on a result (the sum of the matched errors in
  `scoreRound`, taken in match order) the function is given a second time with every
  operation rounded to the nearest double (`roundDouble`, `scoreRoundD`).
* Module-level mutable variables read by a function (`countInAnchorBeat`) are
  explicit parameters.
* `Array.prototype.sort` is a stable sort; it is embedded as insertion sort with
  the relation `a.t ≤ b.t`, which keeps elements of equal time in input order.
* The pair of loop variables `bestIdx = -1`, `bestErr = Infinity` is one
  `Option (Nat × ℚ)`: `none` is the initial pair, `some (idx, err)` any later one.
* `usedAct` (a JavaScript `Set` of indices) is the list of its members in
  insertion order; `usedAct.size` is its length.
* What a function reads from the page or the audio clock is a parameter: the tempo
  field, the difficulty selector, the value of `Math.random()`, and `ctx.currentTime`
  (`now`), which does not change during one pass of `scheduleTick`.
* The `while` loop of `scheduleTick` carries a bound on its number of iterations and
  returns `none` when the bound is too small; the timers it sets are returned as a list
  of `BeatEvent`s.
* No timer is ever cancelled by the code (`stopScheduler` clears the interval only), so
  a run of the scheduler (`Run`) carries the phase entries that an earlier game left
  pending: each of them may take effect between two passes of the new game.
-/

namespace GotRhythm

/-! ## Tunables -/

/-- The value of `SCORING.MATCH_MAX_MS`. -/
def MATCH_MAX_MS : ℚ := 180
/-- The value of `SCORING.TIER_5_MS`. -/
def TIER_5_MS : ℚ := 55
/-- The value of `SCORING.TIER_4_MS`. -/
def TIER_4_MS : ℚ := 90
/-- The value of `SCORING.TIER_3_MS`. -/
def TIER_3_MS : ℚ := 125
/-- The value of `SCORING.TIER_2_MS`. -/
def TIER_2_MS : ℚ := 165
/-- The value of `SWING_FIRST_FRACTION`, `2 / 3`. -/
def SWING_FIRST_FRACTION : ℚ := 2 / 3
/-- The value of `CYCLE_BEATS`. -/
def CYCLE_BEATS : Int := 16

/-! ## Data model -/

/-- The instrument tokens `"K"` and `"S"`. -/
inductive Instrument where
  | K
  | S
deriving DecidableEq, Repr

/-- An expected event `{ when, i, beatT }` as built by `patternTimesSec`. -/
structure PlayEvent where
  when : ℚ
  i : Instrument
  beatT : ℚ
deriving DecidableEq, Repr

/-- A captured hit `{ tSec, i }` as pushed by `registerHit`. -/
structure Hit where
  tSec : ℚ
  i : Instrument
deriving DecidableEq, Repr

/-- The normalised `{ t, i }` record `scoreRound` sorts and matches. -/
structure Ev where
  t : ℚ
  i : Instrument
deriving DecidableEq, Repr

/-- An entry `{ errMs, i }` of the `matches` array. -/
structure Match where
  errMs : ℚ
  i : Instrument
deriving DecidableEq, Repr

/-- The object returned by `scoreRound` (without the display string
`summaryLine`); `matchList` is the `matches` array. -/
structure ScoreResult where
  score : Nat
  matchList : List Match
  misses : Int
  extras : Int
  avgErrMs : ℚ
  effectiveErr : ℚ
deriving DecidableEq, Repr

/-- The `PHASE` constants. -/
inductive Phase where
  | COUNTIN
  | LISTEN
  | READY
  | PLAY
  | SCORE
deriving DecidableEq, Repr

/-! ## scoreRound -/

/-- The call `.sort((a, b) => a.t - b.t)`: stable, ascending in `t`. -/
def sortByT (l : List Ev) : List Ev :=
  l.insertionSort (fun a b => a.t ≤ b.t)

/-- The test `errMs < bestErr`, where `none` stands for `bestErr = Infinity`. -/
def errBelow (errMs : ℚ) : Option (Nat × ℚ) → Bool
  | none => true
  | some (_, bestErr) => decide (errMs < bestErr)

/-- The inner loop `for (let ai = 0; ai < act.length; ai++)` of `scoreRound`,
run on the part of `act` that starts at index `ai`. -/
def scan (e : Ev) (usedAct : List Nat) : List Ev → Nat → Option (Nat × ℚ) → Option (Nat × ℚ)
  | [], _, best => best
  | a :: rest, ai, best =>
    if ai ∈ usedAct then scan e usedAct rest (ai + 1) best
    else if a.i ≠ e.i then scan e usedAct rest (ai + 1) best
    else
      let errMs := |a.t - e.t| * 1000
      if errMs ≤ MATCH_MAX_MS ∧ errBelow errMs best = true then
        scan e usedAct rest (ai + 1) (some (ai, errMs))
      else scan e usedAct rest (ai + 1) best

/-- The call `usedAct.add(x)` on a `Set`. -/
def setAdd (usedAct : List Nat) (x : Nat) : List Nat :=
  if x ∈ usedAct then usedAct else usedAct ++ [x]

/-- The outer loop `for (let ei = 0; ei < exp.length; ei++)` of `scoreRound`, run on
the expected events not yet processed, threading `usedAct` and `matches`. -/
def matchLoop (act : List Ev) : List Ev → List Nat → List Match → List Nat × List Match
  | [], usedAct, matchList => (usedAct, matchList)
  | e :: rest, usedAct, matchList =>
    match scan e usedAct act 0 none with
    | some (bestIdx, bestErr) =>
      matchLoop act rest (setAdd usedAct bestIdx) (matchList ++ [⟨bestErr, e.i⟩])
    | none => matchLoop act rest usedAct matchList

/-- The tier cascade at the end of `scoreRound`. -/
def tierScore (effectiveErr : ℚ) (misses extras : Int) : Nat :=
  if effectiveErr ≤ TIER_5_MS ∧ misses = 0 ∧ extras = 0 then 5
  else if effectiveErr ≤ TIER_4_MS then 4
  else if effectiveErr ≤ TIER_3_MS then 3
  else if effectiveErr ≤ TIER_2_MS then 2
  else 1

/-- The sorted array `exp` of `scoreRound`. -/
def expOf (expected : List PlayEvent) : List Ev :=
  sortByT (expected.map (fun e => ⟨e.when, e.i⟩))

/-- The sorted array `act` of `scoreRound`. -/
def actOf (actual : List Hit) : List Ev :=
  sortByT (actual.map (fun a => ⟨a.tSec, a.i⟩))

/-- The function `scoreRound(expected, actual)` in exact arithmetic. The same function
with every operation rounded to a double is `scoreRoundD`. -/
def scoreRound (expected : List PlayEvent) (actual : List Hit) : ScoreResult :=
  let exp := expOf expected
  let act := actOf actual
  let maxMs := MATCH_MAX_MS
  let r := matchLoop act exp [] []
  let usedAct := r.1
  let matchList := r.2
  let misses : Int := (exp.length : Int) - (matchList.length : Int)
  let extras : Int := (act.length : Int) - (usedAct.length : Int)
  let avgErrMs : ℚ :=
    if matchList.length ≠ 0 then
      (matchList.foldl (fun s m => s + m.errMs) 0) / (matchList.length : ℚ)
    else maxMs
  let totalExpected : ℚ := ((max 1 exp.length : Nat) : ℚ)
  let missPenalty : ℚ := (misses : ℚ) / totalExpected
  let extraPenalty : ℚ := (extras : ℚ) / totalExpected
  let effectiveErr : ℚ := avgErrMs * (1 + 0.85 * missPenalty + 0.55 * extraPenalty)
  let score := tierScore effectiveErr misses extras
  { score := score, matchList := matchList, misses := misses, extras := extras,
    avgErrMs := avgErrMs, effectiveErr := effectiveErr }

/-! ## Predicates used to state what the matching loop does -/

/-- Hit number `j` of `act` is a candidate for the expected event `e` with error `err`:
it is not yet in `usedAct`, has the instrument of `e`, and its error in milliseconds,
`err`, is at most the match ceiling. -/
def Cand (e : Ev) (usedAct : List Nat) (act : List Ev) (j : Nat) (err : ℚ) : Prop :=
  ∃ a, act[j]? = some a ∧ j ∉ usedAct ∧ a.i = e.i ∧ err = |a.t - e.t| * 1000 ∧
    err ≤ MATCH_MAX_MS

/-- The outcome `r` of one pass of the inner loop is right for `e`: `none` when there is
no candidate; otherwise a candidate of least error, and of least index among those. -/
def FirstBest (e : Ev) (usedAct : List Nat) (act : List Ev) : Option (Nat × ℚ) → Prop
  | none => ∀ j err, ¬ Cand e usedAct act j err
  | some (j, err) => Cand e usedAct act j err ∧
      ∀ j2 err2, Cand e usedAct act j2 err2 → err ≤ err2 ∧ (err2 = err → j ≤ j2)

/-- The pair `p = (ei, ai)` and the entry `m` of `matches` belong together: `m` records
the error between expected event `ei` and hit `ai`, which have the same instrument and lie
within the match ceiling of each other. -/
def PairOk (exp act : List Ev) (p : Nat × Nat) (m : Match) : Prop :=
  ∃ e a, exp[p.1]? = some e ∧ act[p.2]? = some a ∧ a.i = e.i ∧
    m.errMs = |a.t - e.t| * 1000 ∧ m.errMs ≤ MATCH_MAX_MS ∧ m.i = e.i

/-- The list `pairs` of (expected index, hit index) pairs explains the loop state
`(usedAct, matchList)` reached after the first `n` expected events: the hit indices are
`usedAct`, no hit index occurs twice, the expected indices increase strictly and are below
`n`, and the entries of `matchList` are the errors of the pairs, in order. -/
def Pairing (exp act : List Ev) (n : Nat) (pairs : List (Nat × Nat)) (usedAct : List Nat)
    (matchList : List Match) : Prop :=
  usedAct = pairs.map Prod.snd ∧ usedAct.Nodup ∧ (pairs.map Prod.fst).Sorted (· < ·) ∧
  (∀ p ∈ pairs, p.1 < n) ∧ List.Forall₂ (PairOk exp act) pairs matchList

/-- The hit array `act2` is the hit array `act` with its indices renamed by `f`, apart
from the indices of `act2` marked `bad`, which have no counterpart in `act`. The renaming
keeps the order of the indices of hits of the same instrument. -/
structure Renaming (f : Nat → Nat) (bad : Nat → Prop) (act act2 : List Ev) : Prop where
  inj : ∀ j1 j2, f j1 = f j2 → j1 = j2
  fwd : ∀ j a, act[j]? = some a → act2[f j]? = some a
  bwd : ∀ j2 a, act2[j2]? = some a → bad j2 ∨ ∃ j, f j = j2 ∧ act[j]? = some a
  mono : ∀ j1 j2 a1 a2, act[j1]? = some a1 → act[j2]? = some a2 → a1.i = a2.i →
    j1 ≤ j2 → f j1 ≤ f j2
  notBad : ∀ j, ¬ bad (f j)

/-- The renaming of indices when one entry is inserted at index `k`: indices below `k`
stay, the others move up by one. -/
def skipIdx (k j : Nat) : Nat := if j < k then j else j + 1

/-- The renaming of indices when the entries at `k` and `k + 1` change places. -/
def swapIdx (k j : Nat) : Nat := if j = k then k + 1 else if j = k + 1 then k else j

/-- One exchange of two neighbouring entries that have different instruments. -/
inductive SwapStep : List Ev → List Ev → Prop where
  | swap (X Y : List Ev) (a b : Ev) : a.i ≠ b.i → SwapStep (X ++ a :: b :: Y) (X ++ b :: a :: Y)

/-- Two states of the matching loop agree on what `scoreRound` reads from them: the
size of `usedAct`, and the entries of `matches` up to their order. -/
def LoopEq (r r2 : List Nat × List Match) : Prop :=
  r.1.length = r2.1.length ∧ r.2.Perm r2.2

/-! ## scoreRound in double precision -/

/-- The power `2^k` for an integer `k`. -/
def pow2 (k : Int) : ℚ :=
  if 0 ≤ k then (2 : ℚ) ^ k.toNat else 1 / (2 : ℚ) ^ (-k).toNat

/-- The loop behind `natLog2`: halve `n` while it is at least 2, at most `fuel` times. -/
def natLog2Aux : Nat → Nat → Nat
  | 0, _ => 0
  | fuel + 1, n => if 2 ≤ n then natLog2Aux fuel (n / 2) + 1 else 0

/-- The position of the leading bit of `n`: the `k` with `2^k ≤ n < 2^(k+1)` for `n ≥ 1`. -/
def natLog2 (n : Nat) : Nat := natLog2Aux n n

/-- The binary exponent of a positive rational `x`: the `e` with `2^e ≤ x < 2^(e+1)`. -/
def floorLog2 (x : ℚ) : Int :=
  let e0 : Int := (natLog2 x.num.natAbs : Int) - (natLog2 x.den : Int)
  if x < pow2 e0 then e0 - 1 else e0

/-- Rounding to the nearest integer, a tie going to the even one. -/
def roundHalfEven (y : ℚ) : Int :=
  let f := ⌊y⌋
  let r := y - (f : ℚ)
  if r < 1 / 2 then f
  else if 1 / 2 < r then f + 1
  else if f % 2 = 0 then f else f + 1

/-- The IEEE 754 double nearest to the real number `x`, as a rational: 53 bits of
significand, round to nearest with ties to even, subnormal numbers below `2^-1022`.
Overflow to `Infinity` is left out: the times and errors of a round are far below the
largest double. Each arithmetic operation of JavaScript on doubles is the exact operation
followed by this rounding. -/
def roundDouble (x : ℚ) : ℚ :=
  if x = 0 then 0
  else
    let m := |x|
    let e := max (floorLog2 m) (-1022)
    let q := pow2 (e - 52)
    let v := ((roundHalfEven (m / q) : Int) : ℚ) * q
    if 0 < x then v else -v

/-- The expression `Math.abs(a.t - e.t) * 1000` on doubles. -/
def errMsD (a e : Ev) : ℚ := roundDouble (|roundDouble (a.t - e.t)| * 1000)

/-- The inner loop of `scoreRound` (see `scan`), with the error of a hit against an
expected event computed by `errOf`. -/
def scanG (errOf : Ev → Ev → ℚ) (e : Ev) (usedAct : List Nat) :
    List Ev → Nat → Option (Nat × ℚ) → Option (Nat × ℚ)
  | [], _, best => best
  | a :: rest, ai, best =>
    if ai ∈ usedAct then scanG errOf e usedAct rest (ai + 1) best
    else if a.i ≠ e.i then scanG errOf e usedAct rest (ai + 1) best
    else
      let errMs := errOf a e
      if errMs ≤ MATCH_MAX_MS ∧ errBelow errMs best = true then
        scanG errOf e usedAct rest (ai + 1) (some (ai, errMs))
      else scanG errOf e usedAct rest (ai + 1) best

/-- The outer loop of `scoreRound` (see `matchLoop`), with the error of a hit against an
expected event computed by `errOf`. -/
def matchLoopG (errOf : Ev → Ev → ℚ) (act : List Ev) :
    List Ev → List Nat → List Match → List Nat × List Match
  | [], usedAct, matchList => (usedAct, matchList)
  | e :: rest, usedAct, matchList =>
    match scanG errOf e usedAct act 0 none with
    | some (bestIdx, bestErr) =>
      matchLoopG errOf act rest (setAdd usedAct bestIdx) (matchList ++ [⟨bestErr, e.i⟩])
    | none => matchLoopG errOf act rest usedAct matchList

/-- The expression `matches.reduce((s, m) => s + m.errMs, 0)` on doubles: the errors are
added from left to right, each sum rounded. -/
def sumErrD (matchList : List Match) : ℚ :=
  matchList.foldl (fun s m => roundDouble (s + m.errMs)) 0

/-- The value of `avgErrMs` in `scoreRound` on doubles. -/
def avgErrMsD (matchList : List Match) : ℚ :=
  if matchList.length ≠ 0 then roundDouble (sumErrD matchList / (matchList.length : ℚ))
  else MATCH_MAX_MS

/-- The function `scoreRound(expected, actual)` with every arithmetic operation carried
out on doubles. The event and hit times are taken to be doubles. The comparator of the
sort is left exact: the difference of two doubles has the sign of the exact difference. -/
def scoreRoundD (expected : List PlayEvent) (actual : List Hit) : ScoreResult :=
  let exp := expOf expected
  let act := actOf actual
  let r := matchLoopG errMsD act exp [] []
  let usedAct := r.1
  let matchList := r.2
  let misses : Int := (exp.length : Int) - (matchList.length : Int)
  let extras : Int := (act.length : Int) - (usedAct.length : Int)
  let avgErrMs : ℚ := avgErrMsD matchList
  let totalExpected : ℚ := ((max 1 exp.length : Nat) : ℚ)
  let missPenalty : ℚ := roundDouble ((misses : ℚ) / totalExpected)
  let extraPenalty : ℚ := roundDouble ((extras : ℚ) / totalExpected)
  let effectiveErr : ℚ :=
    roundDouble (avgErrMs *
      roundDouble (roundDouble (1 + roundDouble (roundDouble 0.85 * missPenalty)) +
        roundDouble (roundDouble 0.55 * extraPenalty)))
  let score := tierScore effectiveErr misses extras
  { score := score, matchList := matchList, misses := misses, extras := extras,
    avgErrMs := avgErrMs, effectiveErr := effectiveErr }

/-- Predicates `Cand` and `FirstBest` for the loops with the error computed by `errOf`:
hit number `j` is a candidate for `e` with error `err`. -/
def CandG (errOf : Ev → Ev → ℚ) (e : Ev) (usedAct : List Nat) (act : List Ev) (j : Nat)
    (err : ℚ) : Prop :=
  ∃ a, act[j]? = some a ∧ j ∉ usedAct ∧ a.i = e.i ∧ err = errOf a e ∧ err ≤ MATCH_MAX_MS

/-- The outcome of one pass of the inner loop is right for `e` (see `FirstBest`). -/
def FirstBestG (errOf : Ev → Ev → ℚ) (e : Ev) (usedAct : List Nat) (act : List Ev) :
    Option (Nat × ℚ) → Prop
  | none => ∀ j err, ¬ CandG errOf e usedAct act j err
  | some (j, err) => CandG errOf e usedAct act j err ∧
      ∀ j2 err2, CandG errOf e usedAct act j2 err2 → err ≤ err2 ∧ (err2 = err → j ≤ j2)

/-- The expected events of the order example: a Kick at 0 s, then a Kick and a Snare
both at 1 s. -/
def orderExpected : List PlayEvent :=
  [⟨0, Instrument.K, 0⟩, ⟨1, Instrument.K, 1⟩, ⟨1, Instrument.S, 1⟩]

/-- The same expected events with the Kick and the Snare at 1 s listed the other way
round. -/
def orderExpectedSwapped : List PlayEvent :=
  [⟨0, Instrument.K, 0⟩, ⟨1, Instrument.S, 1⟩, ⟨1, Instrument.K, 1⟩]

/-- The hits of the order example, three doubles: a Kick about 102.8 ms after 0 s, a Kick
about 112.6 ms after 1 s and a Snare about 54.6 ms after 1 s. -/
def orderHits : List Hit :=
  [⟨57894307698407 / 2 ^ 49, Instrument.K⟩, ⟨5010578981580939 / 2 ^ 52, Instrument.K⟩,
   ⟨4749437710962831 / 2 ^ 52, Instrument.S⟩]

/-! ## Cycle-phase mapping -/

/-- The function `cycleBeatOffset(beatIdx)`; JavaScript `%` is the truncating remainder. -/
def cycleBeatOffset (countInAnchorBeat beatIdx : Int) : Int :=
  Int.tmod (Int.tmod (beatIdx - countInAnchorBeat) CYCLE_BEATS + CYCLE_BEATS) CYCLE_BEATS

/-- The function `computePhaseFromCycleBeat(cb)`. -/
def computePhaseFromCycleBeat (cb : Int) : Phase :=
  if cb < 4 then Phase.LISTEN
  else if cb < 8 then Phase.READY
  else if cb < 12 then Phase.PLAY
  else Phase.SCORE

/-- The value `isPhaseBoundary` computed in `scheduleTick` from `cb`. -/
def isPhaseBoundary (cb : Int) : Bool :=
  let newPhase := computePhaseFromCycleBeat cb
  (cb == 0 && newPhase == Phase.LISTEN) ||
  (cb == 4 && newPhase == Phase.READY) ||
  (cb == 8 && newPhase == Phase.PLAY) ||
  (cb == 12 && newPhase == Phase.SCORE)

/-! ## Swing -/

/-- The function `applySwingToBeatTime(beatTime)`. -/
def applySwingToBeatTime (beatTime : ℚ) : ℚ :=
  let whole : ℚ := (⌊beatTime⌋ : Int)
  let frac := beatTime - whole
  if |frac - 0.5| < 1e-6 then whole + SWING_FIRST_FRACTION else beatTime

/-! ## Tempo and pattern library -/

/-- The value of `SCHED_AHEAD_SEC`. -/
def SCHED_AHEAD_SEC : ℚ := 0.14
/-- The value of `CAPTURE_EARLY_BEATS`. -/
def CAPTURE_EARLY_BEATS : ℚ := 0.5
/-- The value of `CAPTURE_LATE_BEATS`. -/
def CAPTURE_LATE_BEATS : ℚ := 0.5

/-- The function `clamp(v, lo, hi)`. -/
def clamp (v lo hi : ℚ) : ℚ := max lo (min hi v)

/-- The function `bpmValue()`. Its argument is `Number(bpmNum.value)`, with `none` for a
value that is not finite. -/
def bpmValue (bpmNum : Option ℚ) : ℚ :=
  clamp (match bpmNum with | some v => v | none => 70) 40 140

/-- The function `beatDurSec()`. -/
def beatDurSec (bpmNum : Option ℚ) : ℚ := 60 / bpmValue bpmNum

/-- The function `difficulty()`; its argument is `difficultySel.value`. -/
def difficulty (difficultySel : String) : String :=
  if difficultySel = "" then "simple" else difficultySel

/-- An onset `{ t, i }` of a pattern. -/
structure Onset where
  t : ℚ
  i : Instrument
deriving DecidableEq, Repr

/-- The value of `PATTERNS.simple`. -/
def PATTERNS_simple : List (List Onset) :=
  [[⟨0, .K⟩, ⟨1, .S⟩, ⟨2, .K⟩, ⟨3, .S⟩],
   [⟨0, .K⟩, ⟨2, .S⟩],
   [⟨0, .K⟩, ⟨2, .K⟩, ⟨3, .S⟩],
   [⟨0, .K⟩, ⟨1, .S⟩, ⟨3, .S⟩],
   [⟨0, .K⟩, ⟨2, .S⟩],
   [⟨0, .K⟩, ⟨2, .K⟩],
   [⟨0, .S⟩, ⟨2, .K⟩]]

/-- The value of `PATTERNS.medium`. -/
def PATTERNS_medium : List (List Onset) :=
  [[⟨0, .K⟩, ⟨1, .S⟩, ⟨2, .K⟩, ⟨3, .S⟩, ⟨3.5, .K⟩],
   [⟨0, .K⟩, ⟨0.5, .K⟩, ⟨1, .S⟩, ⟨2, .K⟩, ⟨3, .S⟩],
   [⟨0, .K⟩, ⟨1.5, .K⟩, ⟨2, .S⟩, ⟨3.5, .K⟩],
   [⟨0, .K⟩, ⟨1, .S⟩, ⟨2.5, .K⟩, ⟨3, .S⟩],
   [⟨0, .K⟩, ⟨1, .S⟩, ⟨2, .K⟩, ⟨2.5, .K⟩, ⟨3, .S⟩],
   [⟨0, .K⟩, ⟨1.5, .S⟩, ⟨2, .K⟩, ⟨3, .S⟩]]

/-- The value of `PATTERNS.difficult`. -/
def PATTERNS_difficult : List (List Onset) :=
  [[⟨0, .K⟩, ⟨0.75, .K⟩, ⟨1, .S⟩, ⟨2, .K⟩, ⟨2.5, .K⟩, ⟨3, .S⟩],
   [⟨0, .K⟩, ⟨0.5, .K⟩, ⟨1, .S⟩, ⟨1.75, .K⟩, ⟨2, .K⟩, ⟨3, .S⟩],
   [⟨0, .K⟩, ⟨1, .S⟩, ⟨2, .K⟩, ⟨2.25, .K⟩, ⟨2.5, .K⟩, ⟨3, .S⟩],
   [⟨0, .K⟩, ⟨0.25, .K⟩, ⟨1, .S⟩, ⟨2, .K⟩, ⟨2.75, .K⟩, ⟨3, .S⟩],
   [⟨0, .K⟩, ⟨1, .S⟩, ⟨1.5, .K⟩, ⟨2, .K⟩, ⟨2.75, .S⟩, ⟨3.25, .K⟩]]

/-- The value of `PATTERNS.complex`. -/
def PATTERNS_complex : List (List Onset) :=
  [[⟨0, .K⟩, ⟨1, .S⟩, ⟨2, .K⟩, ⟨2.5, .K⟩, ⟨3, .S⟩],
   [⟨0, .K⟩, ⟨0.5, .K⟩, ⟨1, .S⟩, ⟨2, .K⟩, ⟨3, .S⟩],
   [⟨0, .K⟩, ⟨1.5, .K⟩, ⟨2, .S⟩, ⟨3.5, .K⟩],
   [⟨0, .K⟩, ⟨1, .S⟩, ⟨1.5, .K⟩, ⟨2.5, .S⟩, ⟨3.5, .K⟩]]

/-- The expression `PATTERNS[d] || PATTERNS.simple`. -/
def patternsFor (d : String) : List (List Onset) :=
  if d = "simple" then PATTERNS_simple
  else if d = "medium" then PATTERNS_medium
  else if d = "difficult" then PATTERNS_difficult
  else if d = "complex" then PATTERNS_complex
  else PATTERNS_simple

/-- The function `pickPattern()`; `random` is the value of `Math.random()`, a number in
`[0, 1)`, for which the index is always within the list. -/
def pickPattern (difficultySel : String) (random : ℚ) : List Onset :=
  let d := difficulty difficultySel
  let list := patternsFor d
  let p := list.getD (Int.toNat ⌊random * (list.length : ℚ)⌋) []
  p.map (fun x => ⟨x.t, x.i⟩)

/-- The function `patternTimesSec(pattern, barStartSec)`, which reads the tempo and the
difficulty selected at the moment of the call. -/
def patternTimesSec (bpmNum : Option ℚ) (difficultySel : String) (pattern : List Onset)
    (barStartSec : ℚ) : List PlayEvent :=
  let bd := beatDurSec bpmNum
  let isSwing := decide (difficulty difficultySel = "complex")
  pattern.map (fun ev =>
    let bt := if isSwing then applySwingToBeatTime ev.t else ev.t
    ⟨barStartSec + bt * bd, ev.i, bt⟩)

/-! ## Round state and phase entry -/

/-- The object `captureWindow`. -/
structure CaptureWindow where
  startSec : ℚ
  endSec : ℚ
deriving DecidableEq, Repr

/-- An entry of `scoreState.history`. -/
structure HistoryEntry where
  score : Nat
  details : ScoreResult
  bpm : ℚ
  difficulty : String
deriving DecidableEq, Repr

/-- The object `scoreState`. -/
structure ScoreState where
  rounds : Nat
  last : Option Nat
  total : Nat
  avg : ℚ
  history : List HistoryEntry
  totalAvgErrMs : ℚ
  avgErrMs : ℚ
  lastErrMs : Option ℚ
deriving DecidableEq, Repr

/-- The module variables of the current round, with `scoreState`. -/
structure RoundState where
  currentPattern : List Onset
  expectedPlayEvents : List PlayEvent
  roundHits : List Hit
  captureWindow : Option CaptureWindow
  playBarStartSec : ℚ
  scoreState : ScoreState
deriving DecidableEq, Repr

/-- What a call reads from the page: the tempo field, the difficulty selector and the
next value of `Math.random()`. -/
structure PageInput where
  bpmNum : Option ℚ
  difficultySel : String
  random : ℚ

/-- The function `onPhaseEnter(newPhase, barStartSec)` on the round state (the display
calls, and the playing of the pattern at Listen entry, are left out). -/
def onPhaseEnter (inp : PageInput) (newPhase : Phase) (barStartSec : ℚ) (rs : RoundState) :
    RoundState :=
  let rs1 : RoundState :=
    if newPhase = Phase.LISTEN then
      { rs with currentPattern := pickPattern inp.difficultySel inp.random,
                expectedPlayEvents := [], roundHits := [], captureWindow := none,
                playBarStartSec := 0 }
    else rs
  let rs2 : RoundState :=
    if newPhase = Phase.READY then
      let bd := beatDurSec inp.bpmNum
      let playBarStartSec := barStartSec + 4 * bd
      { rs1 with playBarStartSec := playBarStartSec,
                 captureWindow := some
                   { startSec := playBarStartSec - CAPTURE_EARLY_BEATS * bd,
                     endSec := playBarStartSec + 4 * bd + CAPTURE_LATE_BEATS * bd } }
    else rs1
  let rs3 : RoundState :=
    if newPhase = Phase.PLAY then
      { rs2 with expectedPlayEvents :=
          patternTimesSec inp.bpmNum inp.difficultySel rs2.currentPattern barStartSec }
    else rs2
  if newPhase = Phase.SCORE then
    let result := scoreRound rs3.expectedPlayEvents rs3.roundHits
    let ss := rs3.scoreState
    let rounds := ss.rounds + 1
    let total := ss.total + result.score
    let totalAvgErrMs := ss.totalAvgErrMs + result.avgErrMs
    { rs3 with scoreState :=
        { rounds := rounds, last := some result.score, total := total,
          avg := (total : ℚ) / (rounds : ℚ),
          lastErrMs := some result.avgErrMs, totalAvgErrMs := totalAvgErrMs,
          avgErrMs := totalAvgErrMs / (rounds : ℚ),
          history := ss.history ++
            [{ score := result.score, details := result, bpm := bpmValue inp.bpmNum,
               difficulty := difficulty inp.difficultySel }] } }
  else rs3

/-- The function `isWithinCaptureWindow(nowSec)`. -/
def isWithinCaptureWindow (captureWindow : Option CaptureWindow) (nowSec : ℚ) : Bool :=
  match captureWindow with
  | none => false
  | some w => decide (nowSec ≥ w.startSec) && decide (nowSec ≤ w.endSec)

/-- The function `registerHit(i)` on the round state, with `now` the value of
`ctx.currentTime` (the sound and the pad flash are left out). -/
def registerHit (started paused : Bool) (i : Instrument) (now : ℚ) (rs : RoundState) :
    RoundState :=
  if !started || paused then rs
  else if isWithinCaptureWindow rs.captureWindow now then
    { rs with roundHits := rs.roundHits ++ [⟨now, i⟩] }
  else rs

/-! ## Scheduler -/

/-- The module variables of the scheduler. -/
structure SchedState where
  started : Bool
  nextBeatTimeSec : ℚ
  globalBeatIndex : Int
  phase : Phase
  countInRemaining : Int
  countInAnchorBeat : Int
deriving DecidableEq, Repr

/-- What one pass of the loop body of `scheduleTick` hands over: the metronome click at
`thisBeatTimeSec`, the delay `dtMs` of its timers, the count shown during the count-in,
and the phase whose entry it defers to the beat (`onPhaseEnter(newPhase,
thisBeatTimeSec)`), if any. `scheduledAt` is `ctx.currentTime` during the pass. -/
structure BeatEvent where
  beatIdx : Int
  thisBeatTimeSec : ℚ
  scheduledAt : ℚ
  isDownbeat : Bool
  dtMs : ℚ
  countInShown : Option Int
  phaseEntry : Option Phase
deriving DecidableEq, Repr

/-- The scheduler variables as set by `beginGame()`, with `now` the value of
`ctx.currentTime`. -/
def beginGame (now : ℚ) : SchedState :=
  { started := true, phase := Phase.COUNTIN, countInRemaining := 4, globalBeatIndex := 0,
    countInAnchorBeat := 0, nextBeatTimeSec := now + 0.10 }

/-- The body of the `while` loop of `scheduleTick`: one beat is scheduled. -/
def scheduleBeat (now : ℚ) (bpmNum : Option ℚ) (st : SchedState) : SchedState × BeatEvent :=
  let thisBeatTimeSec := st.nextBeatTimeSec
  let beatIdx := st.globalBeatIndex
  let inBarIdx := Int.tmod (Int.tmod beatIdx 4 + 4) 4
  let isDownbeat := decide (inBarIdx = 0)
  let dtMs := max 0 ((thisBeatTimeSec - now) * 1000)
  if st.phase = Phase.COUNTIN then
    let shown := max 0 st.countInRemaining
    let countInRemaining := st.countInRemaining - 1
    let st1 : SchedState :=
      if countInRemaining ≤ 0 then
        { st with countInRemaining := countInRemaining, phase := Phase.LISTEN,
                  countInAnchorBeat := beatIdx + 1 }
      else { st with countInRemaining := countInRemaining }
    ({ st1 with globalBeatIndex := st1.globalBeatIndex + 1,
                nextBeatTimeSec := st1.nextBeatTimeSec + beatDurSec bpmNum },
     { beatIdx := beatIdx, thisBeatTimeSec := thisBeatTimeSec, scheduledAt := now,
       isDownbeat := isDownbeat, dtMs := dtMs, countInShown := some shown,
       phaseEntry := none })
  else
    let cb := cycleBeatOffset st.countInAnchorBeat beatIdx
    let newPhase := computePhaseFromCycleBeat cb
    ({ st with globalBeatIndex := st.globalBeatIndex + 1,
               nextBeatTimeSec := st.nextBeatTimeSec + beatDurSec bpmNum },
     { beatIdx := beatIdx, thisBeatTimeSec := thisBeatTimeSec, scheduledAt := now,
       isDownbeat := isDownbeat, dtMs := dtMs, countInShown := none,
       phaseEntry := if isPhaseBoundary cb then some newPhase else none })

/-- The `while` loop of `scheduleTick`, run for at most `fuel` beats: `none` when the
loop condition still holds after `fuel` beats. -/
def tickLoop : Nat → ℚ → Option ℚ → SchedState → Option (SchedState × List BeatEvent)
  | fuel, now, bpmNum, st =>
    if st.nextBeatTimeSec < now + SCHED_AHEAD_SEC then
      match fuel with
      | 0 => none
      | fuel + 1 =>
        match tickLoop fuel now bpmNum (scheduleBeat now bpmNum st).1 with
        | none => none
        | some (st2, evs) => some (st2, (scheduleBeat now bpmNum st).2 :: evs)
    else some (st, [])

/-- The function `scheduleTick()`, with `now` the value of `ctx.currentTime` during the
pass (an audio context is taken to exist). -/
def scheduleTick (fuel : Nat) (now : ℚ) (bpmNum : Option ℚ) (st : SchedState) :
    Option (SchedState × List BeatEvent) :=
  if !st.started then some (st, []) else tickLoop fuel now bpmNum st

/-- A pass of `scheduleTick`: the clock time at which it runs and the tempo field it
reads. -/
structure Pass where
  now : ℚ
  bpmNum : Option ℚ

/-- The scheduler runs: from the state `st0`, the passes `ps` of `scheduleTick`, with
deferred phase entries taking effect between them, lead to the state `st` and have
scheduled the beats `evs`. A deferred phase entry sets `phase` to the phase it carries.
The timers are never cancelled, so besides the phase entries deferred by this run those
of an earlier game that were still pending when this one began (`stale`) take effect
too. -/
inductive Run (stale : List Phase) (st0 : SchedState) :
    List Pass → SchedState → List BeatEvent → Prop where
  | init : Run stale st0 [] st0 []
  | pass {ps : List Pass} {st st2 : SchedState} {evs evs2 : List BeatEvent} (p : Pass)
      (fuel : Nat) : Run stale st0 ps st evs →
      scheduleTick fuel p.now p.bpmNum st = some (st2, evs2) →
      Run stale st0 (ps ++ [p]) st2 (evs ++ evs2)
  | enter {ps : List Pass} {st : SchedState} {evs : List BeatEvent} (ev : BeatEvent)
      (ph : Phase) : Run stale st0 ps st evs → ev ∈ evs → ev.phaseEntry = some ph →
      Run stale st0 ps { st with phase := ph } evs
  | staleEnter {ps : List Pass} {st : SchedState} {evs : List BeatEvent} (ph : Phase) :
      Run stale st0 ps st evs → ph ∈ stale →
      Run stale st0 ps { st with phase := ph } evs

/-- The phase entries still pending at clock time `now`: those that the beats `evs`
deferred to a beat time later than `now`. -/
def pendingEntries (now : ℚ) (evs : List BeatEvent) : List Phase :=
  evs.filterMap (fun ev => if now < ev.thisBeatTimeSec then ev.phaseEntry else none)

/-- The passes `ps` of `scheduleTick` run one after the other from the state `st`, each
for at most `fuel` beats. -/
def runPasses (fuel : Nat) : List Pass → SchedState → Option (SchedState × List BeatEvent)
  | [], st => some (st, [])
  | p :: ps, st =>
    match scheduleTick fuel p.now p.bpmNum st with
    | none => none
    | some (st2, evs2) =>
      match runPasses fuel ps st2 with
      | none => none
      | some (st3, evs3) => some (st3, evs2 ++ evs3)

/-- The passes of a first game at tempo 60 begun at clock 0: one pass shortly before each
of the beats 0 to 4. -/
def firstGamePasses : List Pass :=
  [⟨1 / 20, some 60⟩, ⟨1, some 60⟩, ⟨2, some 60⟩, ⟨3, some 60⟩, ⟨4, some 60⟩]

/-- The first pass of the game begun again at clock 4.05 s. -/
def restartFirstPass : List Pass := [⟨163 / 40, some 60⟩]

/-- The later passes of the game begun again at clock 4.05 s. -/
def restartLaterPasses : List Pass :=
  [⟨51 / 10, some 60⟩, ⟨61 / 10, some 60⟩, ⟨71 / 10, some 60⟩, ⟨81 / 10, some 60⟩]

/-- The game begun again at clock 4.05 s: its first pass, then the Listen entry that the
first game deferred to 4.1 s takes effect, then its later passes. -/
def restartScenario : Option (SchedState × List BeatEvent) :=
  match runPasses 1 restartFirstPass (beginGame (81 / 20)) with
  | none => none
  | some (st, evs) =>
    match runPasses 1 restartLaterPasses { st with phase := Phase.LISTEN } with
    | none => none
    | some (st2, evs2) => some (st2, evs ++ evs2)

/-! ## Predicates used to state what swing does -/

/-- The beat time `x` is one that `applySwingToBeatTime` moves: its fractional part is
within `10^-6` of one half. -/
def swingShifts (x : ℚ) : Prop := |x - ((⌊x⌋ : Int) : ℚ) - 1 / 2| < 1 / 10 ^ 6

/-! ## Predicates used to state what the scheduler does -/

/-- The latest clock time at which the pass after the passes `ps` still finds the next
beat ahead of the clock: 0.10 s after `beginGame` (at clock `t0`) for the first pass, and
the look-ahead after the pass before it for a later one. -/
def passBound (t0 : ℚ) (ps : List Pass) : ℚ :=
  match ps.getLast? with
  | none => t0 + 0.10
  | some q => q.now + SCHED_AHEAD_SEC

/-- Every pass of `ps` runs no later than its `passBound`. -/
def Timely (t0 : ℚ) (ps : List Pass) : Prop :=
  ∀ pre p post, ps = pre ++ p :: post → p.now ≤ passBound t0 pre

/-- The phases of the cycle in order: Listen, Ready, Play, Score, Listen, ... -/
def cyclePhase (n : Nat) : Phase :=
  match n % 4 with
  | 0 => Phase.LISTEN
  | 1 => Phase.READY
  | 2 => Phase.PLAY
  | _ => Phase.SCORE

/-- What the trace of a game holds at beat number `k`: beats 0 to 3 are count-in beats
(showing 4, 3, 2, 1) with no phase entry; a later beat carries a phase entry exactly when
it is a beat `4 + 4j`, and then the phase is the `j`-th of the cycle. -/
def TraceBeat (k : Nat) (ev : BeatEvent) : Prop :=
  ev.beatIdx = (k : Int) ∧
  (k < 4 → ev.countInShown = some (4 - (k : Int)) ∧ ev.phaseEntry = none) ∧
  (4 ≤ k → ev.countInShown = none ∧
    ev.phaseEntry = if (k - 4) % 4 = 0 then some (cyclePhase ((k - 4) / 4)) else none)

/-- The round variables as set by `resetStateToIdle()`. -/
def idleRoundState : RoundState :=
  { currentPattern := [], expectedPlayEvents := [], roundHits := [], captureWindow := none,
    playBarStartSec := 0,
    scoreState := { rounds := 0, last := none, total := 0, avg := 0, history := [],
                    totalAvgErrMs := 0, avgErrMs := 0, lastErrMs := none } }

/-- The round state at Play entry of a round: Listen is entered at bar start `L`,
Ready at bar start `R`, and Play at the bar start four beats after `R`, with the page
inputs read at each entry. -/
def roundAtPlay (inpL inpR inpP : PageInput) (L R : ℚ) (rs : RoundState) : RoundState :=
  onPhaseEnter inpP Phase.PLAY (R + 4 * beatDurSec inpR.bpmNum)
    (onPhaseEnter inpR Phase.READY R (onPhaseEnter inpL Phase.LISTEN L rs))

/-! ## Example data -/

/-- The expected events of the spec's examples: Kick, Snare, Kick, Snare on the four
beats of a bar that starts at 0 s, at 100 bpm. -/
def exampleExpected : List PlayEvent :=
  [⟨0, Instrument.K, 0⟩, ⟨0.6, Instrument.S, 1⟩, ⟨1.2, Instrument.K, 2⟩, ⟨1.8, Instrument.S, 3⟩]

/-- Hits exactly on the four expected events. -/
def exampleHitsAll : List Hit :=
  [⟨0, Instrument.K⟩, ⟨0.6, Instrument.S⟩, ⟨1.2, Instrument.K⟩, ⟨1.8, Instrument.S⟩]

/-- Hits exactly on the first two expected events only. -/
def exampleHitsTwo : List Hit :=
  [⟨0, Instrument.K⟩, ⟨0.6, Instrument.S⟩]

/-! ## Tier cascade -/

/-- The condition of the first tier of the cascade of `scoreRound`. -/
def tier5Cond (r : ScoreResult) : Prop :=
  r.effectiveErr ≤ 55 ∧ r.misses = 0 ∧ r.extras = 0

theorem tierScore_range (x : ℚ) (m n : Int) : 1 ≤ tierScore x m n ∧ tierScore x m n ≤ 5 := by
  unfold tierScore
  split_ifs <;> omega

/-- C1: the score of `scoreRound` follows the tier table read in order: 5 iff
effectiveErr ≤ 55 with no miss and no extra; otherwise 4 iff effectiveErr ≤ 90; otherwise
3 iff ≤ 125; otherwise 2 iff ≤ 165; otherwise 1. With no miss and no extra the values
55, 90, 125, 165 score 5, 4, 3, 2, and the score always lies in [1,5]. -/
theorem scoreRound_score_tiers (expected : List PlayEvent) (actual : List Hit) :
    (((scoreRound expected actual).score = 5 ↔ tier5Cond (scoreRound expected actual)) ∧
     ((scoreRound expected actual).score = 4 ↔
        ¬ tier5Cond (scoreRound expected actual) ∧ (scoreRound expected actual).effectiveErr ≤ 90) ∧
     ((scoreRound expected actual).score = 3 ↔
        ¬ tier5Cond (scoreRound expected actual) ∧ ¬ (scoreRound expected actual).effectiveErr ≤ 90 ∧
          (scoreRound expected actual).effectiveErr ≤ 125) ∧
     ((scoreRound expected actual).score = 2 ↔
        ¬ tier5Cond (scoreRound expected actual) ∧ ¬ (scoreRound expected actual).effectiveErr ≤ 90 ∧
          ¬ (scoreRound expected actual).effectiveErr ≤ 125 ∧
          (scoreRound expected actual).effectiveErr ≤ 165) ∧
     ((scoreRound expected actual).score = 1 ↔
        ¬ tier5Cond (scoreRound expected actual) ∧ ¬ (scoreRound expected actual).effectiveErr ≤ 90 ∧
          ¬ (scoreRound expected actual).effectiveErr ≤ 125 ∧
          ¬ (scoreRound expected actual).effectiveErr ≤ 165)) ∧
    ((scoreRound expected actual).misses = 0 → (scoreRound expected actual).extras = 0 →
      ((scoreRound expected actual).effectiveErr = 55 → (scoreRound expected actual).score = 5) ∧
      ((scoreRound expected actual).effectiveErr = 90 → (scoreRound expected actual).score = 4) ∧
      ((scoreRound expected actual).effectiveErr = 125 → (scoreRound expected actual).score = 3) ∧
      ((scoreRound expected actual).effectiveErr = 165 → (scoreRound expected actual).score = 2)) ∧
    1 ≤ (scoreRound expected actual).score ∧ (scoreRound expected actual).score ≤ 5 := by
  have hs : (scoreRound expected actual).score =
      tierScore (scoreRound expected actual).effectiveErr (scoreRound expected actual).misses
        (scoreRound expected actual).extras := rfl
  generalize scoreRound expected actual = r at hs
  obtain ⟨score, ml, misses, extras, avg, eff⟩ := r
  simp only [tier5Cond] at *
  subst hs
  simp only [tierScore, TIER_5_MS, TIER_4_MS, TIER_3_MS, TIER_2_MS]
  refine ⟨⟨?_, ?_, ?_, ?_, ?_⟩, ?_, ?_, ?_⟩
  · split_ifs <;> simp_all
  · split_ifs <;> simp_all
  · split_ifs <;> simp_all
  · split_ifs <;> simp_all
  · split_ifs <;> simp_all
  · intro hm hx
    subst hm hx
    refine ⟨?_, ?_, ?_, ?_⟩ <;> intro h <;> subst h <;> norm_num
  · split_ifs <;> omega
  · split_ifs <;> omega

/-- Witness for C1: one Kick expected at 0 s and one Kick hit 55, 90, 125 or 165 ms late
gives an effective error of exactly 55, 90, 125, 165 and the scores 5, 4, 3, 2. -/
theorem scoreRound_score_tiers_witness :
    ((scoreRound [⟨0, Instrument.K, 0⟩] [⟨0.055, Instrument.K⟩]).effectiveErr = 55 ∧
      (scoreRound [⟨0, Instrument.K, 0⟩] [⟨0.055, Instrument.K⟩]).score = 5) ∧
    ((scoreRound [⟨0, Instrument.K, 0⟩] [⟨0.09, Instrument.K⟩]).effectiveErr = 90 ∧
      (scoreRound [⟨0, Instrument.K, 0⟩] [⟨0.09, Instrument.K⟩]).score = 4) ∧
    ((scoreRound [⟨0, Instrument.K, 0⟩] [⟨0.125, Instrument.K⟩]).effectiveErr = 125 ∧
      (scoreRound [⟨0, Instrument.K, 0⟩] [⟨0.125, Instrument.K⟩]).score = 3) ∧
    ((scoreRound [⟨0, Instrument.K, 0⟩] [⟨0.165, Instrument.K⟩]).effectiveErr = 165 ∧
      (scoreRound [⟨0, Instrument.K, 0⟩] [⟨0.165, Instrument.K⟩]).score = 2) :=
  ⟨⟨by decide!, ((scoreRound_score_tiers _ _).2.1 (by decide!) (by decide!)).1 (by decide!)⟩,
   ⟨by decide!, ((scoreRound_score_tiers _ _).2.1 (by decide!) (by decide!)).2.1 (by decide!)⟩,
   ⟨by decide!, ((scoreRound_score_tiers _ _).2.1 (by decide!) (by decide!)).2.2.1 (by decide!)⟩,
   ⟨by decide!, ((scoreRound_score_tiers _ _).2.1 (by decide!) (by decide!)).2.2.2 (by decide!)⟩⟩

/-- C2 (as stated, refuted): for the expected events Kick, Snare, Kick, Snare and hits
exactly on the first two only, `scoreRound` does not report an effective error of
`180 * (1 + 0.85 * 0.5)` and does not report score 1. -/
theorem example2_as_stated_fails :
    ¬ ((scoreRound exampleExpected exampleHitsTwo).misses = 2 ∧
       (scoreRound exampleExpected exampleHitsTwo).extras = 0 ∧
       (scoreRound exampleExpected exampleHitsTwo).effectiveErr = 180 * (1 + 0.85 * 0.5) ∧
       (scoreRound exampleExpected exampleHitsTwo).score = 1) := by
  decide!

/-- C2 (amended): for the same input `scoreRound` reports 2 misses, 0 extras, two matches,
an average error of 0 over the two matched pairs, an effective error of 0 and score 4. -/
theorem example2_amended :
    (scoreRound exampleExpected exampleHitsTwo).misses = 2 ∧
    (scoreRound exampleExpected exampleHitsTwo).extras = 0 ∧
    (scoreRound exampleExpected exampleHitsTwo).matchList.length = 2 ∧
    (scoreRound exampleExpected exampleHitsTwo).avgErrMs = 0 ∧
    (scoreRound exampleExpected exampleHitsTwo).effectiveErr = 0 ∧
    (scoreRound exampleExpected exampleHitsTwo).score = 4 := by
  decide!

/-! ## The inner loop -/

theorem cand_lt_length {e : Ev} {usedAct : List Nat} {act : List Ev} {j : Nat} {err : ℚ}
    (h : Cand e usedAct act j err) : j < act.length := by
  obtain ⟨a, ha, _⟩ := h
  exact (List.getElem?_eq_some.1 ha).1

theorem cand_snoc (e : Ev) (usedAct : List Nat) (pre : List Ev) (a : Ev) (j : Nat) (err : ℚ) :
    Cand e usedAct (pre ++ [a]) j err ↔
      Cand e usedAct pre j err ∨
      (j = pre.length ∧ j ∉ usedAct ∧ a.i = e.i ∧ err = |a.t - e.t| * 1000 ∧
        err ≤ MATCH_MAX_MS) := by
  constructor
  · rintro ⟨b, hb, hrest⟩
    rcases Nat.lt_trichotomy j pre.length with hlt | heq | hgt
    · left
      rw [List.getElem?_append_left hlt] at hb
      exact ⟨b, hb, hrest⟩
    · right
      subst heq
      rw [List.getElem?_append_right (le_refl _)] at hb
      simp at hb
      subst hb
      exact ⟨rfl, hrest⟩
    · exfalso
      have := (List.getElem?_eq_some.1 hb).1
      simp at this
      omega
  · rintro (⟨b, hb, hrest⟩ | ⟨rfl, hrest⟩)
    · have hlt := (List.getElem?_eq_some.1 hb).1
      exact ⟨b, by rw [List.getElem?_append_left hlt]; exact hb, hrest⟩
    · exact ⟨a, by rw [List.getElem?_append_right (le_refl _)]; simp, hrest⟩

theorem scan_firstBest_aux (e : Ev) (usedAct : List Nat) :
    ∀ (l pre : List Ev) (best : Option (Nat × ℚ)), FirstBest e usedAct pre best →
      FirstBest e usedAct (pre ++ l) (scan e usedAct l pre.length best) := by
  intro l
  induction l with
  | nil => intro pre best h; simpa [scan] using h
  | cons a rest ih =>
    intro pre best h
    have hstep : ∀ best2, FirstBest e usedAct (pre ++ [a]) best2 →
        FirstBest e usedAct (pre ++ a :: rest) (scan e usedAct rest (pre.length + 1) best2) := by
      intro best2 h2
      have := ih (pre ++ [a]) best2 h2
      simpa using this
    have hkeep : (∀ j err, Cand e usedAct (pre ++ [a]) j err →
        Cand e usedAct pre j err ∨ (j = pre.length ∧ ∃ jb eb, best = some (jb, eb) ∧ eb ≤ err)) →
        FirstBest e usedAct (pre ++ [a]) best := by
      intro hc
      cases best with
      | none =>
        intro j err hj
        rcases hc j err hj with h1 | ⟨_, jb, eb, hb, _⟩
        · exact h j err h1
        · cases hb
      | some p =>
        obtain ⟨jb, eb⟩ := p
        obtain ⟨hcand, hmin⟩ := h
        refine ⟨(cand_snoc _ _ _ _ _ _).2 (Or.inl hcand), ?_⟩
        intro j2 err2 hj2
        rcases hc j2 err2 hj2 with h1 | ⟨hj, jb2, eb2, hb, hle⟩
        · exact hmin j2 err2 h1
        · cases hb
          exact ⟨hle, fun _ => by have := cand_lt_length hcand; omega⟩
    rw [scan]
    dsimp only
    split_ifs with hu hi herr
    · apply hstep
      apply hkeep
      intro j err hj
      rcases (cand_snoc _ _ _ _ _ _).1 hj with h1 | ⟨rfl, hnu, _⟩
      · exact Or.inl h1
      · exact absurd hu hnu
    · apply hstep
      apply hkeep
      intro j err hj
      rcases (cand_snoc _ _ _ _ _ _).1 hj with h1 | ⟨_, _, hai, _⟩
      · exact Or.inl h1
      · exact absurd hai hi
    · apply hstep
      have hai : a.i = e.i := not_not.1 hi
      obtain ⟨hle, hbelow⟩ := herr
      refine ⟨(cand_snoc _ _ _ _ _ _).2 (Or.inr ⟨rfl, hu, hai, rfl, hle⟩), ?_⟩
      intro j2 err2 hj2
      rcases (cand_snoc _ _ _ _ _ _).1 hj2 with h1 | ⟨hj, _, _, herr2, _⟩
      · cases best with
        | none => exact absurd h1 (h j2 err2)
        | some p =>
          obtain ⟨jb, eb⟩ := p
          have hlt : |a.t - e.t| * 1000 < eb := by simpa [errBelow] using hbelow
          have := (h.2 j2 err2 h1).1
          exact ⟨by linarith, fun heq => by linarith⟩
      · exact ⟨by rw [herr2], fun _ => by omega⟩
    · apply hstep
      apply hkeep
      intro j err hj
      rcases (cand_snoc _ _ _ _ _ _).1 hj with h1 | ⟨hj, _, _, herr2, hle⟩
      · exact Or.inl h1
      · right
        refine ⟨hj, ?_⟩
        rw [← herr2] at herr
        have hnb : ¬ errBelow err best = true := fun hb => herr ⟨hle, hb⟩
        cases best with
        | none => simp [errBelow] at hnb
        | some p =>
          obtain ⟨jb, eb⟩ := p
          refine ⟨jb, eb, rfl, ?_⟩
          simpa [errBelow] using hnb

/-- One pass of the inner loop returns the first of the best candidates, or nothing when
there is no candidate. -/
theorem scan_firstBest (e : Ev) (usedAct : List Nat) (act : List Ev) :
    FirstBest e usedAct act (scan e usedAct act 0 none) := by
  have h := scan_firstBest_aux e usedAct act [] none
    (by intro j err hc; have := cand_lt_length hc; simp at this)
  simpa using h

theorem firstBest_unique {e : Ev} {usedAct : List Nat} {act : List Ev}
    {r1 r2 : Option (Nat × ℚ)} (h1 : FirstBest e usedAct act r1)
    (h2 : FirstBest e usedAct act r2) : r1 = r2 := by
  cases r1 with
  | none =>
    cases r2 with
    | none => rfl
    | some p => obtain ⟨j, err⟩ := p; exact absurd h2.1 (h1 j err)
  | some p =>
    obtain ⟨j, err⟩ := p
    cases r2 with
    | none => exact absurd h1.1 (h2 j err)
    | some q =>
      obtain ⟨j2, err2⟩ := q
      have a1 := h1.2 j2 err2 h2.1
      have a2 := h2.2 j err h1.1
      have he : err = err2 := le_antisymm a1.1 a2.1
      subst he
      have := a1.2 rfl
      have := a2.2 rfl
      have hj : j = j2 := by omega
      subst hj
      rfl

theorem scan_eq_of_firstBest {e : Ev} {usedAct : List Nat} {act : List Ev}
    {r : Option (Nat × ℚ)} (h : FirstBest e usedAct act r) : scan e usedAct act 0 none = r :=
  firstBest_unique (scan_firstBest e usedAct act) h

/-! ## The outer loop -/

theorem setAdd_of_not_mem {usedAct : List Nat} {x : Nat} (h : x ∉ usedAct) :
    setAdd usedAct x = usedAct ++ [x] := by
  simp [setAdd, h]

theorem matchLoop_append (act : List Ev) :
    ∀ (l1 l2 : List Ev) (usedAct : List Nat) (matchList : List Match),
      matchLoop act (l1 ++ l2) usedAct matchList =
        matchLoop act l2 (matchLoop act l1 usedAct matchList).1
          (matchLoop act l1 usedAct matchList).2 := by
  intro l1
  induction l1 with
  | nil => intro l2 u m; simp [matchLoop]
  | cons e rest ih =>
    intro l2 u m
    simp only [List.cons_append, matchLoop]
    cases scan e u act 0 none with
    | none => simpa using ih l2 u m
    | some p => obtain ⟨j, err⟩ := p; simpa using ih l2 _ _

theorem matchLoop_single (act : List Ev) (e : Ev) (usedAct : List Nat) (matchList : List Match) :
    matchLoop act [e] usedAct matchList =
      match scan e usedAct act 0 none with
      | some (bestIdx, bestErr) => (setAdd usedAct bestIdx, matchList ++ [⟨bestErr, e.i⟩])
      | none => (usedAct, matchList) := by
  simp only [matchLoop]

theorem pairing_step (exp act : List Ev) (done : List Ev) (e : Ev) (rest : List Ev)
    (hexp : exp = done ++ e :: rest) (pairs : List (Nat × Nat)) (usedAct : List Nat)
    (matchList : List Match) (h : Pairing exp act done.length pairs usedAct matchList) :
    ∃ pairs2, Pairing exp act (done.length + 1) pairs2
      (matchLoop act [e] usedAct matchList).1 (matchLoop act [e] usedAct matchList).2 := by
  obtain ⟨hu, hnd, hs, hlt, hf⟩ := h
  rw [matchLoop_single]
  have hfb := scan_firstBest e usedAct act
  cases hscan : scan e usedAct act 0 none with
  | none =>
    exact ⟨pairs, hu, hnd, hs, fun p hp => Nat.lt_succ_of_lt (hlt p hp), hf⟩
  | some q =>
    obtain ⟨j, err⟩ := q
    rw [hscan] at hfb
    obtain ⟨⟨a, ha, hju, hai, herr, hle⟩, _⟩ := hfb
    refine ⟨pairs ++ [(done.length, j)], ?_, ?_, ?_, ?_, ?_⟩
    · show setAdd usedAct j = _
      rw [setAdd_of_not_mem hju, hu]
      simp
    · simp only [setAdd_of_not_mem hju]
      exact List.Nodup.append hnd (List.nodup_singleton j) (by simpa using hju)
    · simp only [List.map_append, List.map_cons, List.map_nil]
      unfold List.Sorted
      rw [List.pairwise_append]
      refine ⟨hs, List.pairwise_singleton _ _, ?_⟩
      intro x hx y hy
      simp only [List.mem_singleton] at hy
      subst hy
      obtain ⟨p, hp, rfl⟩ := List.mem_map.1 hx
      exact hlt p hp
    · intro p hp
      rcases List.mem_append.1 hp with h1 | h1
      · exact Nat.lt_succ_of_lt (hlt p h1)
      · simp only [List.mem_singleton] at h1
        subst h1
        exact Nat.lt_succ_self _
    · refine List.rel_append hf (List.Forall₂.cons ?_ List.Forall₂.nil)
      refine ⟨e, a, ?_, ha, hai, herr, hle, rfl⟩
      subst hexp
      rw [List.getElem?_append_right (le_refl _)]
      simp

theorem matchLoop_pairing (exp act : List Ev) :
    ∀ (rest done : List Ev) (pairs : List (Nat × Nat)) (usedAct : List Nat)
      (matchList : List Match), exp = done ++ rest →
      Pairing exp act done.length pairs usedAct matchList →
      ∃ pairs2, Pairing exp act exp.length pairs2
        (matchLoop act rest usedAct matchList).1 (matchLoop act rest usedAct matchList).2 := by
  intro rest
  induction rest with
  | nil =>
    intro done pairs u m hexp h
    refine ⟨pairs, ?_⟩
    have : exp.length = done.length := by rw [hexp]; simp
    rw [this]
    simpa [matchLoop] using h
  | cons e rest ih =>
    intro done pairs u m hexp h
    obtain ⟨pairs2, h2⟩ := pairing_step exp act done e rest hexp pairs u m h
    have := ih (done ++ [e]) pairs2 _ _ (by simpa using hexp) (by simpa using h2)
    rw [← matchLoop_append] at this
    simpa using this

theorem pairing_nil (exp act : List Ev) : Pairing exp act 0 [] [] [] :=
  ⟨rfl, List.nodup_nil, List.sorted_nil, fun _ hp => (by cases hp), List.Forall₂.nil⟩

/-- The whole outer loop, started on the empty state, ends in a state explained by a
pairing. -/
theorem matchLoop_pairing_full (exp act : List Ev) :
    ∃ pairs, Pairing exp act exp.length pairs
      (matchLoop act exp [] []).1 (matchLoop act exp [] []).2 :=
  matchLoop_pairing exp act exp [] [] [] [] rfl (pairing_nil exp act)

theorem nodup_bounded_length_le {l : List Nat} {n : Nat} (hnd : l.Nodup)
    (hlt : ∀ x ∈ l, x < n) : l.length ≤ n := by
  have hsub : l ⊆ List.range n := fun x hx => List.mem_range.2 (hlt x hx)
  have := (List.subperm_of_subset hnd hsub).length_le
  simpa using this

theorem forall₂_mem_left {α β : Type} {R : α → β → Prop} {l1 : List α} {l2 : List β}
    (h : List.Forall₂ R l1 l2) : ∀ x ∈ l1, ∃ y ∈ l2, R x y := by
  induction h with
  | nil => intro x hx; cases hx
  | cons hr _ ih =>
    intro x hx
    rcases List.mem_cons.1 hx with rfl | hx
    · exact ⟨_, List.mem_cons_self _ _, hr⟩
    · obtain ⟨y, hy, hxy⟩ := ih x hx
      exact ⟨y, List.mem_cons_of_mem _ hy, hxy⟩

theorem pairing_bounds {exp act : List Ev} {n : Nat} {pairs : List (Nat × Nat)}
    {usedAct : List Nat} {matchList : List Match}
    (h : Pairing exp act n pairs usedAct matchList) :
    usedAct.length = matchList.length ∧ pairs.length = matchList.length ∧
    matchList.length ≤ n ∧ matchList.length ≤ act.length ∧
    (∀ p ∈ pairs, p.2 < act.length) := by
  obtain ⟨hu, hnd, hs, hlt, hf⟩ := h
  have hlen := hf.length_eq
  have hsnd : ∀ p ∈ pairs, p.2 < act.length := by
    intro p hp
    obtain ⟨m, _, e, a, _, ha, _⟩ := forall₂_mem_left hf p hp
    exact (List.getElem?_eq_some.1 ha).1
  refine ⟨by rw [hu, List.length_map, hlen], hlen, ?_, ?_, hsnd⟩
  · have := nodup_bounded_length_le (List.Sorted.nodup hs) (n := n) (by
      intro x hx
      obtain ⟨p, hp, rfl⟩ := List.mem_map.1 hx
      exact hlt p hp)
    simpa [hlen] using this
  · have := nodup_bounded_length_le hnd (n := act.length) (by
      intro x hx
      rw [hu] at hx
      obtain ⟨p, hp, rfl⟩ := List.mem_map.1 hx
      exact hsnd p hp)
    rw [hu, List.length_map, hlen] at this
    exact this

/-! ## Projections of `scoreRound` -/

theorem length_expOf (expected : List PlayEvent) : (expOf expected).length = expected.length := by
  simp [expOf, sortByT, List.length_insertionSort]

theorem length_actOf (actual : List Hit) : (actOf actual).length = actual.length := by
  simp [actOf, sortByT, List.length_insertionSort]

theorem sorted_sortByT (l : List Ev) : (sortByT l).Sorted (fun a b => a.t ≤ b.t) :=
  @List.sorted_insertionSort Ev (fun a b => a.t ≤ b.t) _ ⟨fun a b => le_total a.t b.t⟩
    ⟨fun _ _ _ h1 h2 => le_trans h1 h2⟩ l

theorem scoreRound_matchList (expected : List PlayEvent) (actual : List Hit) :
    (scoreRound expected actual).matchList =
      (matchLoop (actOf actual) (expOf expected) [] []).2 := rfl

theorem scoreRound_misses (expected : List PlayEvent) (actual : List Hit) :
    (scoreRound expected actual).misses =
      ((expOf expected).length : Int) - ((scoreRound expected actual).matchList.length : Int) :=
  rfl

theorem scoreRound_extras (expected : List PlayEvent) (actual : List Hit) :
    (scoreRound expected actual).extras =
      ((actOf actual).length : Int) -
        ((matchLoop (actOf actual) (expOf expected) [] []).1.length : Int) := rfl

theorem scoreRound_avgErrMs (expected : List PlayEvent) (actual : List Hit) :
    (scoreRound expected actual).avgErrMs =
      if (scoreRound expected actual).matchList.length ≠ 0 then
        ((scoreRound expected actual).matchList.foldl (fun s m => s + m.errMs) 0) /
          ((scoreRound expected actual).matchList.length : ℚ)
      else MATCH_MAX_MS := rfl

theorem scoreRound_effectiveErr (expected : List PlayEvent) (actual : List Hit) :
    (scoreRound expected actual).effectiveErr =
      (scoreRound expected actual).avgErrMs *
        (1 + 0.85 * (((scoreRound expected actual).misses : ℚ) /
                ((max 1 (expOf expected).length : Nat) : ℚ)) +
          0.55 * (((scoreRound expected actual).extras : ℚ) /
                ((max 1 (expOf expected).length : Nat) : ℚ))) := rfl

theorem scoreRound_score (expected : List PlayEvent) (actual : List Hit) :
    (scoreRound expected actual).score =
      tierScore (scoreRound expected actual).effectiveErr (scoreRound expected actual).misses
        (scoreRound expected actual).extras := rfl

/-- The counts reported by `scoreRound`, in terms of the number of matches. -/
theorem scoreRound_counts (expected : List PlayEvent) (actual : List Hit) :
    (scoreRound expected actual).misses =
      (expected.length : Int) - ((scoreRound expected actual).matchList.length : Int) ∧
    (scoreRound expected actual).extras =
      (actual.length : Int) - ((scoreRound expected actual).matchList.length : Int) ∧
    (scoreRound expected actual).matchList.length ≤ expected.length ∧
    (scoreRound expected actual).matchList.length ≤ actual.length := by
  obtain ⟨pairs, hp⟩ := matchLoop_pairing_full (expOf expected) (actOf actual)
  obtain ⟨h1, _, h3, h4, _⟩ := pairing_bounds hp
  rw [scoreRound_misses, scoreRound_extras, scoreRound_matchList, h1, length_expOf, length_actOf]
  rw [length_expOf] at h3
  rw [length_actOf] at h4
  exact ⟨rfl, rfl, h3, h4⟩

/-! ## Matching invariants -/

/-- C7: the matching of `scoreRound` is an injective pairing: there is a list of
(expected index, hit index) pairs, one per entry of `matches`, whose expected indices
increase strictly, whose hit indices are pairwise different (no hit is matched twice),
and each pair joins an expected event and a hit of the same instrument at most 180 ms
apart. Hence matched + misses = number of expected events, matched + extras = number of
captured hits, misses ≥ 0, extras ≥ 0 and matched ≤ min(expected, captured). -/
theorem scoreRound_injective_pairing (expected : List PlayEvent) (actual : List Hit) :
    ∃ pairs : List (Nat × Nat),
      List.Forall₂ (PairOk (expOf expected) (actOf actual)) pairs
        (scoreRound expected actual).matchList ∧
      (pairs.map Prod.fst).Sorted (· < ·) ∧ (pairs.map Prod.snd).Nodup ∧
      (∀ p ∈ pairs, p.1 < expected.length ∧ p.2 < actual.length) ∧
      ((scoreRound expected actual).matchList.length : Int) +
          (scoreRound expected actual).misses = expected.length ∧
      ((scoreRound expected actual).matchList.length : Int) +
          (scoreRound expected actual).extras = actual.length ∧
      0 ≤ (scoreRound expected actual).misses ∧ 0 ≤ (scoreRound expected actual).extras ∧
      (scoreRound expected actual).matchList.length ≤ min expected.length actual.length := by
  obtain ⟨pairs, hp⟩ := matchLoop_pairing_full (expOf expected) (actOf actual)
  obtain ⟨_, _, _, _, h5⟩ := pairing_bounds hp
  obtain ⟨c1, c2, c3, c4⟩ := scoreRound_counts expected actual
  obtain ⟨hu, hnd, hs, hlt, hf⟩ := hp
  refine ⟨pairs, hf, hs, by rw [← hu]; exact hnd, ?_, by omega, by omega, by omega, by omega,
    le_min c3 c4⟩
  intro p hpp
  have a1 := hlt p hpp
  have a2 := h5 p hpp
  rw [length_expOf] at a1
  rw [length_actOf] at a2
  exact ⟨a1, a2⟩

/-- C8: the greedy rule. The expected events are processed in ascending time order. When
the loop reaches the expected event `e` (after the events `done`), then: if no hit is a
candidate (unclaimed, same instrument, error at most 180 ms) the state is unchanged, so
`e` is a miss; if there is a candidate, the loop claims a candidate `j` whose error is
least among all candidates and appends that error to `matches`. So `e` is counted as a
miss exactly when no candidate exists at that point. -/
theorem greedy_matching_rule (expected : List PlayEvent) (actual : List Hit)
    (done : List Ev) (e : Ev) (rest : List Ev) (hsplit : expOf expected = done ++ e :: rest) :
    (expOf expected).Sorted (fun a b => a.t ≤ b.t) ∧
    (matchLoop (actOf actual) (expOf expected) [] []).2 =
      (matchLoop (actOf actual) rest
        (matchLoop (actOf actual) (done ++ [e]) [] []).1
        (matchLoop (actOf actual) (done ++ [e]) [] []).2).2 ∧
    ((∀ j err, ¬ Cand e (matchLoop (actOf actual) done [] []).1 (actOf actual) j err) →
      matchLoop (actOf actual) (done ++ [e]) [] [] = matchLoop (actOf actual) done [] []) ∧
    ((∃ j err, Cand e (matchLoop (actOf actual) done [] []).1 (actOf actual) j err) →
      ∃ j err, Cand e (matchLoop (actOf actual) done [] []).1 (actOf actual) j err ∧
        (∀ j2 err2, Cand e (matchLoop (actOf actual) done [] []).1 (actOf actual) j2 err2 →
          err ≤ err2) ∧
        matchLoop (actOf actual) (done ++ [e]) [] [] =
          ((matchLoop (actOf actual) done [] []).1 ++ [j],
           (matchLoop (actOf actual) done [] []).2 ++ [⟨err, e.i⟩])) ∧
    ((matchLoop (actOf actual) (done ++ [e]) [] []).2.length =
        (matchLoop (actOf actual) done [] []).2.length ↔
      ∀ j err, ¬ Cand e (matchLoop (actOf actual) done [] []).1 (actOf actual) j err) := by
  have hfb := scan_firstBest e (matchLoop (actOf actual) done [] []).1 (actOf actual)
  have hstep := matchLoop_single (actOf actual) e (matchLoop (actOf actual) done [] []).1
    (matchLoop (actOf actual) done [] []).2
  rw [← matchLoop_append] at hstep
  refine ⟨sorted_sortByT _, ?_, ?_, ?_, ?_⟩
  · rw [← matchLoop_append, hsplit]
    simp
  · intro hno
    rw [hstep, scan_eq_of_firstBest (r := none) hno]
  · rintro ⟨j0, err0, hc0⟩
    cases hscan : scan e (matchLoop (actOf actual) done [] []).1 (actOf actual) 0 none with
    | none =>
      rw [hscan] at hfb
      exact absurd hc0 (hfb j0 err0)
    | some q =>
      obtain ⟨j, err⟩ := q
      rw [hscan] at hfb
      refine ⟨j, err, hfb.1, fun j2 err2 h2 => (hfb.2 j2 err2 h2).1, ?_⟩
      rw [hstep, hscan]
      obtain ⟨a, _, hju, _⟩ := hfb.1
      simp [setAdd_of_not_mem hju]
  · rw [hstep]
    cases hscan : scan e (matchLoop (actOf actual) done [] []).1 (actOf actual) 0 none with
    | none =>
      rw [hscan] at hfb
      simpa using hfb
    | some q =>
      obtain ⟨j, err⟩ := q
      rw [hscan] at hfb
      simp only [List.length_append, List.length_singleton]
      constructor
      · intro h
        omega
      · intro h
        exact absurd hfb.1 (h j err)

/-- Witness for C8: in the example round, when the loop reaches the Snare expected at
0.6 s (after the Kick at 0 s), with hits only on the first two events. -/
theorem greedy_matching_rule_witness :
    (matchLoop (actOf exampleHitsTwo) ([⟨0, Instrument.K⟩] ++ [⟨0.6, Instrument.S⟩]) [] []).2.length =
        (matchLoop (actOf exampleHitsTwo) [⟨0, Instrument.K⟩] [] []).2.length ↔
      ∀ j err, ¬ Cand ⟨0.6, Instrument.S⟩
        (matchLoop (actOf exampleHitsTwo) [⟨0, Instrument.K⟩] [] []).1
        (actOf exampleHitsTwo) j err :=
  (greedy_matching_rule exampleExpected exampleHitsTwo [⟨0, Instrument.K⟩]
    ⟨0.6, Instrument.S⟩ [⟨1.2, Instrument.K⟩, ⟨1.8, Instrument.S⟩] (by decide!)).2.2.2.2

/-! ## Empty and unmatched inputs -/

theorem matchLoop_nil_act :
    ∀ (l : List Ev) (usedAct : List Nat) (matchList : List Match),
      matchLoop [] l usedAct matchList = (usedAct, matchList) := by
  intro l
  induction l with
  | nil => intro u m; rfl
  | cons e rest ih => intro u m; simp [matchLoop, scan, ih]

/-- C6: `scoreRound` is a total function, so it returns a result on every input. With
no expected events or with no hits nothing is matched; and whenever nothing is matched,
avgErrMs is the 180 ms ceiling, misses is the number n of expected events, extras is the
number of hits, effectiveErr is `180 * (1 + 0.85 * misses / max(1, n) + 0.55 * extras /
max(1, n))`, and the score is 1. -/
theorem scoreRound_unmatched_default (expected : List PlayEvent) (actual : List Hit) :
    (expected = [] ∨ actual = [] → (scoreRound expected actual).matchList = []) ∧
    ((scoreRound expected actual).matchList = [] →
      (scoreRound expected actual).avgErrMs = 180 ∧
      (scoreRound expected actual).misses = expected.length ∧
      (scoreRound expected actual).extras = actual.length ∧
      (scoreRound expected actual).effectiveErr =
        180 * (1 + 0.85 * (((scoreRound expected actual).misses : ℚ) /
                  ((max 1 expected.length : Nat) : ℚ)) +
                0.55 * (((scoreRound expected actual).extras : ℚ) /
                  ((max 1 expected.length : Nat) : ℚ))) ∧
      (scoreRound expected actual).score = 1) := by
  constructor
  · rintro (h | h)
    · subst h
      rfl
    · subst h
      rw [scoreRound_matchList]
      have : actOf [] = [] := rfl
      rw [this, matchLoop_nil_act]
  · intro h
    obtain ⟨c1, c2, _, _⟩ := scoreRound_counts expected actual
    have havg : (scoreRound expected actual).avgErrMs = 180 := by
      rw [scoreRound_avgErrMs, h]
      simp [MATCH_MAX_MS]
    have hm : (scoreRound expected actual).misses = expected.length := by
      rw [c1, h]; simp
    have hx : (scoreRound expected actual).extras = actual.length := by
      rw [c2, h]; simp
    have heff := scoreRound_effectiveErr expected actual
    rw [havg, length_expOf] at heff
    refine ⟨havg, hm, hx, heff, ?_⟩
    have hpos : (0 : ℚ) < ((max 1 expected.length : Nat) : ℚ) := by
      have : 0 < max 1 expected.length := by omega
      exact_mod_cast this
    have h1 : (0 : ℚ) ≤ ((scoreRound expected actual).misses : ℚ) /
        ((max 1 expected.length : Nat) : ℚ) := by
      rw [hm]
      exact div_nonneg (by exact_mod_cast Nat.zero_le _) hpos.le
    have h2 : (0 : ℚ) ≤ ((scoreRound expected actual).extras : ℚ) /
        ((max 1 expected.length : Nat) : ℚ) := by
      rw [hx]
      exact div_nonneg (by exact_mod_cast Nat.zero_le _) hpos.le
    have hbig : (165 : ℚ) < (scoreRound expected actual).effectiveErr := by
      rw [heff]
      nlinarith
    rw [scoreRound_score]
    unfold tierScore TIER_5_MS TIER_4_MS TIER_3_MS TIER_2_MS
    rw [if_neg (by intro hc; linarith [hc.1]), if_neg (by linarith), if_neg (by linarith),
      if_neg (by linarith)]

/-- Witness for C6: with no expected events and no hits, with expected events and no
hits, and with hits and no expected events, nothing is matched and the score is 1. -/
theorem scoreRound_unmatched_default_witness :
    (scoreRound [] []).score = 1 ∧ (scoreRound exampleExpected []).score = 1 ∧
    (scoreRound [] exampleHitsTwo).score = 1 ∧ (scoreRound [] exampleHitsTwo).avgErrMs = 180 :=
  ⟨((scoreRound_unmatched_default [] []).2
      ((scoreRound_unmatched_default [] []).1 (Or.inl rfl))).2.2.2.2,
   ((scoreRound_unmatched_default exampleExpected []).2
      ((scoreRound_unmatched_default exampleExpected []).1 (Or.inr rfl))).2.2.2.2,
   ((scoreRound_unmatched_default [] exampleHitsTwo).2
      ((scoreRound_unmatched_default [] exampleHitsTwo).1 (Or.inl rfl))).2.2.2.2,
   ((scoreRound_unmatched_default [] exampleHitsTwo).2
      ((scoreRound_unmatched_default [] exampleHitsTwo).1 (Or.inl rfl))).1⟩

/-! ## Perfect play -/

theorem perfect_firstBest (done : List Ev) (e : Ev) (rest : List Ev) :
    FirstBest e (List.range done.length) (done ++ e :: rest) (some (done.length, 0)) := by
  refine ⟨⟨e, ?_, by simp, rfl, by simp, by norm_num [MATCH_MAX_MS]⟩, ?_⟩
  · rw [List.getElem?_append_right (le_refl _)]
    simp
  · rintro j2 err2 ⟨a, _, hj2, _, herr, _⟩
    refine ⟨?_, fun _ => ?_⟩
    · rw [herr]
      positivity
    · simpa using hj2

theorem perfect_loop :
    ∀ (rest done : List Ev) (matchList : List Match), (∀ m ∈ matchList, m.errMs = 0) →
      (matchLoop (done ++ rest) rest (List.range done.length) matchList).1 =
          List.range (done.length + rest.length) ∧
      (matchLoop (done ++ rest) rest (List.range done.length) matchList).2.length =
          matchList.length + rest.length ∧
      ∀ m ∈ (matchLoop (done ++ rest) rest (List.range done.length) matchList).2,
        m.errMs = 0 := by
  intro rest
  induction rest with
  | nil => intro done ml h; simpa [matchLoop] using h
  | cons e rest ih =>
    intro done ml h
    rw [matchLoop, scan_eq_of_firstBest (perfect_firstBest done e rest)]
    have hadd : setAdd (List.range done.length) done.length =
        List.range (done.length + 1) := by
      rw [setAdd_of_not_mem (by simp)]
      simp [List.range_succ]
    have h2 : ∀ m ∈ ml ++ [(⟨0, e.i⟩ : Match)], m.errMs = 0 := by
      intro m hm
      rcases List.mem_append.1 hm with h1 | h1
      · exact h m h1
      · simp only [List.mem_singleton] at h1
        subst h1
        rfl
    have := ih (done ++ [e]) (ml ++ [⟨0, e.i⟩]) h2
    simp only [List.append_assoc, List.singleton_append, List.length_append,
      List.length_singleton] at this
    dsimp only
    rw [hadd]
    refine ⟨?_, ?_, this.2.2⟩
    · rw [this.1, List.length_cons]
      congr 1
      omega
    · rw [this.2.1, List.length_cons]
      omega

theorem foldl_errMs_zero :
    ∀ (matchList : List Match) (s : ℚ), (∀ m ∈ matchList, m.errMs = 0) →
      matchList.foldl (fun s m => s + m.errMs) s = s := by
  intro ml
  induction ml with
  | nil => intro s _; rfl
  | cons m rest ih =>
    intro s h
    rw [List.foldl_cons, h m (List.mem_cons_self _ _), add_zero]
    exact ih s (fun x hx => h x (List.mem_cons_of_mem _ hx))

/-! ## Renaming the indices of the hit array -/

theorem mem_map_of_inj {f : Nat → Nat} (hinj : ∀ j1 j2, f j1 = f j2 → j1 = j2)
    (usedAct : List Nat) (j : Nat) : f j ∈ usedAct.map f ↔ j ∈ usedAct := by
  constructor
  · intro h
    obtain ⟨x, hx, hfx⟩ := List.mem_map.1 h
    rw [← hinj _ _ hfx]
    exact hx
  · exact fun h => List.mem_map.2 ⟨j, h, rfl⟩

theorem cand_rename_fwd {f : Nat → Nat} {bad : Nat → Prop} {act act2 : List Ev}
    (hr : Renaming f bad act act2) {e : Ev} {usedAct : List Nat} {j : Nat} {err : ℚ}
    (h : Cand e usedAct act j err) : Cand e (usedAct.map f) act2 (f j) err := by
  obtain ⟨a, ha, hju, hrest⟩ := h
  exact ⟨a, hr.fwd j a ha, fun hm => hju ((mem_map_of_inj hr.inj usedAct j).1 hm), hrest⟩

theorem cand_rename_bwd {f : Nat → Nat} {bad : Nat → Prop} {act act2 : List Ev}
    (hr : Renaming f bad act act2) {e : Ev} {usedAct : List Nat} {j2 : Nat} {err : ℚ}
    (h : Cand e (usedAct.map f) act2 j2 err) (hb : ¬ bad j2) :
    ∃ j, f j = j2 ∧ Cand e usedAct act j err := by
  obtain ⟨a, ha, hju, hrest⟩ := h
  rcases hr.bwd j2 a ha with h1 | ⟨j, hj, haj⟩
  · exact absurd h1 hb
  · subst hj
    exact ⟨j, rfl, a, haj, fun hm => hju ((mem_map_of_inj hr.inj usedAct j).2 hm), hrest⟩

/-- One pass of the inner loop over a renamed hit array gives the renamed outcome, as
long as it does not pick an index without counterpart. -/
theorem scan_rename {f : Nat → Nat} {bad : Nat → Prop} {act act2 : List Ev}
    (hr : Renaming f bad act act2) (e : Ev) (usedAct : List Nat) :
    (scan e (usedAct.map f) act2 0 none = none → scan e usedAct act 0 none = none) ∧
    (∀ j2 err, scan e (usedAct.map f) act2 0 none = some (j2, err) → ¬ bad j2 →
      ∃ j, f j = j2 ∧ scan e usedAct act 0 none = some (j, err)) := by
  have hfb := scan_firstBest e (usedAct.map f) act2
  constructor
  · intro h
    rw [h] at hfb
    apply scan_eq_of_firstBest
    intro j err hc
    exact hfb (f j) err (cand_rename_fwd hr hc)
  · intro j2 err h hb
    rw [h] at hfb
    obtain ⟨j, hj, hc⟩ := cand_rename_bwd hr hfb.1 hb
    refine ⟨j, hj, scan_eq_of_firstBest ⟨hc, ?_⟩⟩
    intro j3 err3 hc3
    have h3 := hfb.2 (f j3) err3 (cand_rename_fwd hr hc3)
    refine ⟨h3.1, fun heq => ?_⟩
    have hle := h3.2 heq
    by_contra hlt
    obtain ⟨a, ha, _, hai, _⟩ := hc
    obtain ⟨a3, ha3, _, hai3, _⟩ := hc3
    have hm := hr.mono j3 j a3 a ha3 ha (by rw [hai3, hai]) (by omega)
    have : f j3 = f j := by omega
    have := hr.inj _ _ this
    omega

theorem mem_setAdd (usedAct : List Nat) (x y : Nat) :
    y ∈ setAdd usedAct x ↔ y ∈ usedAct ∨ y = x := by
  unfold setAdd
  split_ifs with h
  · constructor
    · exact Or.inl
    · rintro (h1 | rfl)
      · exact h1
      · exact h
  · simp

theorem matchLoop_used_mono (act : List Ev) :
    ∀ (rest : List Ev) (usedAct : List Nat) (matchList : List Match) (x : Nat),
      x ∈ usedAct → x ∈ (matchLoop act rest usedAct matchList).1 := by
  intro rest
  induction rest with
  | nil => intro u m x hx; simpa [matchLoop] using hx
  | cons e rest ih =>
    intro u m x hx
    rw [matchLoop]
    cases scan e u act 0 none with
    | none => exact ih u m x hx
    | some q =>
      obtain ⟨j, err⟩ := q
      exact ih _ _ x ((mem_setAdd u j x).2 (Or.inl hx))

theorem setAdd_map_of_inj {f : Nat → Nat} (hinj : ∀ j1 j2, f j1 = f j2 → j1 = j2)
    (usedAct : List Nat) (j : Nat) : setAdd (usedAct.map f) (f j) = (setAdd usedAct j).map f := by
  unfold setAdd
  by_cases h : j ∈ usedAct
  · rw [if_pos ((mem_map_of_inj hinj usedAct j).2 h), if_pos h]
  · rw [if_neg (fun hm => h ((mem_map_of_inj hinj usedAct j).1 hm)), if_neg h]
    simp

/-- The outer loop over a renamed hit array gives the renamed `usedAct` and the same
`matches`, as long as it claims no index without counterpart. -/
theorem matchLoop_rename {f : Nat → Nat} {bad : Nat → Prop} {act act2 : List Ev}
    (hr : Renaming f bad act act2) :
    ∀ (rest : List Ev) (usedAct : List Nat) (matchList : List Match),
      (∀ x ∈ (matchLoop act2 rest (usedAct.map f) matchList).1, ¬ bad x) →
      matchLoop act2 rest (usedAct.map f) matchList =
        ((matchLoop act rest usedAct matchList).1.map f,
         (matchLoop act rest usedAct matchList).2) := by
  intro rest
  induction rest with
  | nil => intro u m _; simp [matchLoop]
  | cons e rest ih =>
    intro u m hbad
    obtain ⟨hnone, hsome⟩ := scan_rename hr e u
    rw [matchLoop] at hbad ⊢
    rw [matchLoop]
    cases hscan : scan e (u.map f) act2 0 none with
    | none =>
      rw [hscan] at hbad
      rw [hnone hscan]
      exact ih u m hbad
    | some q =>
      obtain ⟨j2, err⟩ := q
      rw [hscan] at hbad
      dsimp only at hbad ⊢
      have hnb : ¬ bad j2 :=
        hbad j2 (matchLoop_used_mono act2 rest _ _ j2 ((mem_setAdd _ _ _).2 (Or.inr rfl)))
      obtain ⟨j, hj, hs⟩ := hsome j2 err hscan hnb
      subst hj
      rw [hs]
      dsimp only
      rw [setAdd_map_of_inj hr.inj] at hbad ⊢
      exact ih _ _ hbad

/-! ## One more hit -/

theorem renaming_insert (M1 M2 : List Ev) (h : Ev) :
    Renaming (skipIdx M1.length) (fun j => j = M1.length) (M1 ++ M2) (M1 ++ h :: M2) where
  inj := by
    intro j1 j2
    unfold skipIdx
    split_ifs <;> omega
  fwd := by
    intro j a ha
    unfold skipIdx
    split_ifs with hlt
    · rw [List.getElem?_append_left hlt] at ha ⊢
      exact ha
    · rw [List.getElem?_append_right (by omega)] at ha ⊢
      rw [show j + 1 - M1.length = (j - M1.length) + 1 by omega, List.getElem?_cons_succ]
      exact ha
  bwd := by
    intro j2 a ha
    rcases Nat.lt_trichotomy j2 M1.length with hlt | heq | hgt
    · right
      refine ⟨j2, by simp [skipIdx, hlt], ?_⟩
      rw [List.getElem?_append_left hlt] at ha ⊢
      exact ha
    · exact Or.inl heq
    · right
      refine ⟨j2 - 1, by unfold skipIdx; split_ifs <;> omega, ?_⟩
      rw [List.getElem?_append_right (by omega)] at ha ⊢
      rw [show j2 - M1.length = (j2 - 1 - M1.length) + 1 by omega, List.getElem?_cons_succ] at ha
      exact ha
  mono := by
    intro j1 j2 _ _ _ _ _ hle
    unfold skipIdx
    split_ifs <;> omega
  notBad := by
    intro j
    unfold skipIdx
    split_ifs <;> omega

theorem orderedInsert_split_self (a : Ev) :
    ∀ L : List Ev, ∃ M1 M2, List.orderedInsert (fun a b : Ev => a.t ≤ b.t) a L = M1 ++ a :: M2 ∧
      L = M1 ++ M2 := by
  intro L
  induction L with
  | nil => exact ⟨[], [], rfl, rfl⟩
  | cons b L ih =>
    rw [List.orderedInsert]
    split_ifs with hab
    · exact ⟨[], b :: L, rfl, rfl⟩
    · obtain ⟨M1, M2, h1, h2⟩ := ih
      exact ⟨b :: M1, M2, by rw [h1]; rfl, by rw [h2]; rfl⟩

theorem orderedInsert_split_other (a h : Ev) :
    ∀ N1 N2 : List Ev, (N1 ++ h :: N2).Sorted (fun a b : Ev => a.t ≤ b.t) →
      ∃ M1 M2, List.orderedInsert (fun a b : Ev => a.t ≤ b.t) a (N1 ++ h :: N2) = M1 ++ h :: M2 ∧
        List.orderedInsert (fun a b : Ev => a.t ≤ b.t) a (N1 ++ N2) = M1 ++ M2 := by
  intro N1
  induction N1 with
  | nil =>
    intro N2 hs
    simp only [List.nil_append]
    rw [List.orderedInsert]
    split_ifs with hah
    · refine ⟨[a], N2, rfl, ?_⟩
      cases N2 with
      | nil => rfl
      | cons b N2 =>
        have hhb : h.t ≤ b.t := List.rel_of_sorted_cons hs b (List.mem_cons_self _ _)
        rw [List.orderedInsert, if_pos (le_trans hah hhb)]
        rfl
    · exact ⟨[], _, rfl, rfl⟩
  | cons b N1 ih =>
    intro N2 hs
    simp only [List.cons_append]
    rw [List.orderedInsert, List.orderedInsert]
    split_ifs with hab
    · exact ⟨a :: b :: N1, N2, rfl, rfl⟩
    · obtain ⟨M1, M2, h1, h2⟩ := ih N2 (List.Sorted.of_cons hs)
      exact ⟨b :: M1, M2, by rw [h1]; rfl, by rw [h2]; rfl⟩

/-- The stable sort places an added element somewhere in the sorted array and leaves the
other elements as the sort without it does. -/
theorem sortByT_insert (h : Ev) :
    ∀ A1 A2 : List Ev, ∃ M1 M2, sortByT (A1 ++ h :: A2) = M1 ++ h :: M2 ∧
      sortByT (A1 ++ A2) = M1 ++ M2 := by
  intro A1
  induction A1 with
  | nil =>
    intro A2
    exact orderedInsert_split_self h (sortByT A2)
  | cons a A1 ih =>
    intro A2
    obtain ⟨N1, N2, h1, h2⟩ := ih A2
    have hs : (N1 ++ h :: N2).Sorted (fun a b : Ev => a.t ≤ b.t) := by
      rw [← h1]
      exact sorted_sortByT _
    have := orderedInsert_split_other a h N1 N2 hs
    rw [← h1, ← h2] at this
    exact this

theorem actOf_insert (A1 A2 : List Hit) (h : Hit) :
    ∃ M1 M2, actOf (A1 ++ h :: A2) = M1 ++ ⟨h.tSec, h.i⟩ :: M2 ∧ actOf (A1 ++ A2) = M1 ++ M2 := by
  have := sortByT_insert ⟨h.tSec, h.i⟩ (A1.map (fun a => ⟨a.tSec, a.i⟩))
    (A2.map (fun a => ⟨a.tSec, a.i⟩))
  simpa [actOf] using this

theorem foldl_errMs_eq_sum :
    ∀ (matchList : List Match) (s : ℚ),
      matchList.foldl (fun s m => s + m.errMs) s = s + (matchList.map (fun m => m.errMs)).sum := by
  intro ml
  induction ml with
  | nil => intro s; simp
  | cons m rest ih =>
    intro s
    rw [List.foldl_cons, ih, List.map_cons, List.sum_cons, add_assoc]

theorem scoreRound_errMs_nonneg (expected : List PlayEvent) (actual : List Hit) :
    ∀ m ∈ (scoreRound expected actual).matchList, 0 ≤ m.errMs := by
  obtain ⟨pairs, _, _, _, _, hf⟩ := matchLoop_pairing_full (expOf expected) (actOf actual)
  intro m hm
  rw [scoreRound_matchList] at hm
  obtain ⟨p, _, e, a, _, _, _, herr, _⟩ := forall₂_mem_left hf.flip m hm
  rw [herr]
  positivity

theorem scoreRound_avgErrMs_nonneg (expected : List PlayEvent) (actual : List Hit) :
    0 ≤ (scoreRound expected actual).avgErrMs := by
  rw [scoreRound_avgErrMs]
  split_ifs with h
  · rw [foldl_errMs_eq_sum, zero_add]
    apply div_nonneg
    · apply List.sum_nonneg
      intro x hx
      obtain ⟨m, hm, rfl⟩ := List.mem_map.1 hx
      exact scoreRound_errMs_nonneg expected actual m hm
    · positivity
  · norm_num [MATCH_MAX_MS]

theorem tierScore_mono {x y : ℚ} {m n n2 : Int} (hxy : x ≤ y) (hn2 : n2 ≠ 0) :
    tierScore y m n2 ≤ tierScore x m n := by
  unfold tierScore TIER_5_MS TIER_4_MS TIER_3_MS TIER_2_MS
  split_ifs <;> first | omega | (exfalso; linarith)

theorem scoreRound_with_extra_hit (expected : List PlayEvent) (A1 A2 : List Hit) (h : Hit)
    (M1 M2 : List Ev) (hpos : actOf (A1 ++ h :: A2) = M1 ++ ⟨h.tSec, h.i⟩ :: M2)
    (hrest : actOf (A1 ++ A2) = M1 ++ M2)
    (hun : M1.length ∉ (matchLoop (actOf (A1 ++ h :: A2)) (expOf expected) [] []).1) :
    (scoreRound expected (A1 ++ h :: A2)).matchList = (scoreRound expected (A1 ++ A2)).matchList ∧
    (scoreRound expected (A1 ++ h :: A2)).misses = (scoreRound expected (A1 ++ A2)).misses ∧
    (scoreRound expected (A1 ++ h :: A2)).extras = (scoreRound expected (A1 ++ A2)).extras + 1 ∧
    (scoreRound expected (A1 ++ h :: A2)).avgErrMs = (scoreRound expected (A1 ++ A2)).avgErrMs := by
  have hren := renaming_insert M1 M2 ⟨h.tSec, h.i⟩
  have hloop := matchLoop_rename hren (expOf expected) [] []
  simp only [List.map_nil] at hloop
  rw [← hpos, ← hrest] at hloop
  have hloop2 := hloop (fun x hx hbad => hun (hbad ▸ hx))
  have hml : (scoreRound expected (A1 ++ h :: A2)).matchList =
      (scoreRound expected (A1 ++ A2)).matchList := by
    rw [scoreRound_matchList, scoreRound_matchList, hloop2]
  obtain ⟨c1, c2, _, _⟩ := scoreRound_counts expected (A1 ++ h :: A2)
  obtain ⟨d1, d2, _, _⟩ := scoreRound_counts expected (A1 ++ A2)
  refine ⟨hml, ?_, ?_, ?_⟩
  · rw [c1, d1, hml]
  · rw [c2, d2, hml]
    simp only [List.length_append, List.length_cons]
    push_cast
    ring
  · rw [scoreRound_avgErrMs, scoreRound_avgErrMs, hml]

/-- C3: scorer monotonicity. Adding one hit `h` to the captured hits (at any place of the
list) puts it at some index of the sorted hit array and leaves the rest of that array as
it was; and whenever the index of `h` is claimed by no expected event, the round with `h`
has the same misses, one more extra, and a score no higher than the round without `h`. -/
theorem extra_hit_never_raises_score (expected : List PlayEvent) (A1 A2 : List Hit) (h : Hit) :
    (∃ M1 M2, actOf (A1 ++ h :: A2) = M1 ++ ⟨h.tSec, h.i⟩ :: M2 ∧
      actOf (A1 ++ A2) = M1 ++ M2) ∧
    ∀ M1 M2, actOf (A1 ++ h :: A2) = M1 ++ ⟨h.tSec, h.i⟩ :: M2 → actOf (A1 ++ A2) = M1 ++ M2 →
      M1.length ∉ (matchLoop (actOf (A1 ++ h :: A2)) (expOf expected) [] []).1 →
      (scoreRound expected (A1 ++ h :: A2)).score ≤ (scoreRound expected (A1 ++ A2)).score ∧
      (scoreRound expected (A1 ++ h :: A2)).misses = (scoreRound expected (A1 ++ A2)).misses ∧
      (scoreRound expected (A1 ++ h :: A2)).extras =
        (scoreRound expected (A1 ++ A2)).extras + 1 := by
  refine ⟨actOf_insert A1 A2 h, ?_⟩
  intro M1 M2 hpos hrest hun
  obtain ⟨_, hm, hx, havg⟩ := scoreRound_with_extra_hit expected A1 A2 h M1 M2 hpos hrest hun
  refine ⟨?_, hm, hx⟩
  obtain ⟨_, d2, _, d4⟩ := scoreRound_counts expected (A1 ++ A2)
  have hx0 : 0 ≤ (scoreRound expected (A1 ++ A2)).extras := by omega
  have havg0 := scoreRound_avgErrMs_nonneg expected (A1 ++ A2)
  have hpos2 : (0 : ℚ) < ((max 1 (expOf expected).length : Nat) : ℚ) := by
    have : 0 < max 1 (expOf expected).length := by omega
    exact_mod_cast this
  have heff : (scoreRound expected (A1 ++ A2)).effectiveErr ≤
      (scoreRound expected (A1 ++ h :: A2)).effectiveErr := by
    rw [scoreRound_effectiveErr, scoreRound_effectiveErr, havg, hm, hx]
    apply mul_le_mul_of_nonneg_left _ havg0
    have : ((scoreRound expected (A1 ++ A2)).extras : ℚ) /
          ((max 1 (expOf expected).length : Nat) : ℚ) ≤
        (((scoreRound expected (A1 ++ A2)).extras + 1 : Int) : ℚ) /
          ((max 1 (expOf expected).length : Nat) : ℚ) := by
      apply div_le_div_of_nonneg_right _ hpos2.le
      push_cast
      linarith
    linarith
  rw [scoreRound_score, scoreRound_score, hm, hx]
  exact tierScore_mono heff (by omega)

/-- Witness for C3: the example round played exactly, plus one stray Kick at 0.3 s. The
stray hit lands at index 1 of the sorted hits and is claimed by no expected event. -/
theorem extra_hit_never_raises_score_witness :
    (scoreRound exampleExpected (exampleHitsAll ++ ⟨0.3, Instrument.K⟩ :: [])).score ≤
        (scoreRound exampleExpected (exampleHitsAll ++ [])).score ∧
      (scoreRound exampleExpected (exampleHitsAll ++ ⟨0.3, Instrument.K⟩ :: [])).misses =
        (scoreRound exampleExpected (exampleHitsAll ++ [])).misses ∧
      (scoreRound exampleExpected (exampleHitsAll ++ ⟨0.3, Instrument.K⟩ :: [])).extras =
        (scoreRound exampleExpected (exampleHitsAll ++ [])).extras + 1 :=
  (extra_hit_never_raises_score exampleExpected exampleHitsAll [] ⟨0.3, Instrument.K⟩).2
    [⟨0, Instrument.K⟩]
    [⟨0.6, Instrument.S⟩, ⟨1.2, Instrument.K⟩, ⟨1.8, Instrument.S⟩]
    (by decide!) (by decide!) (by decide!)

/-! ## Order of events of equal time -/

theorem scan_congr_used {e : Ev} {u u2 : List Nat} (act : List Ev)
    (h : ∀ j, j ∈ u ↔ j ∈ u2) : scan e u act 0 none = scan e u2 act 0 none := by
  apply scan_eq_of_firstBest
  have hc : ∀ j err, Cand e u act j err ↔ Cand e u2 act j err := by
    intro j err
    constructor
    · rintro ⟨a, ha, hj, hrest⟩
      exact ⟨a, ha, fun hm => hj ((h j).2 hm), hrest⟩
    · rintro ⟨a, ha, hj, hrest⟩
      exact ⟨a, ha, fun hm => hj ((h j).1 hm), hrest⟩
  have hfb := scan_firstBest e u2 act
  cases hs : scan e u2 act 0 none with
  | none =>
    rw [hs] at hfb
    intro j err hcand
    exact hfb j err ((hc j err).1 hcand)
  | some q =>
    obtain ⟨j, err⟩ := q
    rw [hs] at hfb
    exact ⟨(hc j err).2 hfb.1, fun j2 err2 h2 => hfb.2 j2 err2 ((hc j2 err2).1 h2)⟩

theorem setAdd_perm {u u2 : List Nat} (h : u.Perm u2) (x : Nat) :
    (setAdd u x).Perm (setAdd u2 x) := by
  unfold setAdd
  by_cases hx : x ∈ u
  · rw [if_pos hx, if_pos (h.mem_iff.1 hx)]
    exact h
  · rw [if_neg hx, if_neg (fun hm => hx (h.mem_iff.2 hm))]
    exact h.append_right [x]

theorem matchLoop_perm (act : List Ev) :
    ∀ (rest : List Ev) (u u2 : List Nat) (m m2 : List Match), u.Perm u2 → m.Perm m2 →
      (matchLoop act rest u m).1.Perm (matchLoop act rest u2 m2).1 ∧
      (matchLoop act rest u m).2.Perm (matchLoop act rest u2 m2).2 := by
  intro rest
  induction rest with
  | nil => intro u u2 m m2 hu hm; exact ⟨hu, hm⟩
  | cons e rest ih =>
    intro u u2 m m2 hu hm
    rw [matchLoop, matchLoop, scan_congr_used act (fun j => hu.mem_iff)]
    cases scan e u2 act 0 none with
    | none => exact ih u u2 m m2 hu hm
    | some q =>
      obtain ⟨j, err⟩ := q
      exact ih _ _ _ _ (setAdd_perm hu j) (hm.append_right _)

theorem scan_setAdd_other {e : Ev} {u : List Nat} {act : List Ev} {j : Nat} {a : Ev}
    (ha : act[j]? = some a) (hi : a.i ≠ e.i) :
    scan e (setAdd u j) act 0 none = scan e u act 0 none := by
  apply scan_eq_of_firstBest
  have hc : ∀ j2 err, Cand e (setAdd u j) act j2 err ↔ Cand e u act j2 err := by
    intro j2 err
    constructor
    · rintro ⟨b, hb, hj, hrest⟩
      exact ⟨b, hb, fun hm => hj ((mem_setAdd u j j2).2 (Or.inl hm)), hrest⟩
    · rintro ⟨b, hb, hj, hbi, hrest⟩
      refine ⟨b, hb, fun hm => ?_, hbi, hrest⟩
      rcases (mem_setAdd u j j2).1 hm with h1 | h1
      · exact hj h1
      · subst h1
        rw [ha] at hb
        cases hb
        exact hi hbi
  have hfb := scan_firstBest e u act
  cases hs : scan e u act 0 none with
  | none =>
    rw [hs] at hfb
    intro j2 err hcand
    exact hfb j2 err ((hc j2 err).1 hcand)
  | some q =>
    obtain ⟨j2, err⟩ := q
    rw [hs] at hfb
    exact ⟨(hc j2 err).2 hfb.1, fun j3 err3 h3 => hfb.2 j3 err3 ((hc j3 err3).1 h3)⟩

theorem scan_some_instrument {e : Ev} {u : List Nat} {act : List Ev} {j : Nat} {err : ℚ}
    (h : scan e u act 0 none = some (j, err)) : ∃ a, act[j]? = some a ∧ a.i = e.i := by
  have hfb := scan_firstBest e u act
  rw [h] at hfb
  obtain ⟨a, ha, _, hai, _⟩ := hfb.1
  exact ⟨a, ha, hai⟩

/-- Two expected events of different instruments can be processed in either order. -/
theorem matchLoop_swap_two (act : List Ev) (e1 e2 : Ev) (hne : e1.i ≠ e2.i)
    (u : List Nat) (m : List Match) :
    (matchLoop act [e1, e2] u m).1.Perm (matchLoop act [e2, e1] u m).1 ∧
    (matchLoop act [e1, e2] u m).2.Perm (matchLoop act [e2, e1] u m).2 := by
  simp only [matchLoop]
  cases h1 : scan e1 u act 0 none with
  | none =>
    cases h2 : scan e2 u act 0 none with
    | none => simp [h1, h2]
    | some q2 =>
      obtain ⟨j2, err2⟩ := q2
      obtain ⟨a2, ha2, hi2⟩ := scan_some_instrument h2
      have := scan_setAdd_other (e := e1) (u := u) ha2 (by rw [hi2]; exact fun h => hne h.symm)
      simp [h1, h2, this]
  | some q1 =>
    obtain ⟨j1, err1⟩ := q1
    obtain ⟨a1, ha1, hi1⟩ := scan_some_instrument h1
    have k1 := scan_setAdd_other (e := e2) (u := u) ha1 (by rw [hi1]; exact hne)
    cases h2 : scan e2 u act 0 none with
    | none => simp [h1, h2, k1]
    | some q2 =>
      obtain ⟨j2, err2⟩ := q2
      obtain ⟨a2, ha2, hi2⟩ := scan_some_instrument h2
      have k2 := scan_setAdd_other (e := e1) (u := u) ha2
        (by rw [hi2]; exact fun h => hne h.symm)
      have hj1 : j1 ∉ u := by
        have hfb := scan_firstBest e1 u act
        rw [h1] at hfb
        obtain ⟨_, _, hj, _⟩ := hfb.1
        exact hj
      have hj2 : j2 ∉ u := by
        have hfb := scan_firstBest e2 u act
        rw [h2] at hfb
        obtain ⟨_, _, hj, _⟩ := hfb.1
        exact hj
      have hj12 : j1 ≠ j2 := by
        rintro rfl
        rw [ha1] at ha2
        cases ha2
        exact hne (hi1.symm.trans hi2)
      simp only [h1, h2, k1, k2]
      constructor
      · rw [setAdd_of_not_mem hj1, setAdd_of_not_mem hj2,
          setAdd_of_not_mem (by simp [hj2, Ne.symm hj12]),
          setAdd_of_not_mem (by simp [hj1, hj12])]
        simp only [List.append_assoc]
        exact List.Perm.append_left _ (List.Perm.swap _ _ _)
      · simp only [List.append_assoc]
        exact List.Perm.append_left _ (List.Perm.swap _ _ _)

theorem loopEq_refl (r : List Nat × List Match) : LoopEq r r := ⟨rfl, List.Perm.refl _⟩

theorem loopEq_symm {r r2 : List Nat × List Match} (h : LoopEq r r2) : LoopEq r2 r :=
  ⟨h.1.symm, h.2.symm⟩

theorem loopEq_trans {r r2 r3 : List Nat × List Match} (h : LoopEq r r2) (h2 : LoopEq r2 r3) :
    LoopEq r r3 := ⟨h.1.trans h2.1, h.2.trans h2.2⟩

theorem matchLoop_swapStep_exp (act : List Ev) {exp exp2 : List Ev} (h : SwapStep exp exp2) :
    LoopEq (matchLoop act exp [] []) (matchLoop act exp2 [] []) := by
  obtain ⟨X, Y, a, b, hne⟩ := h
  have e1 : X ++ a :: b :: Y = X ++ ([a, b] ++ Y) := rfl
  have e2 : X ++ b :: a :: Y = X ++ ([b, a] ++ Y) := rfl
  rw [e1, e2, matchLoop_append, matchLoop_append act X, matchLoop_append, matchLoop_append act [b, a]]
  obtain ⟨p1, p2⟩ := matchLoop_swap_two act a b hne (matchLoop act X [] []).1
    (matchLoop act X [] []).2
  obtain ⟨q1, q2⟩ := matchLoop_perm act Y _ _ _ _ p1 p2
  exact ⟨q1.length_eq, q2⟩

theorem getElem?_swapIdx (X Y : List Ev) (a b : Ev) (j : Nat) :
    (X ++ b :: a :: Y)[swapIdx X.length j]? = (X ++ a :: b :: Y)[j]? := by
  unfold swapIdx
  rcases Nat.lt_or_ge j X.length with hlt | hge
  · rw [if_neg (by omega), if_neg (by omega), List.getElem?_append_left hlt,
      List.getElem?_append_left hlt]
  · by_cases h0 : j = X.length
    · subst h0
      rw [if_pos rfl, List.getElem?_append_right (by omega),
        List.getElem?_append_right (by omega)]
      simp
    · by_cases h1 : j = X.length + 1
      · subst h1
        rw [if_neg (by omega), if_pos rfl, List.getElem?_append_right (by omega),
          List.getElem?_append_right (by omega)]
        simp
      · rw [if_neg h0, if_neg h1, List.getElem?_append_right (by omega),
          List.getElem?_append_right (by omega)]
        obtain ⟨d, hd⟩ : ∃ d, j - X.length = d + 2 := ⟨j - X.length - 2, by omega⟩
        rw [hd]
        simp

theorem swapIdx_swapIdx (k j : Nat) : swapIdx k (swapIdx k j) = j := by
  unfold swapIdx
  split_ifs <;> omega

theorem renaming_swap (X Y : List Ev) (a b : Ev) (hne : a.i ≠ b.i) :
    Renaming (swapIdx X.length) (fun _ => False) (X ++ a :: b :: Y) (X ++ b :: a :: Y) where
  inj := by
    intro j1 j2 h
    have := congrArg (swapIdx X.length) h
    rwa [swapIdx_swapIdx, swapIdx_swapIdx] at this
  fwd := by
    intro j c hc
    rw [getElem?_swapIdx]
    exact hc
  bwd := by
    intro j2 c hc
    right
    refine ⟨swapIdx X.length j2, swapIdx_swapIdx _ _, ?_⟩
    rw [getElem?_swapIdx]
    exact hc
  mono := by
    intro j1 j2 a1 a2 h1 h2 hi hle
    by_cases hcase : j1 = X.length ∧ j2 = X.length + 1
    · exfalso
      obtain ⟨rfl, rfl⟩ := hcase
      rw [List.getElem?_append_right (le_refl _)] at h1
      rw [List.getElem?_append_right (by omega)] at h2
      simp at h1 h2
      subst h1 h2
      exact hne hi
    · unfold swapIdx
      split_ifs <;> omega
  notBad := fun _ h => h

theorem matchLoop_swapStep_act {act act2 : List Ev} (h : SwapStep act act2) (exp : List Ev) :
    LoopEq (matchLoop act exp [] []) (matchLoop act2 exp [] []) := by
  obtain ⟨X, Y, a, b, hne⟩ := h
  have := matchLoop_rename (renaming_swap X Y a b hne) exp [] [] (fun _ _ h => h)
  simp only [List.map_nil] at this
  rw [this]
  exact ⟨by simp, List.Perm.refl _⟩

theorem swapStep_cons (y : Ev) {l l2 : List Ev} (h : SwapStep l l2) :
    SwapStep (y :: l) (y :: l2) := by
  obtain ⟨X, Y, a, b, hne⟩ := h
  exact SwapStep.swap (y :: X) Y a b hne

theorem swap_chain_bubble (x : Ev) (Q : List Ev) :
    ∀ P : List Ev, (∀ y ∈ P, y.i ≠ x.i) →
      Relation.ReflTransGen SwapStep (x :: (P ++ Q)) (P ++ x :: Q) := by
  intro P
  induction P with
  | nil => intro _; exact Relation.ReflTransGen.refl
  | cons y P ih =>
    intro h
    have h1 : SwapStep (x :: y :: (P ++ Q)) (y :: x :: (P ++ Q)) :=
      SwapStep.swap [] (P ++ Q) x y (fun hxy => h y (List.mem_cons_self _ _) hxy.symm)
    have h2 := ih (fun z hz => h z (List.mem_cons_of_mem _ hz))
    exact Relation.ReflTransGen.head h1
      (Relation.ReflTransGen.lift (fun l => y :: l) (fun _ _ hs => swapStep_cons y hs) h2)

/-- Two arrays sorted by time that hold the same events differ only by exchanges of
neighbours of different instruments. -/
theorem sorted_perm_swap_chain :
    ∀ L L2 : List Ev, L.Sorted (fun a b : Ev => a.t ≤ b.t) →
      L2.Sorted (fun a b : Ev => a.t ≤ b.t) → L.Perm L2 →
      Relation.ReflTransGen SwapStep L L2 := by
  intro L
  induction L with
  | nil =>
    intro L2 _ _ hp
    rw [List.Perm.nil_eq hp]
  | cons x L1 ih =>
    intro L2 hs hs2 hp
    have hx : x ∈ L2 := hp.subset (List.mem_cons_self _ _)
    obtain ⟨P, Q, rfl, hxP⟩ := List.eq_append_cons_of_mem hx
    have hP : ∀ y ∈ P, y.i ≠ x.i := by
      intro y hy hi
      have h1 : y.t ≤ x.t :=
        (List.pairwise_append.1 hs2).2.2 y hy x (List.mem_cons_self _ _)
      have hyL : y ∈ x :: L1 := hp.symm.subset (List.mem_append_left _ hy)
      have h2 : x.t ≤ y.t := by
        rcases List.mem_cons.1 hyL with rfl | hyL1
        · exact le_refl _
        · exact List.rel_of_sorted_cons hs y hyL1
      have hyx : y = x := by
        cases y
        cases x
        simp only [Ev.mk.injEq]
        exact ⟨le_antisymm h1 h2, hi⟩
      exact hxP (hyx ▸ hy)
    have hp1 : L1.Perm (P ++ Q) := (hp.trans List.perm_middle).cons_inv
    have hsPQ : (P ++ Q).Sorted (fun a b : Ev => a.t ≤ b.t) :=
      List.Pairwise.sublist (List.Sublist.append_left (List.sublist_cons_self x Q) P) hs2
    have h1 := ih (P ++ Q) (List.Sorted.of_cons hs) hsPQ hp1
    exact (Relation.ReflTransGen.lift (fun l => x :: l) (fun _ _ h => swapStep_cons x h) h1).trans
      (swap_chain_bubble x Q P hP)

theorem matchLoop_chain_act {act act2 : List Ev} (h : Relation.ReflTransGen SwapStep act act2)
    (exp : List Ev) : LoopEq (matchLoop act exp [] []) (matchLoop act2 exp [] []) := by
  induction h with
  | refl => exact loopEq_refl _
  | tail _ hstep ih => exact loopEq_trans ih (matchLoop_swapStep_act hstep exp)

theorem matchLoop_chain_exp (act : List Ev) {exp exp2 : List Ev}
    (h : Relation.ReflTransGen SwapStep exp exp2) :
    LoopEq (matchLoop act exp [] []) (matchLoop act exp2 [] []) := by
  induction h with
  | refl => exact loopEq_refl _
  | tail _ hstep ih => exact loopEq_trans ih (matchLoop_swapStep_exp act hstep)

theorem sortByT_perm_chain {l l2 : List Ev} (h : l.Perm l2) :
    Relation.ReflTransGen SwapStep (sortByT l) (sortByT l2) :=
  sorted_perm_swap_chain _ _ (sorted_sortByT l) (sorted_sortByT l2)
    (((List.perm_insertionSort _ l).trans h).trans (List.perm_insertionSort _ l2).symm)

/-- The state the matching loop ends in does not depend, in what `scoreRound` reads from
it, on the order in which the expected events and the hits are listed. -/
theorem matchLoop_perm_invariant {expected expected2 : List PlayEvent} {actual actual2 : List Hit}
    (hE : expected.Perm expected2) (hA : actual.Perm actual2) :
    LoopEq (matchLoop (actOf actual) (expOf expected) [] [])
      (matchLoop (actOf actual2) (expOf expected2) [] []) :=
  loopEq_trans
    (matchLoop_chain_act (sortByT_perm_chain (hA.map _)) (expOf expected))
    (matchLoop_chain_exp (actOf actual2) (sortByT_perm_chain (hE.map _)))

/-! ## Perfect play, in any order -/

/-- C5: for every non-empty list of expected events, when the captured hits are exactly
the expected events (one hit per event, at the same instant, with the same instrument,
listed in any order), `scoreRound` reports 0 misses, 0 extras, avgErrMs = 0,
effectiveErr = 0 and score 5. -/
theorem perfect_play_scores_five (expected : List PlayEvent) (actual : List Hit)
    (hne : expected ≠ [])
    (hA : actual.Perm (expected.map (fun e => (⟨e.when, e.i⟩ : Hit)))) :
    (scoreRound expected actual).misses = 0 ∧
    (scoreRound expected actual).extras = 0 ∧
    (scoreRound expected actual).avgErrMs = 0 ∧
    (scoreRound expected actual).effectiveErr = 0 ∧
    (scoreRound expected actual).score = 5 := by
  have hact : actOf (expected.map (fun e => (⟨e.when, e.i⟩ : Hit))) = expOf expected := by
    simp [actOf, expOf, List.map_map, Function.comp_def]
  have hloop := perfect_loop (expOf expected) [] [] (fun _ hm => by cases hm)
  simp only [List.nil_append, List.length_nil, List.range_zero, Nat.zero_add] at hloop
  obtain ⟨_, hlen0, hzero0⟩ := hloop
  obtain ⟨_, hm⟩ := matchLoop_perm_invariant (List.Perm.refl expected) hA
  rw [hact, ← scoreRound_matchList] at hm
  have hlen : (scoreRound expected actual).matchList.length = expected.length := by
    rw [hm.length_eq, hlen0, length_expOf]
  have hzero : ∀ m ∈ (scoreRound expected actual).matchList, m.errMs = 0 :=
    fun m hmem => hzero0 m (hm.mem_iff.1 hmem)
  obtain ⟨c1, c2, _, _⟩ := scoreRound_counts expected actual
  rw [hlen] at c1 c2
  rw [hA.length_eq, List.length_map] at c2
  have hpos : expected.length ≠ 0 := fun h => hne (List.length_eq_zero.1 h)
  have hmiss : (scoreRound expected actual).misses = 0 := by
    rw [c1]; omega
  have hx : (scoreRound expected actual).extras = 0 := by
    rw [c2]; omega
  have havg : (scoreRound expected actual).avgErrMs = 0 := by
    rw [scoreRound_avgErrMs, if_pos (by rw [hlen]; exact hpos), foldl_errMs_zero _ 0 hzero,
      zero_div]
  have heff : (scoreRound expected actual).effectiveErr = 0 := by
    rw [scoreRound_effectiveErr, havg, zero_mul]
  refine ⟨hmiss, hx, havg, heff, ?_⟩
  rw [scoreRound_score, heff, hmiss, hx]
  decide!

/-- Witness for C5: Kick, Snare, Kick, Snare at 0, 0.6, 1.2, 1.8 s (100 bpm) played back
exactly. -/
theorem perfect_play_scores_five_witness :
    (scoreRound exampleExpected exampleHitsAll).misses = 0 ∧
    (scoreRound exampleExpected exampleHitsAll).extras = 0 ∧
    (scoreRound exampleExpected exampleHitsAll).avgErrMs = 0 ∧
    (scoreRound exampleExpected exampleHitsAll).effectiveErr = 0 ∧
    (scoreRound exampleExpected exampleHitsAll).score = 5 :=
  perfect_play_scores_five exampleExpected exampleHitsAll (by decide) (List.Perm.refl _)

/-- In exact arithmetic the result of `scoreRound` does not depend on the order of its
inputs: when the expected events are listed in another order and the captured hits are
listed in another order, `scoreRound` yields the same score, misses, extras, number of
matches, avgErrMs and effectiveErr. On doubles this fails for avgErrMs, effectiveErr and
score: see `scoreRoundD`. -/
theorem scoreRound_perm_invariant (expected expected2 : List PlayEvent)
    (actual actual2 : List Hit) (hE : expected.Perm expected2) (hA : actual.Perm actual2) :
    (scoreRound expected2 actual2).score = (scoreRound expected actual).score ∧
    (scoreRound expected2 actual2).misses = (scoreRound expected actual).misses ∧
    (scoreRound expected2 actual2).extras = (scoreRound expected actual).extras ∧
    (scoreRound expected2 actual2).matchList.length =
      (scoreRound expected actual).matchList.length ∧
    (scoreRound expected2 actual2).avgErrMs = (scoreRound expected actual).avgErrMs ∧
    (scoreRound expected2 actual2).effectiveErr = (scoreRound expected actual).effectiveErr := by
  obtain ⟨hu, hm⟩ := matchLoop_perm_invariant hE hA
  rw [← scoreRound_matchList, ← scoreRound_matchList] at hm
  have hlen := hm.length_eq
  have hexp : (expOf expected2).length = (expOf expected).length := by
    rw [length_expOf, length_expOf, hE.length_eq]
  have hmiss : (scoreRound expected2 actual2).misses = (scoreRound expected actual).misses := by
    rw [scoreRound_misses, scoreRound_misses, hexp, hlen]
  have hextra : (scoreRound expected2 actual2).extras = (scoreRound expected actual).extras := by
    rw [scoreRound_extras, scoreRound_extras, length_actOf, length_actOf, hA.length_eq, hu]
  have havg : (scoreRound expected2 actual2).avgErrMs = (scoreRound expected actual).avgErrMs := by
    rw [scoreRound_avgErrMs, scoreRound_avgErrMs, foldl_errMs_eq_sum, foldl_errMs_eq_sum, hlen,
      (hm.map (fun m => m.errMs)).sum_eq]
  have heff : (scoreRound expected2 actual2).effectiveErr =
      (scoreRound expected actual).effectiveErr := by
    rw [scoreRound_effectiveErr, scoreRound_effectiveErr, havg, hmiss, hextra, hexp]
  refine ⟨?_, hmiss, hextra, hlen.symm, havg, heff⟩
  rw [scoreRound_score, scoreRound_score, heff, hmiss, hextra]

/-- An instance of the theorem above: the example round with the expected events and the
two hits listed in reverse order. -/
theorem scoreRound_perm_invariant_witness :
    (scoreRound exampleExpected.reverse exampleHitsTwo.reverse).score =
        (scoreRound exampleExpected exampleHitsTwo).score ∧
    (scoreRound exampleExpected.reverse exampleHitsTwo.reverse).misses =
        (scoreRound exampleExpected exampleHitsTwo).misses ∧
    (scoreRound exampleExpected.reverse exampleHitsTwo.reverse).extras =
        (scoreRound exampleExpected exampleHitsTwo).extras ∧
    (scoreRound exampleExpected.reverse exampleHitsTwo.reverse).matchList.length =
        (scoreRound exampleExpected exampleHitsTwo).matchList.length ∧
    (scoreRound exampleExpected.reverse exampleHitsTwo.reverse).avgErrMs =
        (scoreRound exampleExpected exampleHitsTwo).avgErrMs ∧
    (scoreRound exampleExpected.reverse exampleHitsTwo.reverse).effectiveErr =
        (scoreRound exampleExpected exampleHitsTwo).effectiveErr :=
  scoreRound_perm_invariant exampleExpected exampleExpected.reverse exampleHitsTwo
    exampleHitsTwo.reverse (List.reverse_perm _).symm (List.reverse_perm _).symm

/-! ## Cycle-phase mapping -/

theorem tmod_sixteen_bounds (x : Int) : -16 < Int.tmod x 16 ∧ Int.tmod x 16 < 16 := by
  constructor
  · rcases le_or_lt 0 x with h | h
    · have := Int.tmod_nonneg 16 h
      omega
    · obtain ⟨n, rfl⟩ := Int.eq_negSucc_of_lt_zero h
      have h2 : Int.tmod (Int.negSucc n) 16 = -(((n + 1) % 16 : Nat) : Int) := rfl
      omega
  · exact Int.tmod_lt_of_pos _ (by norm_num)

theorem cycleBeatOffset_eq_emod (a b : Int) : cycleBeatOffset a b = (b - a) % 16 := by
  unfold cycleBeatOffset CYCLE_BEATS
  have hb := tmod_sixteen_bounds (b - a)
  have hd := Int.tmod_def (b - a) 16
  rw [Int.tmod_eq_emod (by omega) (by norm_num)]
  omega

/-- C9: for all integers b (beat index) and a (anchor beat), also when b < a,
`cycleBeatOffset` is `(b - a) mod 16` and lies in [0,16); the phase of an offset is Listen
on [0,4), Ready on [4,8), Play on [8,12), Score on [12,16); and the phase-boundary test of
the scheduler holds exactly at the offsets 0, 4, 8, 12, where the phase entered is Listen,
Ready, Play, Score respectively. -/
theorem cycle_phase_mapping (a b : Int) :
    cycleBeatOffset a b = (b - a) % 16 ∧
    0 ≤ cycleBeatOffset a b ∧ cycleBeatOffset a b < 16 ∧
    (computePhaseFromCycleBeat (cycleBeatOffset a b) = Phase.LISTEN ↔ cycleBeatOffset a b < 4) ∧
    (computePhaseFromCycleBeat (cycleBeatOffset a b) = Phase.READY ↔
      4 ≤ cycleBeatOffset a b ∧ cycleBeatOffset a b < 8) ∧
    (computePhaseFromCycleBeat (cycleBeatOffset a b) = Phase.PLAY ↔
      8 ≤ cycleBeatOffset a b ∧ cycleBeatOffset a b < 12) ∧
    (computePhaseFromCycleBeat (cycleBeatOffset a b) = Phase.SCORE ↔
      12 ≤ cycleBeatOffset a b) ∧
    (isPhaseBoundary (cycleBeatOffset a b) = true ↔
      cycleBeatOffset a b = 0 ∨ cycleBeatOffset a b = 4 ∨ cycleBeatOffset a b = 8 ∨
        cycleBeatOffset a b = 12) ∧
    computePhaseFromCycleBeat 0 = Phase.LISTEN ∧ computePhaseFromCycleBeat 4 = Phase.READY ∧
    computePhaseFromCycleBeat 8 = Phase.PLAY ∧ computePhaseFromCycleBeat 12 = Phase.SCORE := by
  have he := cycleBeatOffset_eq_emod a b
  have h0 : 0 ≤ cycleBeatOffset a b := by rw [he]; omega
  have h16 : cycleBeatOffset a b < 16 := by rw [he]; omega
  generalize cycleBeatOffset a b = c at *
  refine ⟨he, h0, h16, ?_, ?_, ?_, ?_, ?_, by decide, by decide, by decide, by decide⟩
  · unfold computePhaseFromCycleBeat
    split_ifs <;> simp <;> omega
  · unfold computePhaseFromCycleBeat
    split_ifs <;> simp <;> omega
  · unfold computePhaseFromCycleBeat
    split_ifs <;> simp <;> omega
  · unfold computePhaseFromCycleBeat
    split_ifs <;> simp <;> omega
  · have hc : c = 0 ∨ c = 1 ∨ c = 2 ∨ c = 3 ∨ c = 4 ∨ c = 5 ∨ c = 6 ∨ c = 7 ∨ c = 8 ∨ c = 9 ∨
        c = 10 ∨ c = 11 ∨ c = 12 ∨ c = 13 ∨ c = 14 ∨ c = 15 := by omega
    rcases hc with h | h | h | h | h | h | h | h | h | h | h | h | h | h | h | h <;>
      subst h <;> decide

/-! ## Swing -/

/-- C10 (as stated, refuted): the beat time `1/2 + 1/2^24` is non-negative and its
fractional part is not `1/2`, yet `applySwingToBeatTime` does not leave it unchanged: it
returns `2/3`. -/
theorem swing_shifts_near_half :
    (0 : ℚ) ≤ 1 / 2 + 1 / 2 ^ 24 ∧
    ((1 / 2 + 1 / 2 ^ 24 : ℚ) - ((⌊(1 / 2 + 1 / 2 ^ 24 : ℚ)⌋ : Int) : ℚ) ≠ 1 / 2) ∧
    applySwingToBeatTime (1 / 2 + 1 / 2 ^ 24) ≠ 1 / 2 + 1 / 2 ^ 24 ∧
    applySwingToBeatTime (1 / 2 + 1 / 2 ^ 24) = 2 / 3 := by
  decide!

/-- C10 (amended): for every beat time x, `applySwingToBeatTime` returns `floor x + 2/3`
when the fractional part of x is within `10^-6` of `1/2` (strictly), in particular when it
is exactly `1/2`, and returns x unchanged for every other x. -/
theorem swing_shifts_within_tolerance (x : ℚ) :
    (|x - ((⌊x⌋ : Int) : ℚ) - 1 / 2| < 1 / 10 ^ 6 →
      applySwingToBeatTime x = ((⌊x⌋ : Int) : ℚ) + 2 / 3) ∧
    (x - ((⌊x⌋ : Int) : ℚ) = 1 / 2 → applySwingToBeatTime x = ((⌊x⌋ : Int) : ℚ) + 2 / 3) ∧
    (¬ |x - ((⌊x⌋ : Int) : ℚ) - 1 / 2| < 1 / 10 ^ 6 → applySwingToBeatTime x = x) := by
  have e1 : (0.5 : ℚ) = 1 / 2 := by norm_num
  have e2 : (1e-6 : ℚ) = 1 / 10 ^ 6 := by norm_num
  unfold applySwingToBeatTime SWING_FIRST_FRACTION
  simp only [e1, e2]
  refine ⟨fun h => by rw [if_pos h], fun h => ?_, fun h => by rw [if_neg h]⟩
  rw [if_pos]
  rw [h]
  norm_num

/-- Witness for C10 (amended): beat time 3/2 is shifted to 1 + 2/3, and beat time 7/4 is
not shifted. -/
theorem swing_shifts_within_tolerance_witness :
    applySwingToBeatTime (3 / 2) = ((⌊(3 / 2 : ℚ)⌋ : Int) : ℚ) + 2 / 3 ∧
    applySwingToBeatTime (7 / 4) = 7 / 4 :=
  ⟨(swing_shifts_within_tolerance (3 / 2)).2.1 (by decide!),
   (swing_shifts_within_tolerance (7 / 4)).2.2 (by decide!)⟩

/-! ## Swing and the order of onsets -/

theorem applySwing_of_shifts {x : ℚ} (h : swingShifts x) :
    applySwingToBeatTime x = ((⌊x⌋ : Int) : ℚ) + 2 / 3 := by
  have e1 : (0.5 : ℚ) = 1 / 2 := by norm_num
  have e2 : (1e-6 : ℚ) = 1 / 10 ^ 6 := by norm_num
  unfold swingShifts at h
  unfold applySwingToBeatTime SWING_FIRST_FRACTION
  simp only [e1, e2]
  rw [if_pos h]

theorem applySwing_of_not_shifts {x : ℚ} (h : ¬ swingShifts x) :
    applySwingToBeatTime x = x := by
  have e1 : (0.5 : ℚ) = 1 / 2 := by norm_num
  have e2 : (1e-6 : ℚ) = 1 / 10 ^ 6 := by norm_num
  unfold swingShifts at h
  unfold applySwingToBeatTime SWING_FIRST_FRACTION
  simp only [e1, e2]
  rw [if_neg h]

theorem swingShifts_lt {x : ℚ} (h : swingShifts x) : x < ((⌊x⌋ : Int) : ℚ) + 2 / 3 := by
  unfold swingShifts at h
  have := (abs_lt.1 h).2
  linarith

theorem swingShifts_on_grid {x : ℚ} {m : Int} (hx : x = (m : ℚ) / 4) (h : swingShifts x) :
    x = ((⌊x⌋ : Int) : ℚ) + 1 / 2 := by
  have hm : m = 4 * (m / 4) + m % 4 := (Int.ediv_add_emod m 4).symm
  have hr0 : 0 ≤ m % 4 := Int.emod_nonneg m (by norm_num)
  have hr4 : m % 4 < 4 := Int.emod_lt_of_pos m (by norm_num)
  have hxq : x = ((m / 4 : Int) : ℚ) + ((m % 4 : Int) : ℚ) / 4 := by
    rw [hx]
    have : (m : ℚ) = 4 * ((m / 4 : Int) : ℚ) + ((m % 4 : Int) : ℚ) := by exact_mod_cast hm
    rw [this]
    ring
  have hfl : ⌊x⌋ = m / 4 := by
    rw [Int.floor_eq_iff, hxq]
    have h0 : (0 : ℚ) ≤ ((m % 4 : Int) : ℚ) := by exact_mod_cast hr0
    have h4 : ((m % 4 : Int) : ℚ) < 4 := by exact_mod_cast hr4
    constructor <;> linarith
  unfold swingShifts at h
  rw [hfl] at h ⊢
  rw [hxq] at h ⊢
  have hcases : m % 4 = 0 ∨ m % 4 = 1 ∨ m % 4 = 2 ∨ m % 4 = 3 := by omega
  rcases hcases with h0 | h0 | h0 | h0 <;> rw [h0] at h ⊢ <;> norm_num at h ⊢
  all_goals (rw [abs_lt] at h; obtain ⟨h1, h2⟩ := h; norm_num at h1 h2)

/-- C11 (as stated, refuted): the beat offsets `1/2 < 3/5` lie in `[0,4)`, yet
`applySwingToBeatTime` puts the first after the second: `2/3` against `3/5`. -/
theorem swing_order_fails_off_grid :
    (0 : ℚ) ≤ 1 / 2 ∧ (1 / 2 : ℚ) < 3 / 5 ∧ (3 / 5 : ℚ) < 4 ∧
    ¬ (applySwingToBeatTime (1 / 2) ≤ applySwingToBeatTime (3 / 5)) ∧
    applySwingToBeatTime (1 / 2) = 2 / 3 ∧ applySwingToBeatTime (3 / 5) = 3 / 5 := by
  decide!

/-- C11 (amended): for beat offsets `a < b`, `applySwingToBeatTime` keeps their order
unless `a` is moved, `b` is not moved and `b` lies before `floor a + 2/3`; when `a` and
`b` are multiples of a quarter beat the order is kept strictly; and in every pattern of
the library, for whatever difficulty is selected, the onset times are strictly ascending
and remain strictly ascending after swing. -/
theorem swing_order_on_grid (a b : ℚ) (hab : a < b) :
    (¬ (swingShifts a ∧ ¬ swingShifts b ∧ b < ((⌊a⌋ : Int) : ℚ) + 2 / 3) →
      applySwingToBeatTime a ≤ applySwingToBeatTime b) ∧
    ((∃ m n : Int, a = (m : ℚ) / 4 ∧ b = (n : ℚ) / 4) →
      applySwingToBeatTime a < applySwingToBeatTime b) ∧
    (∀ d : String, ∀ p ∈ patternsFor d,
      (p.map (fun x => x.t)).Sorted (· < ·) ∧
      (p.map (fun x => applySwingToBeatTime x.t)).Sorted (· < ·)) := by
  have hfloor : ((⌊a⌋ : Int) : ℚ) ≤ ((⌊b⌋ : Int) : ℚ) := by
    exact_mod_cast Int.floor_mono hab.le
  refine ⟨?_, ?_, ?_⟩
  · intro hbad
    by_cases ha : swingShifts a <;> by_cases hb : swingShifts b
    · rw [applySwing_of_shifts ha, applySwing_of_shifts hb]
      linarith
    · rw [applySwing_of_shifts ha, applySwing_of_not_shifts hb]
      have : ¬ b < ((⌊a⌋ : Int) : ℚ) + 2 / 3 := fun h => hbad ⟨ha, hb, h⟩
      linarith
    · rw [applySwing_of_not_shifts ha, applySwing_of_shifts hb]
      have := swingShifts_lt hb
      linarith
    · rw [applySwing_of_not_shifts ha, applySwing_of_not_shifts hb]
      exact hab.le
  · rintro ⟨m, n, hm, hn⟩
    by_cases ha : swingShifts a <;> by_cases hb : swingShifts b
    · rw [applySwing_of_shifts ha, applySwing_of_shifts hb]
      have h1 := swingShifts_on_grid hm ha
      have h2 := swingShifts_on_grid hn hb
      linarith
    · rw [applySwing_of_shifts ha, applySwing_of_not_shifts hb]
      have h1 := swingShifts_on_grid hm ha
      have hmn : m < n := by
        have : (m : ℚ) < (n : ℚ) := by
          rw [hm, hn] at hab
          linarith
        exact_mod_cast this
      have hmn2 : (m : ℚ) + 1 ≤ (n : ℚ) := by exact_mod_cast hmn
      linarith
    · rw [applySwing_of_not_shifts ha, applySwing_of_shifts hb]
      have := swingShifts_lt hb
      linarith
    · rw [applySwing_of_not_shifts ha, applySwing_of_not_shifts hb]
      exact hab
  · intro d p hp
    have hall : ∀ l ∈ [PATTERNS_simple, PATTERNS_medium, PATTERNS_difficult, PATTERNS_complex],
        ∀ p ∈ l, (p.map (fun x => x.t)).Sorted (· < ·) ∧
          (p.map (fun x => applySwingToBeatTime x.t)).Sorted (· < ·) := by
      decide!
    unfold patternsFor at hp
    split_ifs at hp
    · exact hall _ (by simp) p hp
    · exact hall _ (by simp) p hp
    · exact hall _ (by simp) p hp
    · exact hall _ (by simp) p hp
    · exact hall _ (by simp) p hp

/-- Witness for C11 (amended): the quarter-grid offsets `1/2 < 3/4` keep their order. -/
theorem swing_order_on_grid_witness :
    applySwingToBeatTime (1 / 2) < applySwingToBeatTime (3 / 4) :=
  (swing_order_on_grid (1 / 2) (3 / 4) (by norm_num)).2.1 ⟨2, 3, by norm_num, by norm_num⟩

/-! ## Tempo -/

theorem bpmValue_range (bpmNum : Option ℚ) : 40 ≤ bpmValue bpmNum ∧ bpmValue bpmNum ≤ 140 := by
  unfold bpmValue clamp
  constructor
  · exact le_max_left _ _
  · exact max_le (by norm_num) (min_le_left _ _)

theorem bpmValue_of_range {T : ℚ} (h40 : 40 ≤ T) (h140 : T ≤ 140) : bpmValue (some T) = T := by
  unfold bpmValue clamp
  simp only
  rw [min_eq_right h140, max_eq_right h40]

theorem beatDurSec_bounds (bpmNum : Option ℚ) :
    0 < beatDurSec bpmNum ∧ 60 / 140 ≤ beatDurSec bpmNum ∧ beatDurSec bpmNum ≤ 60 / 40 := by
  obtain ⟨h1, h2⟩ := bpmValue_range bpmNum
  unfold beatDurSec
  have hpos : (0 : ℚ) < bpmValue bpmNum := by linarith
  refine ⟨by positivity, ?_, ?_⟩
  · exact div_le_div_of_nonneg_left (by norm_num) hpos h2
  · exact div_le_div_of_nonneg_left (by norm_num) (by norm_num) h1

theorem beatDurSec_of_range {T : ℚ} (h40 : 40 ≤ T) (h140 : T ≤ 140) :
    beatDurSec (some T) = 60 / T := by
  unfold beatDurSec
  rw [bpmValue_of_range h40 h140]

/-! ## One beat and one pass of the scheduler -/

theorem scheduleBeat_basic (now : ℚ) (bpmNum : Option ℚ) (st : SchedState) :
    (scheduleBeat now bpmNum st).1.nextBeatTimeSec = st.nextBeatTimeSec + beatDurSec bpmNum ∧
    (scheduleBeat now bpmNum st).1.globalBeatIndex = st.globalBeatIndex + 1 ∧
    (scheduleBeat now bpmNum st).1.started = st.started ∧
    (scheduleBeat now bpmNum st).2.beatIdx = st.globalBeatIndex ∧
    (scheduleBeat now bpmNum st).2.thisBeatTimeSec = st.nextBeatTimeSec ∧
    (scheduleBeat now bpmNum st).2.scheduledAt = now := by
  unfold scheduleBeat
  dsimp only
  split_ifs <;> simp

theorem tickLoop_exit {now : ℚ} {st : SchedState}
    (hc : ¬ st.nextBeatTimeSec < now + SCHED_AHEAD_SEC) (fuel : Nat) (bpmNum : Option ℚ) :
    tickLoop fuel now bpmNum st = some (st, []) := by
  unfold tickLoop
  rw [if_neg hc]

theorem tickLoop_zero {now : ℚ} {st : SchedState}
    (hc : st.nextBeatTimeSec < now + SCHED_AHEAD_SEC) (bpmNum : Option ℚ) :
    tickLoop 0 now bpmNum st = none := by
  unfold tickLoop
  rw [if_pos hc]

theorem tickLoop_succ {now : ℚ} {st : SchedState}
    (hc : st.nextBeatTimeSec < now + SCHED_AHEAD_SEC) (fuel : Nat) (bpmNum : Option ℚ) :
    tickLoop (fuel + 1) now bpmNum st =
      match tickLoop fuel now bpmNum (scheduleBeat now bpmNum st).1 with
      | none => none
      | some (st2, evs) => some (st2, (scheduleBeat now bpmNum st).2 :: evs) := by
  rw [tickLoop, if_pos hc]

/-- A property of the scheduler state and the beats scheduled so far that every beat
keeps is kept by a whole pass of the loop, which ends with the loop condition false. -/
theorem tickLoop_invariant (P : SchedState → List BeatEvent → Prop) (now : ℚ)
    (bpmNum : Option ℚ)
    (hstep : ∀ st evs, P st evs → st.nextBeatTimeSec < now + SCHED_AHEAD_SEC →
      P (scheduleBeat now bpmNum st).1 (evs ++ [(scheduleBeat now bpmNum st).2])) :
    ∀ (fuel : Nat) (st : SchedState) (evs : List BeatEvent) (st2 : SchedState)
      (evs2 : List BeatEvent), P st evs → tickLoop fuel now bpmNum st = some (st2, evs2) →
      P st2 (evs ++ evs2) ∧ ¬ st2.nextBeatTimeSec < now + SCHED_AHEAD_SEC := by
  intro fuel
  induction fuel with
  | zero =>
    intro st evs st2 evs2 hP h
    by_cases hc : st.nextBeatTimeSec < now + SCHED_AHEAD_SEC
    · rw [tickLoop_zero hc] at h
      cases h
    · rw [tickLoop_exit hc] at h
      simp only [Option.some.injEq, Prod.mk.injEq] at h
      obtain ⟨rfl, rfl⟩ := h
      exact ⟨by simpa using hP, hc⟩
  | succ fuel ih =>
    intro st evs st2 evs2 hP h
    by_cases hc : st.nextBeatTimeSec < now + SCHED_AHEAD_SEC
    · rw [tickLoop_succ hc] at h
      cases hrec : tickLoop fuel now bpmNum (scheduleBeat now bpmNum st).1 with
      | none => rw [hrec] at h; cases h
      | some r =>
        obtain ⟨st3, evs3⟩ := r
        rw [hrec] at h
        simp only [Option.some.injEq, Prod.mk.injEq] at h
        obtain ⟨rfl, rfl⟩ := h
        have := ih _ _ _ _ (hstep st evs hP hc) hrec
        simpa using this
    · rw [tickLoop_exit hc] at h
      simp only [Option.some.injEq, Prod.mk.injEq] at h
      obtain ⟨rfl, rfl⟩ := h
      exact ⟨by simpa using hP, hc⟩

theorem tickLoop_enough_fuel (now : ℚ) (bpmNum : Option ℚ) :
    ∀ (n : Nat) (st : SchedState),
      now + SCHED_AHEAD_SEC - st.nextBeatTimeSec ≤ (n : ℚ) * beatDurSec bpmNum →
      ∃ r, r.2.length ≤ n ∧ ∀ fuel, n ≤ fuel → tickLoop fuel now bpmNum st = some r := by
  intro n
  induction n with
  | zero =>
    intro st h
    refine ⟨(st, []), by simp, fun fuel _ => ?_⟩
    have hc : ¬ st.nextBeatTimeSec < now + SCHED_AHEAD_SEC := by
      simp only [Nat.cast_zero, zero_mul] at h
      intro hlt
      linarith
    exact tickLoop_exit hc fuel bpmNum
  | succ n ih =>
    intro st h
    by_cases hc : st.nextBeatTimeSec < now + SCHED_AHEAD_SEC
    · have h1 : now + SCHED_AHEAD_SEC - (scheduleBeat now bpmNum st).1.nextBeatTimeSec ≤
          (n : ℚ) * beatDurSec bpmNum := by
        rw [(scheduleBeat_basic now bpmNum st).1]
        push_cast at h
        linarith
      obtain ⟨r, hlen, hr⟩ := ih _ h1
      refine ⟨(r.1, (scheduleBeat now bpmNum st).2 :: r.2), by simp; omega, fun fuel hf => ?_⟩
      obtain ⟨f, rfl⟩ : ∃ f, fuel = f + 1 := ⟨fuel - 1, by omega⟩
      rw [tickLoop_succ hc, hr f (by omega)]
    · exact ⟨(st, []), by simp, fun fuel _ => tickLoop_exit hc fuel bpmNum⟩

/-- The number of beats that suffices for a pass at clock time `now`. -/
theorem fuel_bound_exists (now : ℚ) (bpmNum : Option ℚ) (st : SchedState) :
    ∃ n : Nat, now + SCHED_AHEAD_SEC - st.nextBeatTimeSec ≤ (n : ℚ) * beatDurSec bpmNum := by
  obtain ⟨hpos, _, _⟩ := beatDurSec_bounds bpmNum
  obtain ⟨n, hn⟩ := exists_nat_ge ((now + SCHED_AHEAD_SEC - st.nextBeatTimeSec) / beatDurSec bpmNum)
  exact ⟨n, by rwa [div_le_iff₀ hpos] at hn⟩

theorem tickLoop_fuel_exact (now : ℚ) (bpmNum : Option ℚ) :
    ∀ (fuel : Nat) (st : SchedState) (r : SchedState × List BeatEvent),
      tickLoop fuel now bpmNum st = some r →
      ∀ f, r.2.length ≤ f → tickLoop f now bpmNum st = some r := by
  intro fuel
  induction fuel with
  | zero =>
    intro st r h f _
    by_cases hc : st.nextBeatTimeSec < now + SCHED_AHEAD_SEC
    · rw [tickLoop_zero hc] at h
      cases h
    · rw [tickLoop_exit hc] at h ⊢
      exact h
  | succ fuel ih =>
    intro st r h f hf
    by_cases hc : st.nextBeatTimeSec < now + SCHED_AHEAD_SEC
    · rw [tickLoop_succ hc] at h
      cases hrec : tickLoop fuel now bpmNum (scheduleBeat now bpmNum st).1 with
      | none => rw [hrec] at h; cases h
      | some r3 =>
        obtain ⟨st3, evs3⟩ := r3
        rw [hrec] at h
        simp only [Option.some.injEq] at h
        subst h
        simp only [List.length_cons] at hf
        obtain ⟨g, rfl⟩ : ∃ g, f = g + 1 := ⟨f - 1, by omega⟩
        rw [tickLoop_succ hc, ih _ _ hrec g (by simpa using Nat.le_of_succ_le_succ hf)]
    · rw [tickLoop_exit hc] at h ⊢
      exact h

theorem tickLoop_length_le_fuel (now : ℚ) (bpmNum : Option ℚ) :
    ∀ (fuel : Nat) (st : SchedState) (r : SchedState × List BeatEvent),
      tickLoop fuel now bpmNum st = some r → r.2.length ≤ fuel := by
  intro fuel
  induction fuel with
  | zero =>
    intro st r h
    by_cases hc : st.nextBeatTimeSec < now + SCHED_AHEAD_SEC
    · rw [tickLoop_zero hc] at h
      cases h
    · rw [tickLoop_exit hc] at h
      simp only [Option.some.injEq] at h
      subst h
      simp
  | succ fuel ih =>
    intro st r h
    by_cases hc : st.nextBeatTimeSec < now + SCHED_AHEAD_SEC
    · rw [tickLoop_succ hc] at h
      cases hrec : tickLoop fuel now bpmNum (scheduleBeat now bpmNum st).1 with
      | none => rw [hrec] at h; cases h
      | some r3 =>
        obtain ⟨st3, evs3⟩ := r3
        rw [hrec] at h
        simp only [Option.some.injEq] at h
        subst h
        have := ih _ _ hrec
        simp only [List.length_cons]
        simp only at this
        omega
    · rw [tickLoop_exit hc] at h
      simp only [Option.some.injEq] at h
      subst h
      simp

theorem getElem?_snoc_cases {α : Type} {l : List α} {x y : α} {k : Nat}
    (h : (l ++ [x])[k]? = some y) : l[k]? = some y ∨ (k = l.length ∧ y = x) := by
  rcases Nat.lt_trichotomy k l.length with hlt | heq | hgt
  · left
    rwa [List.getElem?_append_left hlt] at h
  · right
    subst heq
    rw [List.getElem?_append_right (le_refl _)] at h
    simp at h
    exact ⟨rfl, h.symm⟩
  · exfalso
    have := (List.getElem?_eq_some.1 h).1
    simp at this
    omega

/-- C16: a pass of `scheduleTick` terminates and catches up. The tempo read by the pass
lies in [40,140], so the beat lasts at least 60/140 s; for every clock time `now` and every
starting `nextBeatTimeSec` the loop ends after finitely many beats (as many as it has
scheduled, so any larger bound on the number of iterations gives the same result); on
exit `nextBeatTimeSec ≥ now + 0.14`; `globalBeatIndex` has grown by exactly the number of
beats scheduled in the pass, which are consecutive beats one beat duration apart. -/
theorem scheduleTick_terminates_and_catches_up (now : ℚ) (bpmNum : Option ℚ)
    (st : SchedState) (hs : st.started = true) :
    40 ≤ bpmValue bpmNum ∧ bpmValue bpmNum ≤ 140 ∧ 60 / 140 ≤ beatDurSec bpmNum ∧
    ∃ (st2 : SchedState) (evs : List BeatEvent),
      (∀ fuel, evs.length ≤ fuel → scheduleTick fuel now bpmNum st = some (st2, evs)) ∧
      (∀ fuel, fuel < evs.length → scheduleTick fuel now bpmNum st = none) ∧
      now + SCHED_AHEAD_SEC ≤ st2.nextBeatTimeSec ∧
      st2.globalBeatIndex = st.globalBeatIndex + evs.length ∧
      st2.nextBeatTimeSec = st.nextBeatTimeSec + (evs.length : ℚ) * beatDurSec bpmNum ∧
      ∀ (k : Nat) (ev : BeatEvent), evs[k]? = some ev →
        ev.beatIdx = st.globalBeatIndex + (k : Int) ∧
        ev.thisBeatTimeSec = st.nextBeatTimeSec + (k : ℚ) * beatDurSec bpmNum ∧
        ev.thisBeatTimeSec < now + SCHED_AHEAD_SEC := by
  obtain ⟨h40, h140⟩ := bpmValue_range bpmNum
  refine ⟨h40, h140, (beatDurSec_bounds bpmNum).2.1, ?_⟩
  obtain ⟨n, hn⟩ := fuel_bound_exists now bpmNum st
  obtain ⟨⟨st2, evs⟩, _, hr⟩ := tickLoop_enough_fuel now bpmNum n st hn
  have hrun := hr n (le_refl _)
  have hst : ∀ fuel, scheduleTick fuel now bpmNum st = tickLoop fuel now bpmNum st := by
    intro fuel
    unfold scheduleTick
    rw [hs]
    rfl
  have hinv := tickLoop_invariant
    (fun s es => s.globalBeatIndex = st.globalBeatIndex + es.length ∧
      s.nextBeatTimeSec = st.nextBeatTimeSec + (es.length : ℚ) * beatDurSec bpmNum ∧
      ∀ (k : Nat) (ev : BeatEvent), es[k]? = some ev →
        ev.beatIdx = st.globalBeatIndex + (k : Int) ∧
        ev.thisBeatTimeSec = st.nextBeatTimeSec + (k : ℚ) * beatDurSec bpmNum ∧
        ev.thisBeatTimeSec < now + SCHED_AHEAD_SEC) now bpmNum
    (by
      intro s es ⟨h1, h2, h3⟩ hc
      obtain ⟨b1, b2, _, b4, b5, _⟩ := scheduleBeat_basic now bpmNum s
      refine ⟨?_, ?_, ?_⟩
      · rw [b2, h1]
        simp only [List.length_append, List.length_singleton]
        push_cast
        ring
      · rw [b1, h2]
        simp only [List.length_append, List.length_singleton]
        push_cast
        ring
      · intro k ev hk
        rcases getElem?_snoc_cases hk with h | ⟨rfl, rfl⟩
        · exact h3 k ev h
        · rw [b4, b5, h1, h2]
          refine ⟨rfl, rfl, ?_⟩
          rw [← h2]
          exact hc)
    n st [] st2 evs
    ⟨by simp, by simp, fun k ev h => by simp at h⟩ hrun
  simp only [List.nil_append] at hinv
  obtain ⟨⟨g1, g2, g3⟩, hexit⟩ := hinv
  refine ⟨st2, evs, ?_, ?_, le_of_not_lt hexit, g1, g2, g3⟩
  · intro fuel hf
    rw [hst]
    exact tickLoop_fuel_exact now bpmNum n st (st2, evs) hrun fuel hf
  · intro fuel hf
    rw [hst]
    cases hres : tickLoop fuel now bpmNum st with
    | none => rfl
    | some r =>
      exfalso
      have hlen := tickLoop_length_le_fuel now bpmNum fuel st r hres
      have h1 := tickLoop_fuel_exact now bpmNum fuel st r hres (max fuel n)
        (le_trans hlen (le_max_left _ _))
      have h2 := hr (max fuel n) (le_max_right _ _)
      rw [h1] at h2
      simp only [Option.some.injEq] at h2
      subst h2
      simp only at hlen
      omega

/-- Witness for C16: the game begun at clock 0 (first beat due at 0.1 s), tempo 60, and a
first pass delayed until clock 2 s. The pass schedules three beats at once. -/
theorem scheduleTick_terminates_and_catches_up_witness :
    (scheduleTick 3 2 (some 60) (beginGame 0)).map (fun r => r.2.length) = some 3 ∧
    (scheduleTick 3 2 (some 60) (beginGame 0)).map (fun r => r.1.nextBeatTimeSec) =
      some (31 / 10) ∧
    40 ≤ bpmValue (some 60) :=
  ⟨by decide!, by decide!,
   (scheduleTick_terminates_and_catches_up 2 (some 60) (beginGame 0) rfl).1⟩

/-! ## Runs of the scheduler: beat times -/

theorem timely_snoc {t0 : ℚ} {ps : List Pass} {p : Pass} (h : Timely t0 (ps ++ [p])) :
    Timely t0 ps ∧ p.now ≤ passBound t0 ps :=
  ⟨fun pre q post hps => h pre q (post ++ [p]) (by rw [hps]; simp),
   h ps p [] rfl⟩

theorem passBound_snoc (t0 : ℚ) (ps : List Pass) (p : Pass) :
    passBound t0 (ps ++ [p]) = p.now + SCHED_AHEAD_SEC := by
  unfold passBound
  simp

theorem scheduleTick_eq_tickLoop {st : SchedState} (hs : st.started = true) (fuel : Nat)
    (now : ℚ) (bpmNum : Option ℚ) :
    scheduleTick fuel now bpmNum st = tickLoop fuel now bpmNum st := by
  unfold scheduleTick
  rw [hs]
  rfl

theorem run_single (stale : List Phase) (t0 : ℚ) (p : Pass) (fuel : Nat)
    (r : SchedState × List BeatEvent)
    (h : scheduleTick fuel p.now p.bpmNum (beginGame t0) = some r) :
    Run stale (beginGame t0) [p] r.1 r.2 := by
  have := @Run.pass stale (beginGame t0) [] (beginGame t0) r.1 [] r.2 p fuel Run.init h
  simpa using this

/-- Along a run at constant tempo `T` the beats are `60/T` apart, starting 0.10 s after
`beginGame`; when the passes are timely, no beat lies before the clock time of its
pass. -/
theorem run_times (stale : List Phase) (t0 T : ℚ) (h40 : 40 ≤ T) (h140 : T ≤ 140) :
    ∀ (ps : List Pass) (st : SchedState) (evs : List BeatEvent),
      Run stale (beginGame t0) ps st evs → (∀ p ∈ ps, p.bpmNum = some T) →
      st.started = true ∧
      st.nextBeatTimeSec = t0 + 0.10 + (evs.length : ℚ) * (60 / T) ∧
      (∀ (k : Nat) (ev : BeatEvent), evs[k]? = some ev →
        ev.thisBeatTimeSec = t0 + 0.10 + (k : ℚ) * (60 / T)) ∧
      (Timely t0 ps → passBound t0 ps ≤ st.nextBeatTimeSec ∧
        ∀ ev ∈ evs, ev.scheduledAt ≤ ev.thisBeatTimeSec) := by
  intro ps st evs hrun
  induction hrun with
  | init =>
    intro _
    refine ⟨rfl, by simp [beginGame], fun k ev h => by simp at h, fun _ => ⟨?_, ?_⟩⟩
    · simp [passBound, beginGame]
    · intro ev hev
      cases hev
  | @pass ps st st2 evs evs2 p fuel _ htick ih =>
    intro hT
    obtain ⟨hs, hnext, htimes, htimely⟩ := ih (fun q hq => hT q (List.mem_append_left _ hq))
    have hbd : beatDurSec p.bpmNum = 60 / T := by
      rw [hT p (by simp), beatDurSec_of_range h40 h140]
    have hbdpos : (0 : ℚ) < 60 / T := by rw [← hbd]; exact (beatDurSec_bounds _).1
    rw [scheduleTick_eq_tickLoop hs] at htick
    have hinv := tickLoop_invariant
      (fun s es => s.started = true ∧
        s.nextBeatTimeSec = t0 + 0.10 + (es.length : ℚ) * (60 / T) ∧
        (∀ (k : Nat) (ev : BeatEvent), es[k]? = some ev →
          ev.thisBeatTimeSec = t0 + 0.10 + (k : ℚ) * (60 / T)) ∧
        (Timely t0 (ps ++ [p]) → p.now ≤ s.nextBeatTimeSec ∧
          ∀ ev ∈ es, ev.scheduledAt ≤ ev.thisBeatTimeSec)) p.now p.bpmNum
      (by
        intro s es ⟨a1, a2, a3, a4⟩ _
        obtain ⟨b1, _, b3, _, b5, b6⟩ := scheduleBeat_basic p.now p.bpmNum s
        refine ⟨by rw [b3]; exact a1, ?_, ?_, ?_⟩
        · rw [b1, a2, hbd]
          simp only [List.length_append, List.length_singleton]
          push_cast
          ring
        · intro k ev hk
          rcases getElem?_snoc_cases hk with h | ⟨rfl, rfl⟩
          · exact a3 k ev h
          · rw [b5, a2]
        · intro ht
          obtain ⟨c1, c2⟩ := a4 ht
          refine ⟨by rw [b1, hbd]; linarith, ?_⟩
          intro ev hev
          rcases List.mem_append.1 hev with h | h
          · exact c2 ev h
          · simp only [List.mem_singleton] at h
            subst h
            rw [b5, b6]
            exact c1)
      fuel st evs st2 evs2
      ⟨hs, hnext, htimes, fun ht => by
        obtain ⟨t1, t2⟩ := timely_snoc ht
        obtain ⟨d1, d2⟩ := htimely t1
        exact ⟨le_trans t2 d1, d2⟩⟩ htick
    obtain ⟨⟨g1, g2, g3, g4⟩, hexit⟩ := hinv
    refine ⟨g1, g2, g3, fun ht => ⟨?_, (g4 ht).2⟩⟩
    rw [passBound_snoc]
    exact le_of_not_lt hexit
  | enter ev ph _ _ _ ih =>
    intro hT
    exact ih hT
  | staleEnter ph _ _ ih =>
    intro hT
    exact ih hT

/-- C15 (as stated, refuted): tempo 60, `beginGame` at clock 0 and one pass of
`scheduleTick` at clock 2 s. The pass schedules the beat due at 0.1 s, which is earlier
than the clock time 2 s at which it is scheduled. -/
theorem late_pass_schedules_in_the_past :
    (40 : ℚ) ≤ 60 ∧ (60 : ℚ) ≤ 140 ∧ (0 : ℚ) ≤ 2 ∧
    ∃ st evs, Run [] (beginGame 0) [⟨2, some 60⟩] st evs ∧
      ∃ ev ∈ evs, ev.thisBeatTimeSec = 1 / 10 ∧ ev.scheduledAt = 2 ∧
        ev.thisBeatTimeSec < ev.scheduledAt := by
  refine ⟨by norm_num, by norm_num, by norm_num, ?_⟩
  obtain ⟨r, hr⟩ : ∃ r, scheduleTick 3 2 (some 60) (beginGame 0) = some r :=
    Option.isSome_iff_exists.1 (by decide!)
  have hhead : (scheduleTick 3 2 (some 60) (beginGame 0)).map
      (fun r => r.2.head?.map (fun ev => (ev.thisBeatTimeSec, ev.scheduledAt))) =
      some (some (1 / 10, 2)) := by decide!
  rw [hr] at hhead
  simp only [Option.map_some', Option.some.injEq] at hhead
  obtain ⟨st2, evs2⟩ := r
  cases evs2 with
  | nil => simp at hhead
  | cons ev rest =>
    simp only [List.head?_cons, Option.map_some', Option.some.injEq, Prod.mk.injEq] at hhead
    refine ⟨st2, ev :: rest, ?_, ev, List.mem_cons_self _ _, hhead.1, hhead.2, ?_⟩
    · exact run_single [] 0 ⟨2, some 60⟩ 3 _ hr
    · rw [hhead.1, hhead.2]
      norm_num

/-- C15 (amended): for any tempo T in [40,140] and any passes of `scheduleTick` after
`beginGame` at that tempo, `nextBeatTimeSec` grows by exactly `60/T` per scheduled beat
(the beats lie at `t0 + 0.10 + k * 60/T`, each `60/T` after the one before it); and when
the first pass runs at most 0.10 s after `beginGame` and each later pass at most 0.14 s
after the pass before it, no beat is scheduled earlier than the clock time of its pass. -/
theorem scheduler_beat_spacing (stale : List Phase) (t0 T : ℚ) (h40 : 40 ≤ T) (h140 : T ≤ 140)
    (ps : List Pass) (st : SchedState) (evs : List BeatEvent)
    (hrun : Run stale (beginGame t0) ps st evs)
    (hT : ∀ p ∈ ps, p.bpmNum = some T) :
    st.nextBeatTimeSec = t0 + 0.10 + (evs.length : ℚ) * (60 / T) ∧
    (∀ (k : Nat) (ev : BeatEvent), evs[k]? = some ev →
      ev.thisBeatTimeSec = t0 + 0.10 + (k : ℚ) * (60 / T)) ∧
    (∀ (k : Nat) (ev ev2 : BeatEvent), evs[k]? = some ev → evs[k + 1]? = some ev2 →
      ev2.thisBeatTimeSec = ev.thisBeatTimeSec + 60 / T ∧
      ev.thisBeatTimeSec < ev2.thisBeatTimeSec) ∧
    (Timely t0 ps → ∀ ev ∈ evs, ev.scheduledAt ≤ ev.thisBeatTimeSec) := by
  obtain ⟨_, h2, h3, h4⟩ := run_times stale t0 T h40 h140 ps st evs hrun hT
  refine ⟨h2, h3, ?_, fun ht => (h4 ht).2⟩
  intro k ev ev2 hk hk2
  have hpos : (0 : ℚ) < 60 / T := by
    have : (0 : ℚ) < T := by linarith
    positivity
  rw [h3 k ev hk, h3 (k + 1) ev2 hk2]
  push_cast
  constructor
  · ring
  · linarith

theorem timely_single {t0 : ℚ} {p : Pass} (h : p.now ≤ t0 + 0.10) : Timely t0 [p] := by
  intro pre q post hps
  cases pre with
  | nil =>
    simp only [List.nil_append, List.cons.injEq] at hps
    obtain ⟨rfl, _⟩ := hps
    simpa [passBound] using h
  | cons a pre =>
    simp only [List.cons_append, List.cons.injEq] at hps
    have := congrArg List.length hps.2
    simp at this
    omega

/-- Witness for C15 (amended): tempo 60, `beginGame` at clock 0 and one pass at clock
0.05 s, which schedules the first beat, due at 0.1 s. -/
theorem scheduler_beat_spacing_witness :
    ∃ st evs, Run [] (beginGame 0) [⟨1 / 20, some 60⟩] st evs ∧
      Timely 0 [⟨1 / 20, some 60⟩] ∧ evs.length = 1 ∧
      st.nextBeatTimeSec = 0 + 0.10 + (evs.length : ℚ) * (60 / 60) ∧
      ∀ ev ∈ evs, ev.scheduledAt ≤ ev.thisBeatTimeSec := by
  obtain ⟨r, hr⟩ : ∃ r, scheduleTick 1 (1 / 20) (some 60) (beginGame 0) = some r :=
    Option.isSome_iff_exists.1 (by decide!)
  have hlen : (scheduleTick 1 (1 / 20) (some 60) (beginGame 0)).map (fun r => r.2.length) =
      some 1 := by decide!
  rw [hr] at hlen
  simp only [Option.map_some', Option.some.injEq] at hlen
  have hrun : Run [] (beginGame 0) [⟨1 / 20, some 60⟩] r.1 r.2 := by
    exact run_single [] 0 ⟨1 / 20, some 60⟩ 1 r hr
  have ht : Timely 0 [(⟨1 / 20, some 60⟩ : Pass)] := timely_single (by norm_num)
  have hmain := scheduler_beat_spacing [] 0 60 (by norm_num) (by norm_num) _ _ _ hrun
    (by simp)
  exact ⟨r.1, r.2, hrun, ht, hlen, hmain.1, hmain.2.2.2 ht⟩

/-! ## Runs of the scheduler: the trace of phases -/

theorem cyclePhase_ne_countin (n : Nat) : cyclePhase n ≠ Phase.COUNTIN := by
  unfold cyclePhase
  split <;> decide

theorem phase_entry_of_offset (m : Nat) :
    (if isPhaseBoundary (cycleBeatOffset 4 ((m : Int) + 4)) = true then
        some (computePhaseFromCycleBeat (cycleBeatOffset 4 ((m : Int) + 4))) else none) =
      if m % 4 = 0 then some (cyclePhase (m / 4)) else none := by
  have hc : cycleBeatOffset 4 ((m : Int) + 4) = ((m % 16 : Nat) : Int) := by
    rw [cycleBeatOffset_eq_emod]
    omega
  rw [hc]
  have hlt : m % 16 < 16 := Nat.mod_lt _ (by norm_num)
  have h4 : m % 4 = (m % 16) % 4 := by omega
  have hq : cyclePhase (m / 4) = cyclePhase (m % 16 / 4) := by
    unfold cyclePhase
    have : m / 4 % 4 = m % 16 / 4 % 4 := by omega
    rw [this]
  rw [h4, hq]
  generalize m % 16 = c at hlt
  interval_cases c <;> decide

/-- One beat keeps the trace. -/
theorem scheduleBeat_trace (now : ℚ) (bpmNum : Option ℚ) (st : SchedState)
    (evs : List BeatEvent)
    (h : st.globalBeatIndex = (evs.length : Int) ∧
      (evs.length < 4 → st.phase = Phase.COUNTIN ∧
        st.countInRemaining = 4 - (evs.length : Int)) ∧
      (4 ≤ evs.length → st.phase ≠ Phase.COUNTIN ∧ st.countInAnchorBeat = 4) ∧
      ∀ (k : Nat) (ev : BeatEvent), evs[k]? = some ev → TraceBeat k ev) :
    (scheduleBeat now bpmNum st).1.globalBeatIndex =
        ((evs ++ [(scheduleBeat now bpmNum st).2]).length : Int) ∧
      ((evs ++ [(scheduleBeat now bpmNum st).2]).length < 4 →
        (scheduleBeat now bpmNum st).1.phase = Phase.COUNTIN ∧
        (scheduleBeat now bpmNum st).1.countInRemaining =
          4 - ((evs ++ [(scheduleBeat now bpmNum st).2]).length : Int)) ∧
      (4 ≤ (evs ++ [(scheduleBeat now bpmNum st).2]).length →
        (scheduleBeat now bpmNum st).1.phase ≠ Phase.COUNTIN ∧
        (scheduleBeat now bpmNum st).1.countInAnchorBeat = 4) ∧
      ∀ (k : Nat) (ev : BeatEvent),
        (evs ++ [(scheduleBeat now bpmNum st).2])[k]? = some ev → TraceBeat k ev := by
  obtain ⟨h1, h2, h3, h4⟩ := h
  simp only [List.length_append, List.length_singleton]
  by_cases hn : evs.length < 4
  · obtain ⟨hp, hc⟩ := h2 hn
    have hsb : scheduleBeat now bpmNum st =
        (({ (if st.countInRemaining - 1 ≤ 0 then
              { st with countInRemaining := st.countInRemaining - 1, phase := Phase.LISTEN,
                        countInAnchorBeat := st.globalBeatIndex + 1 }
            else { st with countInRemaining := st.countInRemaining - 1 }) with
            globalBeatIndex := st.globalBeatIndex + 1,
            nextBeatTimeSec := st.nextBeatTimeSec + beatDurSec bpmNum } : SchedState),
         ({ beatIdx := st.globalBeatIndex, thisBeatTimeSec := st.nextBeatTimeSec,
            scheduledAt := now,
            isDownbeat := decide (Int.tmod (Int.tmod st.globalBeatIndex 4 + 4) 4 = 0),
            dtMs := max 0 ((st.nextBeatTimeSec - now) * 1000),
            countInShown := some (max 0 st.countInRemaining),
            phaseEntry := none } : BeatEvent)) := by
      unfold scheduleBeat
      dsimp only
      rw [if_pos hp]
      split_ifs <;> rfl
    rw [hsb]
    refine ⟨?_, ?_, ?_, ?_⟩
    · show st.globalBeatIndex + 1 = _
      push_cast
      omega
    · intro hlt
      have : ¬ st.countInRemaining - 1 ≤ 0 := by omega
      simp only [if_neg this]
      exact ⟨hp, by push_cast; omega⟩
    · intro hge
      have : st.countInRemaining - 1 ≤ 0 := by omega
      simp only [if_pos this]
      refine ⟨by decide, ?_⟩
      omega
    · intro k ev hk
      rcases getElem?_snoc_cases hk with h | ⟨rfl, rfl⟩
      · exact h4 k ev h
      · refine ⟨h1, fun _ => ⟨?_, rfl⟩, fun hge => by omega⟩
        simp only [hc]
        congr 1
        omega
  · have hge : 4 ≤ evs.length := by omega
    obtain ⟨hp, ha⟩ := h3 hge
    have hsb : scheduleBeat now bpmNum st =
        (({ st with globalBeatIndex := st.globalBeatIndex + 1,
                    nextBeatTimeSec := st.nextBeatTimeSec + beatDurSec bpmNum } : SchedState),
         ({ beatIdx := st.globalBeatIndex, thisBeatTimeSec := st.nextBeatTimeSec,
            scheduledAt := now,
            isDownbeat := decide (Int.tmod (Int.tmod st.globalBeatIndex 4 + 4) 4 = 0),
            dtMs := max 0 ((st.nextBeatTimeSec - now) * 1000),
            countInShown := none,
            phaseEntry :=
              if isPhaseBoundary (cycleBeatOffset st.countInAnchorBeat st.globalBeatIndex) = true
              then some (computePhaseFromCycleBeat
                (cycleBeatOffset st.countInAnchorBeat st.globalBeatIndex))
              else none } : BeatEvent)) := by
      unfold scheduleBeat
      dsimp only
      rw [if_neg hp]
    rw [hsb]
    refine ⟨by simp [h1], fun hlt => by omega, fun _ => ⟨hp, ha⟩, ?_⟩
    intro k ev hk
    rcases getElem?_snoc_cases hk with h | ⟨rfl, rfl⟩
    · exact h4 k ev h
    · refine ⟨h1, fun hlt => by omega, fun _ => ⟨rfl, ?_⟩⟩
      simp only
      rw [ha, h1]
      have hcast : ((evs.length : Nat) : Int) = ((evs.length - 4 : Nat) : Int) + 4 := by omega
      rw [hcast]
      exact phase_entry_of_offset (evs.length - 4)

theorem run_runPasses (stale : List Phase) (st0 : SchedState) (fuel : Nat) :
    ∀ (ps2 ps : List Pass) (st : SchedState) (evs : List BeatEvent)
      (r : SchedState × List BeatEvent), Run stale st0 ps st evs →
      runPasses fuel ps2 st = some r → Run stale st0 (ps ++ ps2) r.1 (evs ++ r.2) := by
  intro ps2
  induction ps2 with
  | nil =>
    intro ps st evs r hrun h
    simp only [runPasses, Option.some.injEq] at h
    subst h
    simpa using hrun
  | cons p ps2 ih =>
    intro ps st evs r hrun h
    rw [runPasses] at h
    cases h1 : scheduleTick fuel p.now p.bpmNum st with
    | none => rw [h1] at h; cases h
    | some r1 =>
      obtain ⟨st2, evs2⟩ := r1
      rw [h1] at h
      simp only at h
      cases h2 : runPasses fuel ps2 st2 with
      | none => rw [h2] at h; cases h
      | some r2 =>
        obtain ⟨st3, evs3⟩ := r2
        rw [h2] at h
        simp only [Option.some.injEq] at h
        subst h
        have := ih (ps ++ [p]) st2 (evs ++ evs2) (st3, evs3) (Run.pass p fuel hrun h1) h2
        simpa using this

/-- Along every run from `beginGame` with no phase entry of an earlier game pending, the
beats scheduled follow the trace, whatever the clock times, tempi and bounds of the passes
and whenever the phase entries take effect. -/
theorem run_trace (t0 : ℚ) :
    ∀ (ps : List Pass) (st : SchedState) (evs : List BeatEvent),
      Run [] (beginGame t0) ps st evs →
      st.globalBeatIndex = (evs.length : Int) ∧
      (evs.length < 4 → st.phase = Phase.COUNTIN ∧
        st.countInRemaining = 4 - (evs.length : Int)) ∧
      (4 ≤ evs.length → st.phase ≠ Phase.COUNTIN ∧ st.countInAnchorBeat = 4) ∧
      ∀ (k : Nat) (ev : BeatEvent), evs[k]? = some ev → TraceBeat k ev := by
  intro ps st evs hrun
  induction hrun with
  | init =>
    refine ⟨rfl, fun _ => ⟨rfl, rfl⟩, fun h => by simp at h, fun k ev h => by simp at h⟩
  | @pass ps st st2 evs evs2 p fuel _ htick ih =>
    by_cases hs : st.started = true
    · rw [scheduleTick_eq_tickLoop hs] at htick
      exact (tickLoop_invariant
        (fun s es => s.globalBeatIndex = (es.length : Int) ∧
          (es.length < 4 → s.phase = Phase.COUNTIN ∧
            s.countInRemaining = 4 - (es.length : Int)) ∧
          (4 ≤ es.length → s.phase ≠ Phase.COUNTIN ∧ s.countInAnchorBeat = 4) ∧
          ∀ (k : Nat) (ev : BeatEvent), es[k]? = some ev → TraceBeat k ev)
        p.now p.bpmNum
        (fun s es hP _ => scheduleBeat_trace p.now p.bpmNum s es hP)
        fuel st evs st2 evs2 ih htick).1
    · unfold scheduleTick at htick
      simp only [Bool.not_eq_true] at hs
      rw [hs] at htick
      simp only [Bool.not_false, if_true, Option.some.injEq, Prod.mk.injEq] at htick
      obtain ⟨rfl, rfl⟩ := htick
      simpa using ih
  | @enter ps st evs ev ph _ hmem hph ih =>
    obtain ⟨h1, h2, h3, h4⟩ := ih
    obtain ⟨k, hk⟩ := List.mem_iff_getElem?.1 hmem
    have hlen : k < evs.length := (List.getElem?_eq_some.1 hk).1
    obtain ⟨_, t2, t3⟩ := h4 k ev hk
    have hk4 : 4 ≤ k := by
      by_contra hlt
      have := (t2 (by omega)).2
      rw [this] at hph
      cases hph
    have hphase : ph ≠ Phase.COUNTIN := by
      have := (t3 hk4).2
      rw [this] at hph
      split_ifs at hph
      simp only [Option.some.injEq] at hph
      rw [← hph]
      exact cyclePhase_ne_countin _
    exact ⟨h1, fun hlt => by omega, fun hge => ⟨hphase, (h3 hge).2⟩, h4⟩
  | staleEnter ph _ hmem _ => cases hmem

/-- The trace of the round state machine in a game begun with no phase entry of an
earlier game pending. Along every such run of the scheduler from the state set by
`beginGame`, beat number `k` of the game has beat index `k`; the beats 0, 1,
2, 3 are count-in beats with no phase entry; once four beats are scheduled the anchor
beat is 4 and `phase` is never `countin` again; and a later beat carries a phase entry
exactly when it is a beat `4 + 4j`, the phase being the `j`-th of Listen, Ready, Play,
Score, Listen, ... -/
theorem round_state_machine_trace (t0 : ℚ) (ps : List Pass) (st : SchedState)
    (evs : List BeatEvent) (hrun : Run [] (beginGame t0) ps st evs) :
    (∀ (k : Nat) (ev : BeatEvent), evs[k]? = some ev → TraceBeat k ev) ∧
    (∀ (j : Nat) (ev : BeatEvent), evs[4 + 4 * j]? = some ev →
      ev.phaseEntry = some (cyclePhase j)) ∧
    (∀ (k : Nat) (ev : BeatEvent), evs[k]? = some ev → (k < 4 ∨ (k - 4) % 4 ≠ 0) →
      ev.phaseEntry = none) ∧
    (evs.length < 4 → st.phase = Phase.COUNTIN ∧
      st.countInRemaining = 4 - (evs.length : Int)) ∧
    (4 ≤ evs.length → st.phase ≠ Phase.COUNTIN ∧ st.countInAnchorBeat = 4) ∧
    cyclePhase 0 = Phase.LISTEN ∧ cyclePhase 1 = Phase.READY ∧ cyclePhase 2 = Phase.PLAY ∧
    cyclePhase 3 = Phase.SCORE ∧ ∀ j, cyclePhase (j + 4) = cyclePhase j := by
  obtain ⟨_, h2, h3, h4⟩ := run_trace t0 ps st evs hrun
  refine ⟨h4, ?_, ?_, h2, h3, rfl, rfl, rfl, rfl, ?_⟩
  · intro j ev hk
    obtain ⟨_, _, t3⟩ := h4 _ ev hk
    have := (t3 (by omega)).2
    rw [this, if_pos (by omega)]
    congr 2
    omega
  · intro k ev hk hcase
    obtain ⟨_, t2, t3⟩ := h4 k ev hk
    rcases hcase with hlt | hne
    · exact (t2 hlt).2
    · by_cases hk4 : k < 4
      · exact (t2 hk4).2
      · rw [(t3 (by omega)).2, if_neg hne]
  · intro j
    unfold cyclePhase
    rw [Nat.add_mod_right]

/-- An instance of the theorem above: tempo 60, `beginGame` at clock 0 and one pass at
clock 12 s, which
schedules the thirteen beats 0 to 12: four count-in beats, then Listen entered at beat 4,
Ready at beat 8 and Play at beat 12. -/
theorem round_state_machine_trace_witness :
    ∃ st evs, Run [] (beginGame 0) [⟨12, some 60⟩] st evs ∧
      evs.map (fun ev => ev.phaseEntry) =
        [none, none, none, none, some Phase.LISTEN, none, none, none, some Phase.READY,
         none, none, none, some Phase.PLAY] ∧
      (∀ (k : Nat) (ev : BeatEvent), evs[k]? = some ev → TraceBeat k ev) ∧
      st.countInAnchorBeat = 4 := by
  obtain ⟨r, hr⟩ : ∃ r, scheduleTick 13 12 (some 60) (beginGame 0) = some r :=
    Option.isSome_iff_exists.1 (by decide!)
  have hph : (scheduleTick 13 12 (some 60) (beginGame 0)).map
      (fun r => r.2.map (fun ev => ev.phaseEntry)) =
      some [none, none, none, none, some Phase.LISTEN, none, none, none, some Phase.READY,
         none, none, none, some Phase.PLAY] := by decide!
  rw [hr] at hph
  simp only [Option.map_some', Option.some.injEq] at hph
  have hrun : Run [] (beginGame 0) [⟨12, some 60⟩] r.1 r.2 := by
    exact run_single [] 0 ⟨12, some 60⟩ 13 r hr
  have hmain := round_state_machine_trace 0 _ _ _ hrun
  have hlen : r.2.length = 13 := by
    have := congrArg List.length hph
    simpa using this
  exact ⟨r.1, r.2, hrun, hph, hmain.1, (hmain.2.2.2.2.1 (by omega)).2⟩

/-! ## A game begun again while a phase entry is pending -/

/-- C17, on the code: a first game at tempo 60 is begun at clock 0 and has scheduled the
beats 0 to 4; the Listen entry deferred to beat 4 (4.1 s) is still pending when the game
is begun again at clock 4.05 s, since beginning a game cancels no timer. In the new game
beat 0 is a count-in beat; then the pending entry sets `phase` to `listen`, so the beats
1, 2, 3 are not count-in beats, the anchor beat stays 0, and the first phase entry of the
new game is Ready at beat 4: the trace of C17 does not hold. -/
theorem restart_cuts_count_in_short :
    ∃ st1 evs1 st evs,
      Run [] (beginGame 0) firstGamePasses st1 evs1 ∧
      pendingEntries (81 / 20) evs1 = [Phase.LISTEN] ∧
      Run (pendingEntries (81 / 20) evs1) (beginGame (81 / 20))
        (restartFirstPass ++ restartLaterPasses) st evs ∧
      evs.map (fun ev => ev.beatIdx) = [0, 1, 2, 3, 4] ∧
      evs.map (fun ev => ev.countInShown) = [some 4, none, none, none, none] ∧
      evs.map (fun ev => ev.phaseEntry) = [none, none, none, none, some Phase.READY] ∧
      st.countInAnchorBeat = 0 ∧
      ¬ (∀ (k : Nat) (ev : BeatEvent), evs[k]? = some ev → TraceBeat k ev) := by
  obtain ⟨r1, hr1⟩ : ∃ r, runPasses 1 firstGamePasses (beginGame 0) = some r :=
    Option.isSome_iff_exists.1 (by decide!)
  have hpend : (runPasses 1 firstGamePasses (beginGame 0)).map
      (fun r => pendingEntries (81 / 20) r.2) = some [Phase.LISTEN] := by decide!
  rw [hr1] at hpend
  simp only [Option.map_some', Option.some.injEq] at hpend
  obtain ⟨r, hr⟩ : ∃ r, restartScenario = some r := Option.isSome_iff_exists.1 (by decide!)
  have hfacts : restartScenario.map (fun r =>
      (r.2.map (fun ev => ev.beatIdx), r.2.map (fun ev => ev.countInShown),
       r.2.map (fun ev => ev.phaseEntry), r.1.countInAnchorBeat)) =
      some ([0, 1, 2, 3, 4], [some 4, none, none, none, none],
        [none, none, none, none, some Phase.READY], 0) := by decide!
  rw [hr] at hfacts
  simp only [Option.map_some', Option.some.injEq, Prod.mk.injEq] at hfacts
  obtain ⟨f1, f2, f3, f4⟩ := hfacts
  have hrun1 : Run [] (beginGame 0) firstGamePasses r1.1 r1.2 := by
    have := run_runPasses [] (beginGame 0) 1 firstGamePasses [] (beginGame 0) [] r1
      Run.init hr1
    simpa using this
  have hrun : Run (pendingEntries (81 / 20) r1.2) (beginGame (81 / 20))
      (restartFirstPass ++ restartLaterPasses) r.1 r.2 := by
    unfold restartScenario at hr
    cases ha : runPasses 1 restartFirstPass (beginGame (81 / 20)) with
    | none => rw [ha] at hr; cases hr
    | some ra =>
      obtain ⟨sta, evsa⟩ := ra
      rw [ha] at hr
      simp only at hr
      cases hb : runPasses 1 restartLaterPasses { sta with phase := Phase.LISTEN } with
      | none => rw [hb] at hr; cases hr
      | some rb =>
        obtain ⟨stb, evsb⟩ := rb
        rw [hb] at hr
        simp only [Option.some.injEq] at hr
        subst hr
        have h1 := run_runPasses (pendingEntries (81 / 20) r1.2) (beginGame (81 / 20)) 1
          restartFirstPass [] (beginGame (81 / 20)) [] (sta, evsa) Run.init ha
        simp only [List.nil_append] at h1
        have h2 := Run.staleEnter Phase.LISTEN h1 (by rw [hpend]; simp)
        exact run_runPasses _ _ 1 restartLaterPasses _ _ _ (stb, evsb) h2 hb
  refine ⟨r1.1, r1.2, r.1, r.2, hrun1, hpend, hrun, f1, f2, f3, f4, ?_⟩
  intro htrace
  have hlen : r.2.length = 5 := by
    have := congrArg List.length f1
    simpa using this
  obtain ⟨ev, hev⟩ : ∃ ev, r.2[1]? = some ev :=
    ⟨r.2[1], List.getElem?_eq_getElem (by omega)⟩
  have hshown := ((htrace 1 ev hev).2.1 (by norm_num)).1
  have hmap : (r.2.map (fun ev => ev.countInShown))[1]? = some ev.countInShown := by
    rw [List.getElem?_map, hev]
    rfl
  rw [f2, hshown] at hmap
  simp at hmap

/-! ## Phase entry -/

theorem onPhaseEnter_listen (inp : PageInput) (barStartSec : ℚ) (rs : RoundState) :
    (onPhaseEnter inp Phase.LISTEN barStartSec rs).currentPattern =
      pickPattern inp.difficultySel inp.random := by
  simp [onPhaseEnter]

theorem onPhaseEnter_ready (inp : PageInput) (barStartSec : ℚ) (rs : RoundState) :
    (onPhaseEnter inp Phase.READY barStartSec rs).currentPattern = rs.currentPattern ∧
    (onPhaseEnter inp Phase.READY barStartSec rs).playBarStartSec =
      barStartSec + 4 * beatDurSec inp.bpmNum ∧
    (onPhaseEnter inp Phase.READY barStartSec rs).captureWindow =
      some { startSec := barStartSec + 4 * beatDurSec inp.bpmNum -
               CAPTURE_EARLY_BEATS * beatDurSec inp.bpmNum,
             endSec := barStartSec + 4 * beatDurSec inp.bpmNum + 4 * beatDurSec inp.bpmNum +
               CAPTURE_LATE_BEATS * beatDurSec inp.bpmNum } := by
  simp [onPhaseEnter]

theorem onPhaseEnter_play (inp : PageInput) (barStartSec : ℚ) (rs : RoundState) :
    (onPhaseEnter inp Phase.PLAY barStartSec rs).expectedPlayEvents =
      patternTimesSec inp.bpmNum inp.difficultySel rs.currentPattern barStartSec ∧
    (onPhaseEnter inp Phase.PLAY barStartSec rs).playBarStartSec = rs.playBarStartSec ∧
    (onPhaseEnter inp Phase.PLAY barStartSec rs).captureWindow = rs.captureWindow := by
  simp [onPhaseEnter]

/-- C13: the geometry of the capture window. On Ready entry at bar start R, with beat
duration `bd` (positive, and `60/T` for a tempo T in [40,140]), `onPhaseEnter` sets
`playBarStartSec = R + 4 bd` and the window from `playBarStartSec - 0.5 bd` to
`playBarStartSec + 4 bd + 0.5 bd`; the window starts before the play bar, ends after it,
and its width `5 bd` exceeds the `4 bd` of the bar. -/
theorem capture_window_geometry (inp : PageInput) (R : ℚ) (rs : RoundState) :
    0 < beatDurSec inp.bpmNum ∧
    (∀ T : ℚ, 40 ≤ T → T ≤ 140 → beatDurSec (some T) = 60 / T) ∧
    (onPhaseEnter inp Phase.READY R rs).playBarStartSec = R + 4 * beatDurSec inp.bpmNum ∧
    ∃ w, (onPhaseEnter inp Phase.READY R rs).captureWindow = some w ∧
      w.startSec = (onPhaseEnter inp Phase.READY R rs).playBarStartSec -
        0.5 * beatDurSec inp.bpmNum ∧
      w.endSec = (onPhaseEnter inp Phase.READY R rs).playBarStartSec +
        4 * beatDurSec inp.bpmNum + 0.5 * beatDurSec inp.bpmNum ∧
      w.startSec < (onPhaseEnter inp Phase.READY R rs).playBarStartSec ∧
      (onPhaseEnter inp Phase.READY R rs).playBarStartSec + 4 * beatDurSec inp.bpmNum <
        w.endSec ∧
      w.endSec - w.startSec = 5 * beatDurSec inp.bpmNum ∧
      4 * beatDurSec inp.bpmNum < w.endSec - w.startSec := by
  obtain ⟨hpos, _, _⟩ := beatDurSec_bounds inp.bpmNum
  obtain ⟨_, h2, h3⟩ := onPhaseEnter_ready inp R rs
  refine ⟨hpos, fun T h40 h140 => beatDurSec_of_range h40 h140, h2, _, h3, ?_, ?_, ?_, ?_, ?_, ?_⟩
  all_goals (simp only [h2, CAPTURE_EARLY_BEATS, CAPTURE_LATE_BEATS])
  all_goals linarith

/-! ## Difficulty changed during a round -/

/-- C12, on the code: a pattern drawn and played at Listen entry while the difficulty is
`medium` is heard with the beat offsets 0, 1, 2, 3, 3.5; when the difficulty is changed
to `complex` before Play entry, the expected events built at Play entry have the beat
offsets 0, 1, 2, 3, 3 + 2/3. -/
theorem play_swings_what_was_heard_straight :
    (patternTimesSec (some 100) "medium"
        (onPhaseEnter ⟨some 100, "medium", 0⟩ Phase.LISTEN 0 idleRoundState).currentPattern
        0).map (fun e => e.beatT) = [0, 1, 2, 3, 7 / 2] ∧
    (onPhaseEnter ⟨some 100, "complex", 0⟩ Phase.PLAY (24 / 5)
        (onPhaseEnter ⟨some 100, "complex", 0⟩ Phase.READY (12 / 5)
          (onPhaseEnter ⟨some 100, "medium", 0⟩ Phase.LISTEN 0
            idleRoundState))).expectedPlayEvents.map (fun e => e.beatT) =
      [0, 1, 2, 3, 11 / 3] := by
  decide!

/-! ## Score entry and the end of the capture window -/

theorem cyclePhase_eq_iff (n : Nat) :
    (cyclePhase n = Phase.LISTEN ↔ n % 4 = 0) ∧ (cyclePhase n = Phase.READY ↔ n % 4 = 1) ∧
    (cyclePhase n = Phase.PLAY ↔ n % 4 = 2) ∧ (cyclePhase n = Phase.SCORE ↔ n % 4 = 3) := by
  have hlt : n % 4 < 4 := Nat.mod_lt _ (by norm_num)
  unfold cyclePhase
  generalize n % 4 = c at hlt
  interval_cases c <;> decide

theorem isWithinCaptureWindow_some (w : CaptureWindow) (nowSec : ℚ) :
    isWithinCaptureWindow (some w) nowSec = true ↔ w.startSec ≤ nowSec ∧ nowSec ≤ w.endSec := by
  simp [isWithinCaptureWindow]

/-- Score entry against the end of the capture window: in a round played at a constant
tempo T, the beat that enters Score comes eight beats after the beat that enters Ready,
and its clock time lies half a beat before the end of the capture window opened at Ready
entry. So at Score entry the window is still open: a hit between Score entry and the end
of the window is still admitted by `isWithinCaptureWindow` and recorded by `registerHit`,
after `scoreRound` has run. -/
theorem score_entry_precedes_window_end (t0 T : ℚ) (h40 : 40 ≤ T) (h140 : T ≤ 140)
    (ps : List Pass) (st : SchedState) (evs : List BeatEvent)
    (hrun : Run [] (beginGame t0) ps st evs) (hT : ∀ p ∈ ps, p.bpmNum = some T)
    (k : Nat) (evR evS : BeatEvent) (hR : evs[k]? = some evR)
    (hRp : evR.phaseEntry = some Phase.READY) (hS : evs[k + 8]? = some evS)
    (inp : PageInput) (hinp : inp.bpmNum = some T) (rs : RoundState) :
    evS.phaseEntry = some Phase.SCORE ∧
    evS.thisBeatTimeSec = evR.thisBeatTimeSec + 8 * (60 / T) ∧
    ∃ w, (onPhaseEnter inp Phase.READY evR.thisBeatTimeSec rs).captureWindow = some w ∧
      evS.thisBeatTimeSec < w.endSec ∧
      w.endSec - evS.thisBeatTimeSec = 0.5 * (60 / T) ∧
      ∀ (τ : ℚ) (i : Instrument) (rs2 : RoundState), evS.thisBeatTimeSec ≤ τ → τ ≤ w.endSec →
        rs2.captureWindow = some w →
        isWithinCaptureWindow (some w) τ = true ∧
        (registerHit true false i τ rs2).roundHits = rs2.roundHits ++ [⟨τ, i⟩] := by
  obtain ⟨_, _, htimes, _⟩ := run_times [] t0 T h40 h140 ps st evs hrun hT
  obtain ⟨_, _, _, htrace⟩ := run_trace t0 ps st evs hrun
  have hbd : beatDurSec inp.bpmNum = 60 / T := by rw [hinp, beatDurSec_of_range h40 h140]
  have hpos : (0 : ℚ) < 60 / T := by rw [← hbd]; exact (beatDurSec_bounds _).1
  obtain ⟨_, r2, r3⟩ := htrace k evR hR
  have hk4 : 4 ≤ k := by
    by_contra hlt
    rw [(r2 (by omega)).2] at hRp
    cases hRp
  have hRe := (r3 hk4).2
  rw [hRe] at hRp
  have hmod : (k - 4) % 4 = 0 := by
    by_contra hne
    rw [if_neg hne] at hRp
    cases hRp
  rw [if_pos hmod] at hRp
  simp only [Option.some.injEq] at hRp
  have hq : (k - 4) / 4 % 4 = 1 := (cyclePhase_eq_iff _).2.1.1 hRp
  obtain ⟨_, _, s3⟩ := htrace (k + 8) evS hS
  have hSe := (s3 (by omega)).2
  rw [if_pos (by omega)] at hSe
  have hscore : cyclePhase ((k + 8 - 4) / 4) = Phase.SCORE :=
    (cyclePhase_eq_iff _).2.2.2.2 (by omega)
  rw [hscore] at hSe
  have htS : evS.thisBeatTimeSec = evR.thisBeatTimeSec + 8 * (60 / T) := by
    rw [htimes (k + 8) evS hS, htimes k evR hR]
    push_cast
    ring
  obtain ⟨_, _, hw⟩ := onPhaseEnter_ready inp evR.thisBeatTimeSec rs
  rw [hbd] at hw
  refine ⟨hSe, htS, _, hw, ?_, ?_, ?_⟩
  · simp only [CAPTURE_LATE_BEATS]
    rw [htS]
    linarith
  · simp only [CAPTURE_LATE_BEATS]
    rw [htS]
    ring
  · intro τ i rs2 h1 h2 hcw
    have hin : isWithinCaptureWindow (some
        { startSec := evR.thisBeatTimeSec + 4 * (60 / T) - CAPTURE_EARLY_BEATS * (60 / T),
          endSec := evR.thisBeatTimeSec + 4 * (60 / T) + 4 * (60 / T) +
            CAPTURE_LATE_BEATS * (60 / T) }) τ = true := by
      rw [isWithinCaptureWindow_some]
      refine ⟨?_, h2⟩
      simp only [CAPTURE_EARLY_BEATS]
      rw [htS] at h1
      linarith
    refine ⟨hin, ?_⟩
    unfold registerHit
    rw [hcw, hin]
    simp

/-- An instance of the theorem above: tempo 60, `beginGame` at clock 0 and one pass at
clock 16 s, which schedules the beats 0 to 16; Ready is entered at beat 8 (8.1 s), the
window ends at 16.6 s, and Score is entered at beat 16 (16.1 s). -/
theorem score_entry_precedes_window_end_witness :
    ∃ st evs evR evS, Run [] (beginGame 0) [⟨16, some 60⟩] st evs ∧
      evs[8]? = some evR ∧ evs[8 + 8]? = some evS ∧
      evR.phaseEntry = some Phase.READY ∧ evS.phaseEntry = some Phase.SCORE ∧
      evR.thisBeatTimeSec = 81 / 10 ∧ evS.thisBeatTimeSec = 161 / 10 ∧
      ∃ w, (onPhaseEnter ⟨some 60, "simple", 0⟩ Phase.READY evR.thisBeatTimeSec
          idleRoundState).captureWindow = some w ∧ evS.thisBeatTimeSec < w.endSec := by
  obtain ⟨r, hr⟩ : ∃ r, scheduleTick 17 16 (some 60) (beginGame 0) = some r :=
    Option.isSome_iff_exists.1 (by decide!)
  have h8 : (scheduleTick 17 16 (some 60) (beginGame 0)).map
      (fun r => (r.2[8]?).map (fun ev => (ev.phaseEntry, ev.thisBeatTimeSec))) =
      some (some (some Phase.READY, 81 / 10)) := by decide!
  have h16 : (scheduleTick 17 16 (some 60) (beginGame 0)).map
      (fun r => (r.2[16]?).map (fun ev => (ev.phaseEntry, ev.thisBeatTimeSec))) =
      some (some (some Phase.SCORE, 161 / 10)) := by decide!
  rw [hr] at h8 h16
  simp only [Option.map_some', Option.some.injEq] at h8 h16
  obtain ⟨evR, hR, hRv⟩ := Option.map_eq_some'.1 h8
  obtain ⟨evS, hS, hSv⟩ := Option.map_eq_some'.1 h16
  simp only [Prod.mk.injEq] at hRv hSv
  have hrun : Run [] (beginGame 0) [⟨16, some 60⟩] r.1 r.2 := by
    exact run_single [] 0 ⟨16, some 60⟩ 17 r hr
  obtain ⟨_, _, w, hw, hlt, _⟩ := score_entry_precedes_window_end 0 60 (by norm_num)
    (by norm_num) _ _ _ hrun (by simp) 8 evR evS hR hRv.1 hS ⟨some 60, "simple", 0⟩ rfl
    idleRoundState
  exact ⟨r.1, r.2, evR, evS, hrun, hR, hS, hRv.1, hSv.1, hRv.2, hSv.2, w, hw, hlt⟩

/-- C14, on the code: a hit that the window admits and the match ceiling allows, but that
comes after scoring. Tempo 140, a `complex` pattern (Kick 0, Kick 1.5, Snare 2, Kick 3.5, swung), Ready
entered at clock 0, so Play at 12/7 s and Score at 24/7 s. The last expected event is the
Kick at 23/7 s. A Kick played 150 ms after it, at 23/7 + 3/20 s, is within 180 ms of the
event and inside the capture window, but later than Score entry: `scoreRound` has run
without it (all four events missed when nothing else was played, score 1), and
`registerHit` still records it afterwards. -/
theorem late_matchable_hit_is_not_scored :
    (⟨23 / 7, Instrument.K, 11 / 3⟩ : PlayEvent) ∈
      (roundAtPlay ⟨some 140, "complex", 1 / 2⟩ ⟨some 140, "complex", 1 / 2⟩
        ⟨some 140, "complex", 1 / 2⟩ 0 0 idleRoundState).expectedPlayEvents ∧
    |((23 : ℚ) / 7 + 3 / 20) - 23 / 7| * 1000 ≤ MATCH_MAX_MS ∧
    (0 : ℚ) + 8 * beatDurSec (some 140) < 23 / 7 + 3 / 20 ∧
    isWithinCaptureWindow
      (roundAtPlay ⟨some 140, "complex", 1 / 2⟩ ⟨some 140, "complex", 1 / 2⟩
        ⟨some 140, "complex", 1 / 2⟩ 0 0 idleRoundState).captureWindow
      (23 / 7 + 3 / 20) = true ∧
    (onPhaseEnter ⟨some 140, "complex", 1 / 2⟩ Phase.SCORE (24 / 7)
      (roundAtPlay ⟨some 140, "complex", 1 / 2⟩ ⟨some 140, "complex", 1 / 2⟩
        ⟨some 140, "complex", 1 / 2⟩ 0 0 idleRoundState)).scoreState.last = some 1 ∧
    (registerHit true false Instrument.K (23 / 7 + 3 / 20)
      (onPhaseEnter ⟨some 140, "complex", 1 / 2⟩ Phase.SCORE (24 / 7)
        (roundAtPlay ⟨some 140, "complex", 1 / 2⟩ ⟨some 140, "complex", 1 / 2⟩
          ⟨some 140, "complex", 1 / 2⟩ 0 0 idleRoundState))).roundHits =
      [⟨23 / 7 + 3 / 20, Instrument.K⟩] := by
  decide!

/-! ## The capture window and the match ceiling -/

theorem library_offsets :
    ∀ l ∈ [PATTERNS_simple, PATTERNS_medium, PATTERNS_difficult, PATTERNS_complex],
      ∀ p ∈ l, ∀ x ∈ p, 0 ≤ x.t ∧ x.t < 4 ∧
        0 ≤ applySwingToBeatTime x.t ∧ applySwingToBeatTime x.t < 4 := by
  decide!

theorem patternsFor_offsets (d : String) :
    ∀ p ∈ patternsFor d, ∀ x ∈ p, 0 ≤ x.t ∧ x.t < 4 ∧
      0 ≤ applySwingToBeatTime x.t ∧ applySwingToBeatTime x.t < 4 := by
  intro p hp
  unfold patternsFor at hp
  split_ifs at hp
  · exact library_offsets _ (by simp) p hp
  · exact library_offsets _ (by simp) p hp
  · exact library_offsets _ (by simp) p hp
  · exact library_offsets _ (by simp) p hp
  · exact library_offsets _ (by simp) p hp

theorem pickPattern_offsets (difficultySel : String) (random : ℚ) :
    ∀ x ∈ pickPattern difficultySel random, 0 ≤ x.t ∧ x.t < 4 ∧
      0 ≤ applySwingToBeatTime x.t ∧ applySwingToBeatTime x.t < 4 := by
  intro x hx
  unfold pickPattern at hx
  simp only [List.getD_eq_getElem?_getD] at hx
  obtain ⟨y, hy, rfl⟩ := List.mem_map.1 hx
  cases hget : (patternsFor (difficulty difficultySel))[Int.toNat
      ⌊random * ((patternsFor (difficulty difficultySel)).length : ℚ)⌋]? with
  | none =>
    rw [hget] at hy
    simp at hy
  | some p =>
    rw [hget] at hy
    exact patternsFor_offsets _ p (List.getElem?_mem hget) y hy

/-- C18: the capture window never excludes a matchable hit. In a round at a constant
tempo (the tempo field is the same at Ready and at Play entry; the difficulty may differ
at each entry, so the pattern may be swung or not), half a beat is more than 180 ms;
every expected event of the Play bar lies in `[playBarStartSec, playBarStartSec + 4 bd)`;
and every instant within 180 ms of an expected event is inside the capture window opened
at Ready entry. -/
theorem capture_window_covers_matchable (inpL inpR inpP : PageInput) (L R : ℚ)
    (rs : RoundState) (hT : inpP.bpmNum = inpR.bpmNum) :
    40 ≤ bpmValue inpR.bpmNum ∧ bpmValue inpR.bpmNum ≤ 140 ∧
    MATCH_MAX_MS / 1000 < 0.5 * beatDurSec inpR.bpmNum ∧
    ∀ e ∈ (roundAtPlay inpL inpR inpP L R rs).expectedPlayEvents,
      (roundAtPlay inpL inpR inpP L R rs).playBarStartSec ≤ e.when ∧
      e.when < (roundAtPlay inpL inpR inpP L R rs).playBarStartSec +
        4 * beatDurSec inpR.bpmNum ∧
      ∀ τ : ℚ, |τ - e.when| * 1000 ≤ MATCH_MAX_MS →
        isWithinCaptureWindow (roundAtPlay inpL inpR inpP L R rs).captureWindow τ = true := by
  obtain ⟨h40, h140⟩ := bpmValue_range inpR.bpmNum
  obtain ⟨hpos, hlo, _⟩ := beatDurSec_bounds inpR.bpmNum
  have hhalf : MATCH_MAX_MS / 1000 < 0.5 * beatDurSec inpR.bpmNum := by
    unfold MATCH_MAX_MS
    norm_num at hlo ⊢
    linarith
  refine ⟨h40, h140, hhalf, ?_⟩
  obtain ⟨p1, p2, p3⟩ := onPhaseEnter_play inpP (R + 4 * beatDurSec inpR.bpmNum)
    (onPhaseEnter inpR Phase.READY R (onPhaseEnter inpL Phase.LISTEN L rs))
  obtain ⟨r1, r2, r3⟩ := onPhaseEnter_ready inpR R (onPhaseEnter inpL Phase.LISTEN L rs)
  have l1 := onPhaseEnter_listen inpL L rs
  have hexp : (roundAtPlay inpL inpR inpP L R rs).expectedPlayEvents =
      patternTimesSec inpR.bpmNum inpP.difficultySel
        (pickPattern inpL.difficultySel inpL.random) (R + 4 * beatDurSec inpR.bpmNum) := by
    unfold roundAtPlay
    rw [p1, r1, l1, hT]
  have hstart : (roundAtPlay inpL inpR inpP L R rs).playBarStartSec =
      R + 4 * beatDurSec inpR.bpmNum := by
    unfold roundAtPlay
    rw [p2, r2]
  have hwin : (roundAtPlay inpL inpR inpP L R rs).captureWindow =
      some { startSec := R + 4 * beatDurSec inpR.bpmNum -
               CAPTURE_EARLY_BEATS * beatDurSec inpR.bpmNum,
             endSec := R + 4 * beatDurSec inpR.bpmNum + 4 * beatDurSec inpR.bpmNum +
               CAPTURE_LATE_BEATS * beatDurSec inpR.bpmNum } := by
    unfold roundAtPlay
    rw [p3, r3]
  rw [hexp, hstart, hwin]
  intro e he
  unfold patternTimesSec at he
  obtain ⟨x, hx, rfl⟩ := List.mem_map.1 he
  obtain ⟨a1, a2, a3, a4⟩ := pickPattern_offsets _ _ x hx
  have hbt : ∀ bt : ℚ, 0 ≤ bt → bt < 4 →
      R + 4 * beatDurSec inpR.bpmNum ≤ R + 4 * beatDurSec inpR.bpmNum + bt * beatDurSec inpR.bpmNum ∧
      R + 4 * beatDurSec inpR.bpmNum + bt * beatDurSec inpR.bpmNum <
        R + 4 * beatDurSec inpR.bpmNum + 4 * beatDurSec inpR.bpmNum ∧
      ∀ τ : ℚ, |τ - (R + 4 * beatDurSec inpR.bpmNum + bt * beatDurSec inpR.bpmNum)| * 1000 ≤
          MATCH_MAX_MS →
        isWithinCaptureWindow (some
          { startSec := R + 4 * beatDurSec inpR.bpmNum -
              CAPTURE_EARLY_BEATS * beatDurSec inpR.bpmNum,
            endSec := R + 4 * beatDurSec inpR.bpmNum + 4 * beatDurSec inpR.bpmNum +
              CAPTURE_LATE_BEATS * beatDurSec inpR.bpmNum }) τ = true := by
    intro bt h0 h4
    have hm0 : 0 ≤ bt * beatDurSec inpR.bpmNum := mul_nonneg h0 hpos.le
    have hm4 : bt * beatDurSec inpR.bpmNum < 4 * beatDurSec inpR.bpmNum :=
      mul_lt_mul_of_pos_right h4 hpos
    refine ⟨by linarith, by linarith, ?_⟩
    intro τ hτ
    have habs : |τ - (R + 4 * beatDurSec inpR.bpmNum + bt * beatDurSec inpR.bpmNum)| ≤
        MATCH_MAX_MS / 1000 := by
      rw [le_div_iff₀ (by norm_num)]
      exact hτ
    obtain ⟨b1, b2⟩ := abs_le.1 habs
    rw [isWithinCaptureWindow_some]
    simp only [CAPTURE_EARLY_BEATS, CAPTURE_LATE_BEATS]
    constructor <;> linarith
  dsimp only
  split_ifs
  · exact hbt _ a3 a4
  · exact hbt _ a1 a2

/-- Witness for C18: tempo 140; a `complex` pattern drawn at Listen entry, Ready entered
at 2.4 s and Play four beats later, so that the five expected events are swung. -/
theorem capture_window_covers_matchable_witness :
    (roundAtPlay ⟨some 140, "complex", 0⟩ ⟨some 140, "complex", 0⟩ ⟨some 140, "complex", 0⟩
      0 (12 / 5) idleRoundState).expectedPlayEvents.length = 5 ∧
    ∀ e ∈ (roundAtPlay ⟨some 140, "complex", 0⟩ ⟨some 140, "complex", 0⟩
        ⟨some 140, "complex", 0⟩ 0 (12 / 5) idleRoundState).expectedPlayEvents,
      ∀ τ : ℚ, |τ - e.when| * 1000 ≤ MATCH_MAX_MS →
        isWithinCaptureWindow (roundAtPlay ⟨some 140, "complex", 0⟩ ⟨some 140, "complex", 0⟩
          ⟨some 140, "complex", 0⟩ 0 (12 / 5) idleRoundState).captureWindow τ = true :=
  ⟨by decide!,
   fun e he => ((capture_window_covers_matchable ⟨some 140, "complex", 0⟩
      ⟨some 140, "complex", 0⟩ ⟨some 140, "complex", 0⟩ 0 (12 / 5) idleRoundState
      rfl).2.2.2 e he).2.2⟩

/-! ## The matching loops for any way of computing the error

The lemmas on `scan` and `matchLoop` that do not depend on how the error of a hit against
an expected event is computed, stated for `scanG` and `matchLoopG`. -/

section Generic

variable {F : Ev → Ev → ℚ}

theorem cand_lt_lengthG {e : Ev} {usedAct : List Nat} {act : List Ev} {j : Nat} {err : ℚ}
    (h : CandG F e usedAct act j err) : j < act.length := by
  obtain ⟨a, ha, _⟩ := h
  exact (List.getElem?_eq_some.1 ha).1

theorem cand_snocG (e : Ev) (usedAct : List Nat) (pre : List Ev) (a : Ev) (j : Nat) (err : ℚ) :
    CandG F e usedAct (pre ++ [a]) j err ↔
      CandG F e usedAct pre j err ∨
      (j = pre.length ∧ j ∉ usedAct ∧ a.i = e.i ∧ err = F a e ∧
        err ≤ MATCH_MAX_MS) := by
  constructor
  · rintro ⟨b, hb, hrest⟩
    rcases Nat.lt_trichotomy j pre.length with hlt | heq | hgt
    · left
      rw [List.getElem?_append_left hlt] at hb
      exact ⟨b, hb, hrest⟩
    · right
      subst heq
      rw [List.getElem?_append_right (le_refl _)] at hb
      simp at hb
      subst hb
      exact ⟨rfl, hrest⟩
    · exfalso
      have := (List.getElem?_eq_some.1 hb).1
      simp at this
      omega
  · rintro (⟨b, hb, hrest⟩ | ⟨rfl, hrest⟩)
    · have hlt := (List.getElem?_eq_some.1 hb).1
      exact ⟨b, by rw [List.getElem?_append_left hlt]; exact hb, hrest⟩
    · exact ⟨a, by rw [List.getElem?_append_right (le_refl _)]; simp, hrest⟩

theorem scan_firstBest_auxG (e : Ev) (usedAct : List Nat) :
    ∀ (l pre : List Ev) (best : Option (Nat × ℚ)), FirstBestG F e usedAct pre best →
      FirstBestG F e usedAct (pre ++ l) (scanG F e usedAct l pre.length best) := by
  intro l
  induction l with
  | nil => intro pre best h; simpa [scanG] using h
  | cons a rest ih =>
    intro pre best h
    have hstep : ∀ best2, FirstBestG F e usedAct (pre ++ [a]) best2 →
        FirstBestG F e usedAct (pre ++ a :: rest) (scanG F e usedAct rest (pre.length + 1) best2) := by
      intro best2 h2
      have := ih (pre ++ [a]) best2 h2
      simpa using this
    have hkeep : (∀ j err, CandG F e usedAct (pre ++ [a]) j err →
        CandG F e usedAct pre j err ∨ (j = pre.length ∧ ∃ jb eb, best = some (jb, eb) ∧ eb ≤ err)) →
        FirstBestG F e usedAct (pre ++ [a]) best := by
      intro hc
      cases best with
      | none =>
        intro j err hj
        rcases hc j err hj with h1 | ⟨_, jb, eb, hb, _⟩
        · exact h j err h1
        · cases hb
      | some p =>
        obtain ⟨jb, eb⟩ := p
        obtain ⟨hcand, hmin⟩ := h
        refine ⟨(cand_snocG _ _ _ _ _ _).2 (Or.inl hcand), ?_⟩
        intro j2 err2 hj2
        rcases hc j2 err2 hj2 with h1 | ⟨hj, jb2, eb2, hb, hle⟩
        · exact hmin j2 err2 h1
        · cases hb
          exact ⟨hle, fun _ => by have := cand_lt_lengthG hcand; omega⟩
    rw [scanG]
    dsimp only
    split_ifs with hu hi herr
    · apply hstep
      apply hkeep
      intro j err hj
      rcases (cand_snocG _ _ _ _ _ _).1 hj with h1 | ⟨rfl, hnu, _⟩
      · exact Or.inl h1
      · exact absurd hu hnu
    · apply hstep
      apply hkeep
      intro j err hj
      rcases (cand_snocG _ _ _ _ _ _).1 hj with h1 | ⟨_, _, hai, _⟩
      · exact Or.inl h1
      · exact absurd hai hi
    · apply hstep
      have hai : a.i = e.i := not_not.1 hi
      obtain ⟨hle, hbelow⟩ := herr
      refine ⟨(cand_snocG _ _ _ _ _ _).2 (Or.inr ⟨rfl, hu, hai, rfl, hle⟩), ?_⟩
      intro j2 err2 hj2
      rcases (cand_snocG _ _ _ _ _ _).1 hj2 with h1 | ⟨hj, _, _, herr2, _⟩
      · cases best with
        | none => exact absurd h1 (h j2 err2)
        | some p =>
          obtain ⟨jb, eb⟩ := p
          have hlt : F a e < eb := by simpa [errBelow] using hbelow
          have := (h.2 j2 err2 h1).1
          exact ⟨by linarith, fun heq => by linarith⟩
      · exact ⟨by rw [herr2], fun _ => by omega⟩
    · apply hstep
      apply hkeep
      intro j err hj
      rcases (cand_snocG _ _ _ _ _ _).1 hj with h1 | ⟨hj, _, _, herr2, hle⟩
      · exact Or.inl h1
      · right
        refine ⟨hj, ?_⟩
        rw [← herr2] at herr
        have hnb : ¬ errBelow err best = true := fun hb => herr ⟨hle, hb⟩
        cases best with
        | none => simp [errBelow] at hnb
        | some p =>
          obtain ⟨jb, eb⟩ := p
          refine ⟨jb, eb, rfl, ?_⟩
          simpa [errBelow] using hnb

/-- One pass of the inner loop returns the first of the best candidates, or nothing when
there is no candidate. -/
theorem scan_firstBestG (e : Ev) (usedAct : List Nat) (act : List Ev) :
    FirstBestG F e usedAct act (scanG F e usedAct act 0 none) := by
  have h := scan_firstBest_auxG (F := F) e usedAct act [] none
    (by intro j err hc; have := cand_lt_lengthG hc; simp at this)
  simpa using h

theorem firstBest_uniqueG {e : Ev} {usedAct : List Nat} {act : List Ev}
    {r1 r2 : Option (Nat × ℚ)} (h1 : FirstBestG F e usedAct act r1)
    (h2 : FirstBestG F e usedAct act r2) : r1 = r2 := by
  cases r1 with
  | none =>
    cases r2 with
    | none => rfl
    | some p => obtain ⟨j, err⟩ := p; exact absurd h2.1 (h1 j err)
  | some p =>
    obtain ⟨j, err⟩ := p
    cases r2 with
    | none => exact absurd h1.1 (h2 j err)
    | some q =>
      obtain ⟨j2, err2⟩ := q
      have a1 := h1.2 j2 err2 h2.1
      have a2 := h2.2 j err h1.1
      have he : err = err2 := le_antisymm a1.1 a2.1
      subst he
      have := a1.2 rfl
      have := a2.2 rfl
      have hj : j = j2 := by omega
      subst hj
      rfl

theorem scan_eq_of_firstBestG {e : Ev} {usedAct : List Nat} {act : List Ev}
    {r : Option (Nat × ℚ)} (h : FirstBestG F e usedAct act r) : scanG F e usedAct act 0 none = r :=
  firstBest_uniqueG (scan_firstBestG (F := F) e usedAct act) h

theorem matchLoop_appendG (act : List Ev) :
    ∀ (l1 l2 : List Ev) (usedAct : List Nat) (matchList : List Match),
      matchLoopG F act (l1 ++ l2) usedAct matchList =
        matchLoopG F act l2 (matchLoopG F act l1 usedAct matchList).1
          (matchLoopG F act l1 usedAct matchList).2 := by
  intro l1
  induction l1 with
  | nil => intro l2 u m; simp [matchLoopG]
  | cons e rest ih =>
    intro l2 u m
    simp only [List.cons_append, matchLoopG]
    cases scanG F e u act 0 none with
    | none => simpa using ih l2 u m
    | some p => obtain ⟨j, err⟩ := p; simpa using ih l2 _ _

theorem cand_rename_fwdG {f : Nat → Nat} {bad : Nat → Prop} {act act2 : List Ev}
    (hr : Renaming f bad act act2) {e : Ev} {usedAct : List Nat} {j : Nat} {err : ℚ}
    (h : CandG F e usedAct act j err) : CandG F e (usedAct.map f) act2 (f j) err := by
  obtain ⟨a, ha, hju, hrest⟩ := h
  exact ⟨a, hr.fwd j a ha, fun hm => hju ((mem_map_of_inj hr.inj usedAct j).1 hm), hrest⟩

theorem cand_rename_bwdG {f : Nat → Nat} {bad : Nat → Prop} {act act2 : List Ev}
    (hr : Renaming f bad act act2) {e : Ev} {usedAct : List Nat} {j2 : Nat} {err : ℚ}
    (h : CandG F e (usedAct.map f) act2 j2 err) (hb : ¬ bad j2) :
    ∃ j, f j = j2 ∧ CandG F e usedAct act j err := by
  obtain ⟨a, ha, hju, hrest⟩ := h
  rcases hr.bwd j2 a ha with h1 | ⟨j, hj, haj⟩
  · exact absurd h1 hb
  · subst hj
    exact ⟨j, rfl, a, haj, fun hm => hju ((mem_map_of_inj hr.inj usedAct j).2 hm), hrest⟩

/-- One pass of the inner loop over a renamed hit array gives the renamed outcome, as
long as it does not pick an index without counterpart. -/
theorem scan_renameG {f : Nat → Nat} {bad : Nat → Prop} {act act2 : List Ev}
    (hr : Renaming f bad act act2) (e : Ev) (usedAct : List Nat) :
    (scanG F e (usedAct.map f) act2 0 none = none → scanG F e usedAct act 0 none = none) ∧
    (∀ j2 err, scanG F e (usedAct.map f) act2 0 none = some (j2, err) → ¬ bad j2 →
      ∃ j, f j = j2 ∧ scanG F e usedAct act 0 none = some (j, err)) := by
  have hfb := scan_firstBestG (F := F) e (usedAct.map f) act2
  constructor
  · intro h
    rw [h] at hfb
    apply scan_eq_of_firstBestG
    intro j err hc
    exact hfb (f j) err (cand_rename_fwdG hr hc)
  · intro j2 err h hb
    rw [h] at hfb
    obtain ⟨j, hj, hc⟩ := cand_rename_bwdG hr hfb.1 hb
    refine ⟨j, hj, scan_eq_of_firstBestG ⟨hc, ?_⟩⟩
    intro j3 err3 hc3
    have h3 := hfb.2 (f j3) err3 (cand_rename_fwdG hr hc3)
    refine ⟨h3.1, fun heq => ?_⟩
    have hle := h3.2 heq
    by_contra hlt
    obtain ⟨a, ha, _, hai, _⟩ := hc
    obtain ⟨a3, ha3, _, hai3, _⟩ := hc3
    have hm := hr.mono j3 j a3 a ha3 ha (by rw [hai3, hai]) (by omega)
    have : f j3 = f j := by omega
    have := hr.inj _ _ this
    omega

theorem matchLoop_used_monoG (act : List Ev) :
    ∀ (rest : List Ev) (usedAct : List Nat) (matchList : List Match) (x : Nat),
      x ∈ usedAct → x ∈ (matchLoopG F act rest usedAct matchList).1 := by
  intro rest
  induction rest with
  | nil => intro u m x hx; simpa [matchLoopG] using hx
  | cons e rest ih =>
    intro u m x hx
    rw [matchLoopG]
    cases scanG F e u act 0 none with
    | none => exact ih u m x hx
    | some q =>
      obtain ⟨j, err⟩ := q
      exact ih _ _ x ((mem_setAdd u j x).2 (Or.inl hx))

/-- The outer loop over a renamed hit array gives the renamed `usedAct` and the same
`matches`, as long as it claims no index without counterpart. -/
theorem matchLoop_renameG {f : Nat → Nat} {bad : Nat → Prop} {act act2 : List Ev}
    (hr : Renaming f bad act act2) :
    ∀ (rest : List Ev) (usedAct : List Nat) (matchList : List Match),
      (∀ x ∈ (matchLoopG F act2 rest (usedAct.map f) matchList).1, ¬ bad x) →
      matchLoopG F act2 rest (usedAct.map f) matchList =
        ((matchLoopG F act rest usedAct matchList).1.map f,
         (matchLoopG F act rest usedAct matchList).2) := by
  intro rest
  induction rest with
  | nil => intro u m _; simp [matchLoopG]
  | cons e rest ih =>
    intro u m hbad
    obtain ⟨hnone, hsome⟩ := scan_renameG hr e u
    rw [matchLoopG] at hbad ⊢
    rw [matchLoopG]
    cases hscan : scanG F e (u.map f) act2 0 none with
    | none =>
      rw [hscan] at hbad
      rw [hnone hscan]
      exact ih u m hbad
    | some q =>
      obtain ⟨j2, err⟩ := q
      rw [hscan] at hbad
      dsimp only at hbad ⊢
      have hnb : ¬ bad j2 :=
        hbad j2 (matchLoop_used_monoG act2 rest _ _ j2 ((mem_setAdd _ _ _).2 (Or.inr rfl)))
      obtain ⟨j, hj, hs⟩ := hsome j2 err hscan hnb
      subst hj
      rw [hs]
      dsimp only
      rw [setAdd_map_of_inj hr.inj] at hbad ⊢
      exact ih _ _ hbad

theorem scan_congr_usedG {e : Ev} {u u2 : List Nat} (act : List Ev)
    (h : ∀ j, j ∈ u ↔ j ∈ u2) : scanG F e u act 0 none = scanG F e u2 act 0 none := by
  apply scan_eq_of_firstBestG
  have hc : ∀ j err, CandG F e u act j err ↔ CandG F e u2 act j err := by
    intro j err
    constructor
    · rintro ⟨a, ha, hj, hrest⟩
      exact ⟨a, ha, fun hm => hj ((h j).2 hm), hrest⟩
    · rintro ⟨a, ha, hj, hrest⟩
      exact ⟨a, ha, fun hm => hj ((h j).1 hm), hrest⟩
  have hfb := scan_firstBestG (F := F) e u2 act
  cases hs : scanG F e u2 act 0 none with
  | none =>
    rw [hs] at hfb
    intro j err hcand
    exact hfb j err ((hc j err).1 hcand)
  | some q =>
    obtain ⟨j, err⟩ := q
    rw [hs] at hfb
    exact ⟨(hc j err).2 hfb.1, fun j2 err2 h2 => hfb.2 j2 err2 ((hc j2 err2).1 h2)⟩

theorem matchLoop_permG (act : List Ev) :
    ∀ (rest : List Ev) (u u2 : List Nat) (m m2 : List Match), u.Perm u2 → m.Perm m2 →
      (matchLoopG F act rest u m).1.Perm (matchLoopG F act rest u2 m2).1 ∧
      (matchLoopG F act rest u m).2.Perm (matchLoopG F act rest u2 m2).2 := by
  intro rest
  induction rest with
  | nil => intro u u2 m m2 hu hm; exact ⟨hu, hm⟩
  | cons e rest ih =>
    intro u u2 m m2 hu hm
    rw [matchLoopG, matchLoopG, scan_congr_usedG act (fun j => hu.mem_iff)]
    cases scanG F e u2 act 0 none with
    | none => exact ih u u2 m m2 hu hm
    | some q =>
      obtain ⟨j, err⟩ := q
      exact ih _ _ _ _ (setAdd_perm hu j) (hm.append_right _)

theorem scan_setAdd_otherG {e : Ev} {u : List Nat} {act : List Ev} {j : Nat} {a : Ev}
    (ha : act[j]? = some a) (hi : a.i ≠ e.i) :
    scanG F e (setAdd u j) act 0 none = scanG F e u act 0 none := by
  apply scan_eq_of_firstBestG
  have hc : ∀ j2 err, CandG F e (setAdd u j) act j2 err ↔ CandG F e u act j2 err := by
    intro j2 err
    constructor
    · rintro ⟨b, hb, hj, hrest⟩
      exact ⟨b, hb, fun hm => hj ((mem_setAdd u j j2).2 (Or.inl hm)), hrest⟩
    · rintro ⟨b, hb, hj, hbi, hrest⟩
      refine ⟨b, hb, fun hm => ?_, hbi, hrest⟩
      rcases (mem_setAdd u j j2).1 hm with h1 | h1
      · exact hj h1
      · subst h1
        rw [ha] at hb
        cases hb
        exact hi hbi
  have hfb := scan_firstBestG (F := F) e u act
  cases hs : scanG F e u act 0 none with
  | none =>
    rw [hs] at hfb
    intro j2 err hcand
    exact hfb j2 err ((hc j2 err).1 hcand)
  | some q =>
    obtain ⟨j2, err⟩ := q
    rw [hs] at hfb
    exact ⟨(hc j2 err).2 hfb.1, fun j3 err3 h3 => hfb.2 j3 err3 ((hc j3 err3).1 h3)⟩

theorem scan_some_instrumentG {e : Ev} {u : List Nat} {act : List Ev} {j : Nat} {err : ℚ}
    (h : scanG F e u act 0 none = some (j, err)) : ∃ a, act[j]? = some a ∧ a.i = e.i := by
  have hfb := scan_firstBestG (F := F) e u act
  rw [h] at hfb
  obtain ⟨a, ha, _, hai, _⟩ := hfb.1
  exact ⟨a, ha, hai⟩

/-- Two expected events of different instruments can be processed in either order. -/
theorem matchLoop_swap_twoG (act : List Ev) (e1 e2 : Ev) (hne : e1.i ≠ e2.i)
    (u : List Nat) (m : List Match) :
    (matchLoopG F act [e1, e2] u m).1.Perm (matchLoopG F act [e2, e1] u m).1 ∧
    (matchLoopG F act [e1, e2] u m).2.Perm (matchLoopG F act [e2, e1] u m).2 := by
  simp only [matchLoopG]
  cases h1 : scanG F e1 u act 0 none with
  | none =>
    cases h2 : scanG F e2 u act 0 none with
    | none => simp [h1, h2]
    | some q2 =>
      obtain ⟨j2, err2⟩ := q2
      obtain ⟨a2, ha2, hi2⟩ := scan_some_instrumentG h2
      have := scan_setAdd_otherG (F := F) (e := e1) (u := u) ha2 (by rw [hi2]; exact fun h => hne h.symm)
      simp [h1, h2, this]
  | some q1 =>
    obtain ⟨j1, err1⟩ := q1
    obtain ⟨a1, ha1, hi1⟩ := scan_some_instrumentG h1
    have k1 := scan_setAdd_otherG (F := F) (e := e2) (u := u) ha1 (by rw [hi1]; exact hne)
    cases h2 : scanG F e2 u act 0 none with
    | none => simp [h1, h2, k1]
    | some q2 =>
      obtain ⟨j2, err2⟩ := q2
      obtain ⟨a2, ha2, hi2⟩ := scan_some_instrumentG h2
      have k2 := scan_setAdd_otherG (F := F) (e := e1) (u := u) ha2
        (by rw [hi2]; exact fun h => hne h.symm)
      have hj1 : j1 ∉ u := by
        have hfb := scan_firstBestG (F := F) e1 u act
        rw [h1] at hfb
        obtain ⟨_, _, hj, _⟩ := hfb.1
        exact hj
      have hj2 : j2 ∉ u := by
        have hfb := scan_firstBestG (F := F) e2 u act
        rw [h2] at hfb
        obtain ⟨_, _, hj, _⟩ := hfb.1
        exact hj
      have hj12 : j1 ≠ j2 := by
        rintro rfl
        rw [ha1] at ha2
        cases ha2
        exact hne (hi1.symm.trans hi2)
      simp only [h1, h2, k1, k2]
      constructor
      · rw [setAdd_of_not_mem hj1, setAdd_of_not_mem hj2,
          setAdd_of_not_mem (by simp [hj2, Ne.symm hj12]),
          setAdd_of_not_mem (by simp [hj1, hj12])]
        simp only [List.append_assoc]
        exact List.Perm.append_left _ (List.Perm.swap _ _ _)
      · simp only [List.append_assoc]
        exact List.Perm.append_left _ (List.Perm.swap _ _ _)

theorem matchLoop_swapStep_expG (act : List Ev) {exp exp2 : List Ev} (h : SwapStep exp exp2) :
    LoopEq (matchLoopG F act exp [] []) (matchLoopG F act exp2 [] []) := by
  obtain ⟨X, Y, a, b, hne⟩ := h
  have e1 : X ++ a :: b :: Y = X ++ ([a, b] ++ Y) := rfl
  have e2 : X ++ b :: a :: Y = X ++ ([b, a] ++ Y) := rfl
  rw [e1, e2, matchLoop_appendG, matchLoop_appendG act X, matchLoop_appendG, matchLoop_appendG act [b, a]]
  obtain ⟨p1, p2⟩ := matchLoop_swap_twoG act a b hne (matchLoopG F act X [] []).1
    (matchLoopG F act X [] []).2
  obtain ⟨q1, q2⟩ := matchLoop_permG act Y _ _ _ _ p1 p2
  exact ⟨q1.length_eq, q2⟩

theorem matchLoop_swapStep_actG {act act2 : List Ev} (h : SwapStep act act2) (exp : List Ev) :
    LoopEq (matchLoopG F act exp [] []) (matchLoopG F act2 exp [] []) := by
  obtain ⟨X, Y, a, b, hne⟩ := h
  have := matchLoop_renameG (F := F) (renaming_swap X Y a b hne) exp [] [] (fun _ _ h => h)
  simp only [List.map_nil] at this
  rw [this]
  exact ⟨by simp, List.Perm.refl _⟩

theorem matchLoop_chain_actG {act act2 : List Ev} (h : Relation.ReflTransGen SwapStep act act2)
    (exp : List Ev) : LoopEq (matchLoopG F act exp [] []) (matchLoopG F act2 exp [] []) := by
  induction h with
  | refl => exact loopEq_refl _
  | tail _ hstep ih => exact loopEq_trans ih (matchLoop_swapStep_actG hstep exp)

theorem matchLoop_chain_expG (act : List Ev) {exp exp2 : List Ev}
    (h : Relation.ReflTransGen SwapStep exp exp2) :
    LoopEq (matchLoopG F act exp [] []) (matchLoopG F act exp2 [] []) := by
  induction h with
  | refl => exact loopEq_refl _
  | tail _ hstep ih => exact loopEq_trans ih (matchLoop_swapStep_expG act hstep)

theorem matchLoop_swapStep_act_eqG {act act2 : List Ev} (h : SwapStep act act2)
    (exp : List Ev) :
    (matchLoopG F act2 exp [] []).1.length = (matchLoopG F act exp [] []).1.length ∧
    (matchLoopG F act2 exp [] []).2 = (matchLoopG F act exp [] []).2 := by
  obtain ⟨X, Y, a, b, hne⟩ := h
  have := matchLoop_renameG (F := F) (renaming_swap X Y a b hne) exp [] [] (fun _ _ h => h)
  simp only [List.map_nil] at this
  rw [this]
  exact ⟨by simp, rfl⟩

theorem matchLoop_chain_act_eqG {act act2 : List Ev}
    (h : Relation.ReflTransGen SwapStep act act2) (exp : List Ev) :
    (matchLoopG F act2 exp [] []).1.length = (matchLoopG F act exp [] []).1.length ∧
    (matchLoopG F act2 exp [] []).2 = (matchLoopG F act exp [] []).2 := by
  induction h with
  | refl => exact ⟨rfl, rfl⟩
  | tail _ hstep ih =>
    obtain ⟨h1, h2⟩ := matchLoop_swapStep_act_eqG (F := F) hstep exp
    exact ⟨h1.trans ih.1, h2.trans ih.2⟩

theorem scan_eq_scanG (e : Ev) (usedAct : List Nat) :
    ∀ (l : List Ev) (k : Nat) (best : Option (Nat × ℚ)),
      scan e usedAct l k best = scanG (fun a e => |a.t - e.t| * 1000) e usedAct l k best := by
  intro l
  induction l with
  | nil => intro k best; rfl
  | cons a rest ih =>
    intro k best
    rw [scan, scanG]
    simp only [ih]

theorem matchLoop_eq_matchLoopG (act : List Ev) :
    ∀ (rest : List Ev) (usedAct : List Nat) (matchList : List Match),
      matchLoop act rest usedAct matchList =
        matchLoopG (fun a e => |a.t - e.t| * 1000) act rest usedAct matchList := by
  intro rest
  induction rest with
  | nil => intro u m; rfl
  | cons e rest ih =>
    intro u m
    rw [matchLoop, matchLoopG, scan_eq_scanG]
    simp only [ih]

end Generic

/-! ## The order of expected events of equal time, in double precision -/

/-- The rounding agrees with the doubles of the literals `0.1`, `0.85`, `0.55` and of
`1 / 3`, with the sum `0.1 + 0.2` on doubles, and leaves a double unchanged. -/
theorem roundDouble_examples :
    roundDouble (1 / 10) = 3602879701896397 / 2 ^ 55 ∧
    roundDouble 0.85 = 7656119366529843 / 2 ^ 53 ∧
    roundDouble 0.55 = 2476979795053773 / 2 ^ 52 ∧
    roundDouble (1 / 3) = 6004799503160661 / 2 ^ 54 ∧
    roundDouble (roundDouble (1 / 10) + roundDouble (2 / 10)) = 1351079888211149 / 2 ^ 52 ∧
    roundDouble (3602879701896397 / 2 ^ 55) = 3602879701896397 / 2 ^ 55 ∧
    roundDouble 180 = 180 ∧ roundDouble (-1 / 10) = -(3602879701896397 / 2 ^ 55) := by
  decide!

theorem scoreRoundD_matchList (expected : List PlayEvent) (actual : List Hit) :
    (scoreRoundD expected actual).matchList =
      (matchLoopG errMsD (actOf actual) (expOf expected) [] []).2 := rfl

theorem scoreRoundD_misses (expected : List PlayEvent) (actual : List Hit) :
    (scoreRoundD expected actual).misses =
      ((expOf expected).length : Int) - ((scoreRoundD expected actual).matchList.length : Int) :=
  rfl

theorem scoreRoundD_extras (expected : List PlayEvent) (actual : List Hit) :
    (scoreRoundD expected actual).extras =
      ((actOf actual).length : Int) -
        ((matchLoopG errMsD (actOf actual) (expOf expected) [] []).1.length : Int) := rfl

theorem scoreRoundD_avgErrMs (expected : List PlayEvent) (actual : List Hit) :
    (scoreRoundD expected actual).avgErrMs = avgErrMsD (scoreRoundD expected actual).matchList :=
  rfl

theorem scoreRoundD_effectiveErr (expected : List PlayEvent) (actual : List Hit) :
    (scoreRoundD expected actual).effectiveErr =
      roundDouble ((scoreRoundD expected actual).avgErrMs *
        roundDouble (roundDouble (1 + roundDouble (roundDouble 0.85 *
            roundDouble (((scoreRoundD expected actual).misses : ℚ) /
              ((max 1 (expOf expected).length : Nat) : ℚ)))) +
          roundDouble (roundDouble 0.55 *
            roundDouble (((scoreRoundD expected actual).extras : ℚ) /
              ((max 1 (expOf expected).length : Nat) : ℚ))))) := rfl

theorem scoreRoundD_score (expected : List PlayEvent) (actual : List Hit) :
    (scoreRoundD expected actual).score =
      tierScore (scoreRoundD expected actual).effectiveErr (scoreRoundD expected actual).misses
        (scoreRoundD expected actual).extras := rfl

/-- Two arrays sorted by time that hold the same events, no two of them at the same time,
are equal. -/
theorem sorted_perm_eq_of_nodup_times :
    ∀ L L2 : List Ev, L.Sorted (fun a b : Ev => a.t ≤ b.t) →
      L2.Sorted (fun a b : Ev => a.t ≤ b.t) → L.Perm L2 →
      (L.map (fun x => x.t)).Nodup → L = L2 := by
  intro L
  induction L with
  | nil =>
    intro L2 _ _ hp _
    exact (List.Perm.nil_eq hp)
  | cons x L1 ih =>
    intro L2 hs hs2 hp hnd
    cases L2 with
    | nil => exact absurd hp.symm (List.not_perm_nil_cons _ _)
    | cons y L3 =>
      have hxy : x = y := by
        have hy : y ∈ x :: L1 := hp.symm.subset (List.mem_cons_self _ _)
        rcases List.mem_cons.1 hy with h | h
        · exact h.symm
        · exfalso
          have h1 : x.t ≤ y.t := List.rel_of_sorted_cons hs y h
          have hx : x ∈ y :: L3 := hp.subset (List.mem_cons_self _ _)
          have h2 : y.t ≤ x.t := by
            rcases List.mem_cons.1 hx with h3 | h3
            · rw [h3]
            · exact List.rel_of_sorted_cons hs2 x h3
          have hmem : x.t ∈ L1.map (fun x => x.t) :=
            List.mem_map.2 ⟨y, h, le_antisymm h2 h1⟩
          simp only [List.map_cons, List.nodup_cons] at hnd
          exact hnd.1 hmem
      subst hxy
      simp only [List.map_cons, List.nodup_cons] at hnd
      rw [ih L3 (List.Sorted.of_cons hs) (List.Sorted.of_cons hs2) hp.cons_inv hnd.2]

theorem expOf_eq_of_nodup_times {expected expected2 : List PlayEvent}
    (hE : expected.Perm expected2) (hnd : (expected.map (fun e => e.when)).Nodup) :
    expOf expected2 = expOf expected := by
  have hp : (sortByT (expected2.map (fun e => (⟨e.when, e.i⟩ : Ev)))).Perm
      (sortByT (expected.map (fun e => (⟨e.when, e.i⟩ : Ev)))) :=
    ((List.perm_insertionSort _ _).trans (hE.symm.map _)).trans
      (List.perm_insertionSort _ _).symm
  refine sorted_perm_eq_of_nodup_times _ _ (sorted_sortByT _) (sorted_sortByT _) hp ?_
  have hp2 : ((sortByT (expected2.map (fun e => (⟨e.when, e.i⟩ : Ev)))).map (fun x => x.t)).Perm
      (expected.map (fun e => e.when)) := by
    have h1 := ((List.perm_insertionSort (fun a b : Ev => a.t ≤ b.t)
      (expected2.map (fun e => (⟨e.when, e.i⟩ : Ev)))).trans (hE.symm.map _)).map
        (fun x : Ev => x.t)
    simpa [sortByT, List.map_map, Function.comp_def] using h1
  exact hp2.nodup_iff.2 hnd

/-- C4 (as stated, refuted): the expected events Kick at 0 s, Kick at 1 s, Snare at 1 s
and the same events with the last two exchanged are permutations of each other, the three
hit times are doubles, and with the same hits `scoreRound` on doubles gives score 3 for
the first list and score 4 for the second: the errors are summed in match order, and
`(e1 + e2) + e3` rounds to an average just above 90 where `(e1 + e3) + e2` gives 90. -/
theorem scoreRoundD_depends_on_order :
    orderExpected.Perm orderExpectedSwapped ∧
    (∀ h ∈ orderHits, roundDouble h.tSec = h.tSec) ∧
    (scoreRoundD orderExpected orderHits).score = 3 ∧
    (scoreRoundD orderExpectedSwapped orderHits).score = 4 ∧
    (scoreRoundD orderExpected orderHits).avgErrMs = 6333186975989761 / 2 ^ 46 ∧
    (scoreRoundD orderExpectedSwapped orderHits).avgErrMs = 90 := by
  refine ⟨List.Perm.cons _ (List.Perm.swap _ _ _), by decide!, by decide!, by decide!,
    by decide!, by decide!⟩

/-- C4 (amended): on doubles, for every permutation of the expected events and every
permutation of the hits, `scoreRound` yields the same misses, extras and number of
matches, and the same matched errors up to their order; the whole result (also score,
avgErrMs and effectiveErr) is the same whenever the two time-sorted arrays of expected
events coincide, which is so for every reordering of the hits alone and whenever no two
expected events share a time. -/
theorem scoreRoundD_perm_invariant (expected expected2 : List PlayEvent)
    (actual actual2 : List Hit) (hE : expected.Perm expected2) (hA : actual.Perm actual2) :
    (scoreRoundD expected2 actual2).misses = (scoreRoundD expected actual).misses ∧
    (scoreRoundD expected2 actual2).extras = (scoreRoundD expected actual).extras ∧
    (scoreRoundD expected2 actual2).matchList.length =
      (scoreRoundD expected actual).matchList.length ∧
    (scoreRoundD expected2 actual2).matchList.Perm (scoreRoundD expected actual).matchList ∧
    (expOf expected2 = expOf expected →
      scoreRoundD expected2 actual2 = scoreRoundD expected actual) ∧
    scoreRoundD expected actual2 = scoreRoundD expected actual ∧
    ((expected.map (fun e => e.when)).Nodup → expOf expected2 = expOf expected) := by
  have hact := matchLoop_chain_act_eqG (F := errMsD)
    (sortByT_perm_chain (hA.map (fun a => (⟨a.tSec, a.i⟩ : Ev))))
  have hexp := matchLoop_chain_expG (F := errMsD) (actOf actual2)
    (sortByT_perm_chain (hE.map (fun e => (⟨e.when, e.i⟩ : Ev))))
  have hexpLen : (expOf expected2).length = (expOf expected).length := by
    rw [length_expOf, length_expOf, hE.length_eq]
  have hactLen : (actOf actual2).length = (actOf actual).length := by
    rw [length_actOf, length_actOf, hA.length_eq]
  have hsame : ∀ E : List PlayEvent, scoreRoundD E actual2 = scoreRoundD E actual := by
    intro E
    obtain ⟨a1, a2⟩ := hact (expOf E)
    have hml : (scoreRoundD E actual2).matchList = (scoreRoundD E actual).matchList := by
      rw [scoreRoundD_matchList, scoreRoundD_matchList]
      exact a2
    have hmiss : (scoreRoundD E actual2).misses = (scoreRoundD E actual).misses := by
      rw [scoreRoundD_misses, scoreRoundD_misses, hml]
    have hextra : (scoreRoundD E actual2).extras = (scoreRoundD E actual).extras := by
      rw [scoreRoundD_extras, scoreRoundD_extras, hactLen]
      have : (matchLoopG errMsD (sortByT (List.map (fun a => (⟨a.tSec, a.i⟩ : Ev)) actual2))
          (expOf E) [] []).1.length =
          (matchLoopG errMsD (sortByT (List.map (fun a => (⟨a.tSec, a.i⟩ : Ev)) actual))
          (expOf E) [] []).1.length := a1
      unfold actOf
      rw [this]
    have havg : (scoreRoundD E actual2).avgErrMs = (scoreRoundD E actual).avgErrMs := by
      rw [scoreRoundD_avgErrMs, scoreRoundD_avgErrMs, hml]
    have heff : (scoreRoundD E actual2).effectiveErr = (scoreRoundD E actual).effectiveErr := by
      rw [scoreRoundD_effectiveErr, scoreRoundD_effectiveErr, havg, hmiss, hextra]
    have hscore : (scoreRoundD E actual2).score = (scoreRoundD E actual).score := by
      rw [scoreRoundD_score, scoreRoundD_score, heff, hmiss, hextra]
    cases hr2 : scoreRoundD E actual2
    cases hr1 : scoreRoundD E actual
    rw [hr2, hr1] at hml hmiss hextra havg heff hscore
    simp only at hml hmiss hextra havg heff hscore
    subst hml hmiss hextra havg heff hscore
    rfl
  obtain ⟨e1, e2⟩ := hexp
  have hml : (scoreRoundD expected2 actual2).matchList.Perm
      (scoreRoundD expected actual).matchList := by
    rw [← hsame expected, scoreRoundD_matchList, scoreRoundD_matchList]
    exact e2.symm
  have hmiss : (scoreRoundD expected2 actual2).misses = (scoreRoundD expected actual).misses := by
    rw [scoreRoundD_misses, scoreRoundD_misses, hexpLen, hml.length_eq]
  have hextra : (scoreRoundD expected2 actual2).extras = (scoreRoundD expected actual).extras := by
    rw [← hsame expected, scoreRoundD_extras, scoreRoundD_extras]
    have : (matchLoopG errMsD (actOf actual2) (expOf expected2) [] []).1.length =
        (matchLoopG errMsD (actOf actual2) (expOf expected) [] []).1.length := e1.symm
    rw [this]
  refine ⟨hmiss, hextra, hml.length_eq, hml, ?_, hsame expected,
    fun hnd => expOf_eq_of_nodup_times hE hnd⟩
  intro hexpEq
  rw [← hsame expected]
  unfold scoreRoundD
  rw [hexpEq]

/-- Witness for C4 (amended): the order example. The two lists of expected events are
permutations of each other and the hits are unchanged; misses, extras and the number of
matches agree. -/
theorem scoreRoundD_perm_invariant_witness :
    (scoreRoundD orderExpectedSwapped orderHits).misses =
      (scoreRoundD orderExpected orderHits).misses ∧
    (scoreRoundD orderExpectedSwapped orderHits).extras =
      (scoreRoundD orderExpected orderHits).extras ∧
    (scoreRoundD orderExpectedSwapped orderHits).matchList.length =
      (scoreRoundD orderExpected orderHits).matchList.length ∧
    (scoreRoundD orderExpected orderHits).matchList.length = 3 :=
  ⟨(scoreRoundD_perm_invariant orderExpected orderExpectedSwapped orderHits orderHits
      (List.Perm.cons _ (List.Perm.swap _ _ _)) (List.Perm.refl _)).1,
   (scoreRoundD_perm_invariant orderExpected orderExpectedSwapped orderHits orderHits
      (List.Perm.cons _ (List.Perm.swap _ _ _)) (List.Perm.refl _)).2.1,
   (scoreRoundD_perm_invariant orderExpected orderExpectedSwapped orderHits orderHits
      (List.Perm.cons _ (List.Perm.swap _ _ _)) (List.Perm.refl _)).2.2.1,
   by decide!⟩

end GotRhythm
